import Mathlib

/-!
# STP: hotkey-driven text transformation — verification development

Shallow embedding of the Go packages `internal/request`, `internal/response`,
`internal/netclient`, `internal/app`, `internal/hotkey` and `internal/config`,
followed by theorems about them.

Conventions of the embedding:

* A Go `string` is a Lean `String`; byte-level helpers of the `strings`
  package work on its list of characters.
* A Go `interface{}` holding a JSON-like value is a `Value`.  Besides the
  dynamic types produced by `encoding/json` (`nil`, `string`, `float64`,
  `bool`, `map[string]interface{}`, `[]interface{}`) it has the two dynamic
  types that `BuildPayload` itself stores: `int` and `[]map[string]string`.
* A Go `map[string]interface{}` is an association list; the list order stands
  for the (unspecified) iteration order and a well-formed map has pairwise
  distinct keys.  A nil map and an empty map are both the empty list.
* A `float64` is an `F64`: a signed dyadic number, an infinity or NaN.
* A state of a service is a structure; a channel is the list of its pending
  items, oldest first, and a call of the API or of a callback is one
  transition.  A run-time panic is the error of an `Except Panic`.
-/

namespace STP

/-! ## Go strings -/

/-- Go `unicode.IsSpace`: the Unicode White_Space code points. -/
def isSpace (c : Char) : Bool :=
  let n := c.toNat
  (9 ≤ n && n ≤ 13) || n = 0x20 || n = 0x85 || n = 0xA0 || n = 0x1680 ||
  (0x2000 ≤ n && n ≤ 0x200A) || n = 0x2028 || n = 0x2029 || n = 0x202F ||
  n = 0x205F || n = 0x3000

/-- Characters of a string with leading and trailing white space removed. -/
def trimChars (cs : List Char) : List Char :=
  ((cs.dropWhile isSpace).reverse.dropWhile isSpace).reverse

/-- Go `strings.TrimSpace`. -/
def TrimSpace (s : String) : String := ⟨trimChars s.data⟩

/-! ## float64 -/

/-- A `float64` value: `finite neg mant exp` is `(-1)^neg * mant * 2^exp`. -/
inductive F64 where
  | finite (neg : Bool) (mant : Nat) (exp : Int)
  | inf (neg : Bool)
  | nan
deriving DecidableEq

/-! ## Dynamic values -/

/-- A Go `interface{}` as it occurs in payloads and decoded responses. -/
inductive Value where
  | nil
  | str (s : String)
  | float (f : F64)
  | int (n : Int)
  | bool (b : Bool)
  | obj (m : List (String × Value))
  | arr (xs : List Value)
  | msgs (ms : List (List (String × String)))

/-- The comparison `v == nil` on an `interface{}`. -/
def Value.isNil : Value → Bool
  | .nil => true
  | _ => false

/-- The map read `m[k]` with its presence flag. -/
def mapGet : List (String × Value) → String → Option Value
  | [], _ => none
  | (k', v) :: rest, k => if k' = k then some v else mapGet rest k

/-- The map write `m[k] = v`. -/
def mapSet : List (String × Value) → String → Value → List (String × Value)
  | [], k, v => [(k, v)]
  | (k', v') :: rest, k, v =>
    if k' = k then (k, v) :: rest else (k', v') :: mapSet rest k v

/-- The builtin `delete(m, k)`. -/
def mapDelete : List (String × Value) → String → List (String × Value)
  | [], _ => []
  | (k', v') :: rest, k =>
    if k' = k then mapDelete rest k else (k', v') :: mapDelete rest k

/-- The loop `for k, v := range src { dst[k] = v }`. -/
def mapCopyInto (dst src : List (String × Value)) : List (String × Value) :=
  src.foldl (fun acc kv => mapSet acc kv.1 kv.2) dst

/-- Well-formedness of a map: its keys are pairwise distinct. -/
def keysNodup (m : List (String × Value)) : Prop := (m.map Prod.fst).Nodup

instance (m : List (String × Value)) : Decidable (keysNodup m) := by
  unfold keysNodup; infer_instance

/-! ## Package `request` -/

/-- Go `request.RuntimeOverrides`. -/
structure RuntimeOverrides where
  APIEndpoint : String := ""
  Token : String := ""
  TEXTPath : String := ""
deriving DecidableEq

/-- Go `request.BuildInput`. -/
structure BuildInput where
  Model : String
  Temperature : F64
  MaxTokens : Int
  Prompt : String
  UserText : String
  Extra : List (String × Value)

/-- Go `request.MergeExtra`.  The first early return (both arguments nil) and
the last one (`len(out) == 0`) both give the nil map, which is the empty list
here, as is the merge of two empty maps. -/
def MergeExtra (base override : List (String × Value)) : List (String × Value) :=
  let out : List (String × Value) := []
  let out := mapCopyInto out base
  let out := mapCopyInto out override
  if out.length = 0 then [] else out

mutual
/-- Go `request.cleanValue`; the result `.nil` means the value is dropped. -/
def cleanValue : Value → Value
  | .nil => .nil
  | .str t => if TrimSpace t = "" then .nil else .str t
  | .obj t =>
    let m := StripEmptyFields t
    if m.length = 0 then .nil else .obj m
  | .arr t =>
    let arr := cleanItems t
    if arr.length = 0 then .nil else .arr arr
  | .float f => .float f
  | .int n => .int n
  | .bool b => .bool b
  | .msgs ms => .msgs ms
/-- Go `request.StripEmptyFields`. -/
def StripEmptyFields : List (String × Value) → List (String × Value)
  | [] => []
  | (k, v) :: rest =>
    let cleaned := cleanValue v
    if cleaned.isNil then StripEmptyFields rest
    else (k, cleaned) :: StripEmptyFields rest
/-- The loop over the items of a `[]interface{}` inside `cleanValue`. -/
def cleanItems : List Value → List Value
  | [] => []
  | item :: rest =>
    let cleaned := cleanValue item
    if cleaned.isNil then cleanItems rest else cleaned :: cleanItems rest
end

/-- The two-entry message list stored under `messages`. -/
def messagesOf (prompt userText : String) : Value :=
  .msgs [[("role", "developer"), ("content", prompt)],
         [("role", "user"), ("content", userText)]]

/-- Go `request.BuildPayload`. -/
def BuildPayload (i : BuildInput) : List (String × Value) :=
  let payload : List (String × Value) := []
  let payload := if i.Model ≠ "" then mapSet payload "model" (.str i.Model) else payload
  let payload := mapSet payload "messages" (messagesOf i.Prompt i.UserText)
  let payload := if i.MaxTokens > 0 then mapSet payload "max_tokens" (.int i.MaxTokens) else payload
  let payload := mapSet payload "temperature" (.float i.Temperature)
  let payload := mapCopyInto payload i.Extra
  StripEmptyFields payload

/-- The first half of `BuildPayload`: the payload before the extra fields are
overlaid. -/
def templatePayload (i : BuildInput) : List (String × Value) :=
  let payload : List (String × Value) := []
  let payload := if i.Model ≠ "" then mapSet payload "model" (.str i.Model) else payload
  let payload := mapSet payload "messages" (messagesOf i.Prompt i.UserText)
  let payload := if i.MaxTokens > 0 then mapSet payload "max_tokens" (.int i.MaxTokens) else payload
  mapSet payload "temperature" (.float i.Temperature)

/-- The template defaults as the specification lists them: `model` only when
non-empty, `max_tokens` only when positive, `temperature` and `messages`
always. -/
def templateDefault (i : BuildInput) (k : String) : Option Value :=
  if k = "model" then (if i.Model = "" then none else some (.str i.Model))
  else if k = "messages" then some (messagesOf i.Prompt i.UserText)
  else if k = "max_tokens" then (if 0 < i.MaxTokens then some (.int i.MaxTokens) else none)
  else if k = "temperature" then some (.float i.Temperature)
  else none

/-- Empty-field stripping of one chosen field value: the field is absent when
its cleaned value is nil. -/
def strippedField (v : Option Value) : Option Value :=
  match v with
  | none => none
  | some x => if (cleanValue x).isNil then none else some (cleanValue x)

/-- The field chosen by the precedence per-task, then global, then template. -/
def chosenField (i : BuildInput) (global perTask : List (String × Value))
    (k : String) : Option Value :=
  match mapGet perTask k with
  | some v => some v
  | none =>
    match mapGet global k with
    | some v => some v
    | none => templateDefault i k

mutual
/-- A value of the JSON data model: null, string, number, boolean, array or
mapping, at every depth. -/
def Value.isJSON : Value → Bool
  | .nil => true
  | .str _ => true
  | .float _ => true
  | .bool _ => true
  | .obj m => fieldsJSON m
  | .arr xs => itemsJSON xs
  | .int _ => false
  | .msgs _ => false
/-- Every field value of a mapping is a JSON value. -/
def fieldsJSON : List (String × Value) → Bool
  | [] => true
  | (_, v) :: rest => v.isJSON && fieldsJSON rest
/-- Every item of an array is a JSON value. -/
def itemsJSON : List Value → Bool
  | [] => true
  | v :: rest => v.isJSON && itemsJSON rest
end

mutual
/-- A JSON value that is not a null, a white-space-only string, an empty
array or an empty mapping, and contains none of these at any depth. -/
def Value.noEmpty : Value → Bool
  | .nil => false
  | .str s => !(TrimSpace s == "")
  | .float _ => true
  | .bool _ => true
  | .obj m => !m.isEmpty && fieldsNoEmpty m
  | .arr xs => !xs.isEmpty && itemsNoEmpty xs
  | .int _ => false
  | .msgs _ => false
/-- No field of the mapping holds or contains an empty value. -/
def fieldsNoEmpty : List (String × Value) → Bool
  | [] => true
  | (_, v) :: rest => v.noEmpty && fieldsNoEmpty rest
/-- No item of the array is or contains an empty value. -/
def itemsNoEmpty : List Value → Bool
  | [] => true
  | v :: rest => v.noEmpty && itemsNoEmpty rest
end

/-! ## float64 arithmetic and number formatting (Go language and `strconv`) -/

/-- Number of binary digits of `n` (`fuel` bounds the number of halvings). -/
def bitLenAux : Nat → Nat → Nat
  | 0, _ => 0
  | fuel + 1, n => if n = 0 then 0 else 1 + bitLenAux fuel (n / 2)

/-- Number of binary digits of `n`; `bitLen 0 = 0`. -/
def bitLen (n : Nat) : Nat := bitLenAux n n

/-- The magnitude is one a float64 can hold: at most 53 significant bits and
an exponent inside the range of the format. -/
def F64.isDouble : F64 → Bool
  | .finite _ m e => decide (m < 2 ^ 53) && decide (-1074 ≤ e) && decide (e ≤ 971)
  | _ => true

/-- The float64 nearest to the exact value `m * 2^e` (ties to even), with
overflow to infinity and gradual underflow. -/
def F64.round (neg : Bool) (m : Nat) (e : Int) : F64 :=
  let b : Int := bitLen m
  let sh : Int := max (b - 53) (-1074 - e)
  let q : Nat :=
    if sh ≤ 0 then m
    else
      let s := sh.toNat
      let q := m / 2 ^ s
      let r := m % 2 ^ s
      let half := 2 ^ (s - 1)
      if half < r || (r == half && q % 2 == 1) then q + 1 else q
  let e' : Int := if sh ≤ 0 then e else e + sh
  if (bitLen q : Int) + e' > 1024 then .inf neg else .finite neg q e'

/-- Go conversion `float64(n)` of an `int64`. -/
def F64.ofInt64 (n : Int) : F64 := F64.round (decide (n < 0)) n.natAbs 0

/-- Go conversion `int64(v)` of a `float64`: truncation toward zero; a value
that does not fit, an infinity or NaN gives `-2^63`, the result of the amd64
conversion instruction. -/
def F64.toInt64 : F64 → Int
  | .finite neg m e =>
    let mag : Nat := if 0 ≤ e then m * 2 ^ e.toNat else m / 2 ^ (-e).toNat
    let n : Int := if neg then -(mag : Int) else mag
    if -2 ^ 63 ≤ n ∧ n < 2 ^ 63 then n else -2 ^ 63
  | _ => -2 ^ 63

/-- The comparison `a == b` of two `float64`. -/
def F64.eq : F64 → F64 → Bool
  | .finite n1 m1 e1, .finite n2 m2 e2 =>
    let e := min e1 e2
    let a := m1 * 2 ^ (e1 - e).toNat
    let b := m2 * 2 ^ (e2 - e).toNat
    a == b && (n1 == n2 || a == 0)
  | .inf a, .inf b => a == b
  | _, _ => false

/-- Go float64 product `a * b`. -/
def F64.mul : F64 → F64 → F64
  | .finite n1 m1 e1, .finite n2 m2 e2 => F64.round (n1 != n2) (m1 * m2) (e1 + e2)
  | .finite n1 m1 _, .inf n2 => if m1 = 0 then .nan else .inf (n1 != n2)
  | .inf n1, .finite n2 m2 _ => if m2 = 0 then .nan else .inf (n1 != n2)
  | .inf n1, .inf n2 => .inf (n1 != n2)
  | _, _ => .nan

/-- The integer a float64 is equal to, when it is finite and integral. -/
def F64.intValue : F64 → Option Int
  | .finite neg m e =>
    if 0 ≤ e then some (if neg then -((m * 2 ^ e.toNat : Nat) : Int) else ((m * 2 ^ e.toNat : Nat) : Int))
    else if m % 2 ^ (-e).toNat = 0 then
      some (if neg then -((m / 2 ^ (-e).toNat : Nat) : Int) else ((m / 2 ^ (-e).toNat : Nat) : Int))
    else none
  | _ => none

/-- Decimal digits of a natural number, most significant first (`fuel` bounds
the number of digits). -/
def natDigitsAux : Nat → Nat → List Char → List Char
  | 0, _, acc => acc
  | fuel + 1, n, acc =>
    let acc := Char.ofNat (48 + n % 10) :: acc
    if n < 10 then acc else natDigitsAux fuel (n / 10) acc

/-- Decimal digits of a natural number, most significant first. -/
def natDigits (n : Nat) : List Char := natDigitsAux (n + 1) n []

/-- Go `fmt.Sprintf("%d", n)` for an `int64`. -/
def fmtD (n : Int) : String :=
  if n < 0 then ⟨'-' :: natDigits n.natAbs⟩ else ⟨natDigits n.natAbs⟩

/-- The mantissa and exponent of a float64 magnitude in the normal form of
the format: 53 significant bits, or exponent `-1074` for a subnormal. -/
def F64.canon (m : Nat) (e : Int) : Nat × Int :=
  let b := bitLen m
  if 53 < b then (m / 2 ^ (b - 53), e + ((b - 53 : Nat) : Int))
  else
    let s := min (53 - b) (e + 1074).toNat
    (m * 2 ^ s, e - (s : Int))

/-- Search downward from `k` for the decimal exponent of `num / den`: the
first `k` with `10^k ≤ num / den`. -/
def decExpAux : Nat → Int → Nat → Nat → Int
  | 0, k, _, _ => k
  | fuel + 1, k, num, den =>
    let ok := if 0 ≤ k then den * 10 ^ k.toNat ≤ num else den ≤ num * 10 ^ (-k).toNat
    if ok then k else decExpAux fuel (k - 1) num den

/-- An upper estimate of the decimal exponent of `num / den` from the bit
lengths, with `log10 2 < 30103 / 100000`. -/
def decExpGuess (num den : Nat) : Int :=
  (((bitLen num : Int) - (bitLen den : Int) + 1) * 30103) / 100000 + 1

/-- The power of ten `10^p` as a fraction of two naturals. -/
def pow10Frac (p : Int) : Nat × Nat :=
  if 0 ≤ p then (10 ^ p.toNat, 1) else (1, 10 ^ (-p).toNat)

/-- The digit walk of `strconv`'s shortest formatting.  With `n` digits,
counted from the leading digit position `K` of the upper bound, the exact
value `v / den` may be rounded down when the result stays above the lower bound
`lo / den`, and up when the result stays below the upper bound `hi / den` (the
bounds themselves count when `incl`); when both are allowed the nearest one is
taken, ties to even.  Returns the digits as a number and the power of ten of
the last digit. -/
def shortestAux : Nat → Nat → Int → Nat → Nat → Nat → Nat → Bool → Nat × Int
  | 0, _, K, v, _, _, den, _ => (v / den, K)
  | fuel + 1, n, K, v, lo, hi, den, incl =>
    let p : Int := K - (n : Int) + 1
    let ab := pow10Frac p
    let a := ab.1
    let b := ab.2
    let t := (v * b) / (den * a)
    let down := t * a * den
    let up := (t + 1) * a * den
    let okdown := lo * b < down || (incl && lo * b == down)
    let okup := up < hi * b || (incl && up == hi * b)
    let twice := 2 * (v * b - down)
    let unit := a * den
    let roundUp := unit < twice || (twice == unit && t % 2 == 1)
    if okdown && okup then (if roundUp then (t + 1, p) else (t, p))
    else if okdown then (t, p)
    else if okup then (t + 1, p)
    else shortestAux fuel (n + 1) K v lo hi den incl

/-- Remove the trailing zeros of a digit list. -/
def trimZeros (ds : List Char) : List Char :=
  (ds.reverse.dropWhile (fun c => c = '0')).reverse

/-- The shortest decimal digits that identify the positive float64
`m * 2^e` (Go `strconv`, shortest formatting), and the position `dp` of the
decimal point: the value is `0.d1 d2 ... × 10^dp`.  The bounds are the
midpoints to the neighbouring float64 values. -/
def shortestDigits (m : Nat) (e : Int) : List Char × Int :=
  let c := F64.canon m e
  let m := c.1
  let e := c.2
  let E := e - 2
  let boundary := m == 2 ^ 52 && decide (-1074 < e)
  let scale : Nat := if 0 ≤ E then 2 ^ E.toNat else 1
  let den : Nat := if 0 ≤ E then 1 else 2 ^ (-E).toNat
  let v := 4 * m * scale
  let hi := (4 * m + 2) * scale
  let lo := (if boundary then 4 * m - 1 else 4 * m - 2) * scale
  let K := decExpAux 8 (decExpGuess hi den) hi den
  let r := shortestAux 800 1 K v lo hi den (m % 2 == 0)
  let ds := natDigits r.1
  (trimZeros ds, (ds.length : Int) + r.2)

/-- The digit at index `i` of a digit list, `'0'` outside it. -/
def digitAt (ds : List Char) (i : Int) : Char :=
  if 0 ≤ i then ds.getD i.toNat '0' else '0'

/-- Go `fmt.Sprintf("%v", v)` for a `float64`, which is
`strconv.FormatFloat(v, 'g', -1, 64)`: the shortest digits, in `%e` form when
the decimal exponent is below `-4` or at least `6`, in `%f` form otherwise.
The bound `6` is the one `strconv` uses for shortest formatting as recalled
from its source; it has not been checked against a Go toolchain.  Values of
magnitude `10^21` and above take the `%e` form under either reading. -/
def fmtV : F64 → String
  | .nan => "NaN"
  | .inf neg => if neg then "-Inf" else "+Inf"
  | .finite neg m e =>
    let sign : List Char := if neg then ['-'] else []
    if m = 0 then ⟨sign ++ ['0']⟩
    else
      let sd := shortestDigits m e
      let ds := sd.1
      let dp := sd.2
      let x := dp - 1
      if x < -4 || 6 ≤ x then
        let frac := if 1 < ds.length then '.' :: ds.drop 1 else []
        let ex := natDigits x.natAbs
        let ex := if ex.length < 2 then '0' :: ex else ex
        ⟨sign ++ ds.take 1 ++ frac ++ ['e', if x < 0 then '-' else '+'] ++ ex⟩
      else
        let ip := if 0 < dp then (List.range dp.toNat).map (fun i => digitAt ds i) else ['0']
        let prec := ((ds.length : Int) - dp).toNat
        let fp :=
          if 0 < prec then '.' :: (List.range prec).map (fun i => digitAt ds (dp + i)) else []
        ⟨sign ++ ip ++ fp⟩

/-- The decimal-digit test `'0' <= c && c <= '9'`. -/
def isDigitChar (c : Char) : Bool := decide ('0' ≤ c ∧ c ≤ '9')

/-- The characters of a numeral after its optional minus sign. -/
def stripMinus : List Char → List Char
  | '-' :: r => r
  | r => r

/-- A string that is a plain base-10 integer: an optional minus sign and then
one or more decimal digits, nothing else. -/
def isPlainInt (s : String) : Bool :=
  let ds := stripMinus s.data
  !ds.isEmpty && ds.all isDigitChar

/-! ## Package `response` -/

/-- Go `strings.Split(s, sep)` for a one-character separator. -/
def splitOnChar (c : Char) : List Char → List (List Char)
  | [] => [[]]
  | x :: xs =>
    if x = c then [] :: splitOnChar c xs
    else
      match splitOnChar c xs with
      | [] => [[x]]
      | p :: ps => (x :: p) :: ps

/-- Go `strings.Index(s, sub)` for a one-character `sub`; `none` is `-1`. -/
def indexOfChar (c : Char) : List Char → Option Nat
  | [] => none
  | x :: xs => if x = c then some 0 else (indexOfChar c xs).map (· + 1)

/-- The digits of a numeral after its optional sign. -/
def stripSign : List Char → List Char
  | '-' :: r => r
  | '+' :: r => r
  | r => r

/-- The number read from a list of decimal digits. -/
def digitsVal (ds : List Char) : Nat := ds.foldl (fun a c => a * 10 + (c.toNat - 48)) 0

/-- Go `strconv.Atoi` with a 64-bit `int`: an optional sign, then one or more
decimal digits, the value inside the `int` range; `none` is an error. -/
def Atoi (s : List Char) : Option Int :=
  let neg : Bool := s.head? = some '-'
  let ds := stripSign s
  if ds.isEmpty || !ds.all isDigitChar then none
  else
    let n : Nat := digitsVal ds
    let v : Int := if neg then -(n : Int) else n
    if -2 ^ 63 ≤ v ∧ v < 2 ^ 63 then some v else none

/-- The loop `for len(rest) > 0` of `parseKeyAndIndexes`; every round removes
at least the two brackets, `fuel` bounds the number of rounds. -/
def parseIndexes : Nat → List Char → List Int → Option (List Int)
  | 0, _, _ => none
  | fuel + 1, rest, idxs =>
    if rest.length > 0 then
      if rest.head? ≠ some '[' then none
      else
        match indexOfChar ']' rest with
        | none => none
        | some closePos =>
          match Atoi ((rest.take closePos).drop 1) with
          | none => none
          | some n => parseIndexes fuel (rest.drop (closePos + 1)) (idxs ++ [n])
    else some idxs

/-- Go `response.parseKeyAndIndexes`; `none` is an error. -/
def parseKeyAndIndexes (token : String) : Option (String × List Int) :=
  if token = "" then none
  else
    match indexOfChar '[' token.data with
    | none => some (token, [])
    | some br =>
      let key : String := ⟨token.data.take br⟩
      let rest := token.data.drop br
      match parseIndexes (rest.length + 1) rest [] with
      | none => none
      | some idxs => some (key, idxs)

/-- The loop `for _, idx := range idxs` of `extractByPath`. -/
def walkIndexes : Value → List Int → Option Value
  | cur, [] => some cur
  | cur, idx :: rest =>
    match cur with
    | .arr arr =>
      if idx < 0 ∨ idx ≥ arr.length then none
      else
        match arr.get? idx.toNat with
        | none => none
        | some next => walkIndexes next rest
    | _ => none

/-- The loop `for _, part := range parts` of `extractByPath`. -/
def walkParts : Value → List String → Option Value
  | cur, [] => some cur
  | cur, part :: rest =>
    match parseKeyAndIndexes part with
    | none => none
    | some (key, idxs) =>
      let afterKey : Option Value :=
        if key ≠ "" then
          match cur with
          | .obj m => mapGet m key
          | _ => none
        else some cur
      match afterKey with
      | none => none
      | some cur =>
        match walkIndexes cur idxs with
        | none => none
        | some cur => walkParts cur rest

/-- The final `switch` of `extractByPath` on the value reached. -/
def renderTerminal : Value → Option String
  | .str v => some v
  | .float v =>
    if F64.eq v (F64.ofInt64 (F64.toInt64 v)) then some (fmtD (F64.toInt64 v))
    else some (fmtV v)
  | .bool v => some (if v then "true" else "false")
  | _ => none

/-- Go `response.extractByPath`; `none` is the result `("", false)`. -/
def extractByPath (root : Value) (path : String) : Option String :=
  if path = "" then none
  else
    let parts := (splitOnChar '.' path.data).map String.mk
    match walkParts root parts with
    | none => none
    | some cur => renderTerminal cur

/-- The loop `for _, v := range m` at the end of `ExtractTextFromResponse`:
the first non-empty string field in iteration order. -/
def firstStringField : List (String × Value) → String
  | [] => ""
  | (_, .str s) :: rest => if s ≠ "" then s else firstStringField rest
  | _ :: rest => firstStringField rest

/-- The end of `ExtractTextFromResponse`, reached when no path resolved (the
structural fallback): the string under `text` of a mapping root, otherwise the
first non-empty string field, otherwise the empty string. -/
def structuralFallback : Value → String
  | .obj m =>
    match mapGet m "text" with
    | some (.str s) => s
    | _ => firstStringField m
  | _ => ""

/-- Go `response.ExtractTextFromResponse`.  `unmarshal` is `json.Unmarshal`
into an `interface{}`; `none` is a decoding error. -/
def ExtractTextFromResponse (unmarshal : String → Option Value) (body : String)
    (overrideTEXTPath defaultTEXTPath : String) : String :=
  match unmarshal body with
  | none => ""
  | some root =>
    let textPath := TrimSpace overrideTEXTPath
    let textPath := if textPath = "" then TrimSpace defaultTEXTPath else textPath
    let byPath := if textPath ≠ "" then extractByPath root textPath else none
    match byPath with
    | some out => out
    | none => structuralFallback root

/-- The path that is tried: the trimmed override when it is not blank,
otherwise the trimmed default. -/
def effectivePath (overrideTEXTPath defaultTEXTPath : String) : String :=
  if TrimSpace overrideTEXTPath = "" then TrimSpace defaultTEXTPath
  else TrimSpace overrideTEXTPath

/-! ## Paths as the specification describes them -/

/-- A path segment: an optional key name (empty when absent) followed by zero
or more bracketed indices. -/
structure Segment where
  key : String
  idxs : List Nat

/-- The text of the bracketed indices `[i1][i2]...`. -/
def indexText : List Nat → List Char
  | [] => []
  | i :: rest => '[' :: natDigits i ++ ']' :: indexText rest

/-- The text of a segment: `key[i1][i2]...`. -/
def Segment.text (s : Segment) : List Char := s.key.data ++ indexText s.idxs

/-- Go `strings.Join(parts, ".")`. -/
def joinDots : List (List Char) → List Char
  | [] => []
  | [t] => t
  | t :: rest => t ++ '.' :: joinDots rest

/-- The text of a path: its segments separated by dots. -/
def pathText (segs : List Segment) : String := ⟨joinDots (segs.map Segment.text)⟩

/-- A segment as the path grammar allows it: the key holds neither a dot nor
an opening bracket, the segment is not empty, the indices fit an `int`. -/
def Segment.wellFormed (s : Segment) : Prop :=
  '.' ∉ s.key.data ∧ '[' ∉ s.key.data ∧ (s.key ≠ "" ∨ s.idxs ≠ []) ∧ ∀ i ∈ s.idxs, i < 2 ^ 63

/-- Applying one index: the current value must be a sequence and the index
inside it. -/
def followIndex (cur : Option Value) (i : Nat) : Option Value :=
  match cur with
  | some (.arr xs) => xs.get? i
  | _ => none

/-- Applying one segment as the specification says: the key first (the
current value must be a mapping that has the key), then the indices in
order. -/
def followSegment (cur : Option Value) (s : Segment) : Option Value :=
  let afterKey : Option Value :=
    if s.key = "" then cur
    else
      match cur with
      | some (.obj m) => mapGet m s.key
      | _ => none
  s.idxs.foldl followIndex afterKey

/-- The value reached by applying the segments one after another. -/
def followPath (root : Value) (segs : List Segment) : Option Value :=
  segs.foldl followSegment (some root)

/-- A digit string: decimal digits only, hence none of the characters of the
path grammar. -/
def isDigitOnly (ds : List Char) : Prop :=
  ds.all isDigitChar = true ∧ '.' ∉ ds ∧ '[' ∉ ds ∧ ']' ∉ ds ∧ '-' ∉ ds ∧ '+' ∉ ds

/-! ## Example data -/

/-- The response of the path test with the content `s`:
`{"choices":[{"message":{"content":s}}]}`. -/
def choicesResponse (s : String) : Value :=
  .obj [("choices", .arr [.obj [("message", .obj [("content", .str s)])]])]

/-- The float64 nearest to `10^30`; it is the integer
`1000000000000000019884624838656 = 7105427357601002 * 2^47`. -/
def tenPow30 : F64 := .finite false 7105427357601002 47

/-- A response with an `answer` field next to the `text` field:
`{"answer":"A","text":"T"}`. -/
def orderRoot : Value := .obj [("answer", .str "A"), ("text", .str "T")]

/-! ## Package `netclient` -/

/-- A Go `error` value, as far as the program distinguishes errors. -/
inductive GoError where
  | canceled
  | deadlineExceeded
  | other (msg : String)
deriving DecidableEq

/-- The HTTP request built for one attempt. -/
structure Request where
  url : String
  contentType : String
  userAgent : String
  authorization : Option String
  body : String
deriving DecidableEq

/-- What one call `doer.Do(req)` gives back: a transport error, or a response
with its status code, its body and the error of reading that body. -/
inductive DoResult where
  | err (e : GoError)
  | resp (status : Int) (body : String) (readErr : Option GoError)

/-- An observable call made by a job to one of its collaborators. -/
inductive Effect where
  | copySelected
  | httpDo (req : Request)
  | sleep (d : Int)
  | pasteText (text : String)
deriving DecidableEq

/-- The surroundings of one `SendWithRetry` call.  `doer n req` is the answer
to the `n`-th call of `doer.Do`, `ctxErr n` is `ctx.Err()` as read right
after that call returned an error, `sleep n d` is the result of `opts.Sleep`
(by default `sleepWithContext`) after the `n`-th attempt, `marshal` is
`json.Marshal` and `newRequest` the error of `http.NewRequestWithContext`. -/
structure NetEnv where
  marshal : List (String × Value) → Except GoError String
  newRequest : String → Option GoError
  doer : Nat → Request → DoResult
  ctxErr : Nat → Option GoError
  sleep : Nat → Int → Option GoError

/-- Go `netclient.RetryOptions`; the `Sleep` function is part of `NetEnv`,
durations are nanoseconds. -/
structure RetryOptions where
  MaxRetry : Int
  BaseDelay : Int
  Debug : Bool := false
  UserAgent : String := ""

/-- Wrap-around of `int64` arithmetic. -/
def wrap64 (x : Int) : Int := (x + 2 ^ 63) % 2 ^ 64 - 2 ^ 63

/-- The end of `SendWithRetry`, after the loop: the last error, or the error
`request failed` when there is none. -/
def afterAttempts (lastErr : Option GoError) (tr : List Effect) :
    Except GoError String × List Effect :=
  match lastErr with
  | some e => (.error e, tr)
  | none => (.error (.other "request failed"), tr)

/-- The `for attempt := 1; attempt <= opts.MaxRetry; attempt++` loop of
`SendWithRetry` with what follows it; the first argument counts the
iterations that are left, `maxRetry - attempt + 1`, and `tr` collects the
calls made so far. -/
def sendAttempts (env : NetEnv) (endpoint token data userAgent : String) (maxRetry : Int) :
    Nat → Int → Int → Option GoError → List Effect → Except GoError String × List Effect
  | 0, _, _, lastErr, tr => afterAttempts lastErr tr
  | remaining + 1, attempt, delay, _, tr =>
    match env.newRequest endpoint with
    | some e => (.error e, tr)
    | none =>
      let req : Request :=
        { url := endpoint
          contentType := "application/json"
          userAgent := userAgent
          authorization := if token ≠ "" then some ("Bearer " ++ token) else none
          body := data }
      let tr := tr ++ [Effect.httpDo req]
      let outcome : Except (Except GoError String) GoError :=
        match env.doer attempt.toNat req with
        | .err e =>
          match env.ctxErr attempt.toNat with
          | some c => .error (.error c)
          | none => .ok e
        | .resp status body readErr =>
          match readErr with
          | some re => .ok re
          | none =>
            if status ≥ 200 ∧ status < 300 then .error (.ok body)
            else .ok (.other ("status " ++ toString status ++ ": " ++ body))
      match outcome with
      | .error result => (result, tr)
      | .ok e =>
        if attempt = maxRetry then afterAttempts (some e) tr
        else
          let tr := tr ++ [Effect.sleep delay]
          match env.sleep attempt.toNat delay with
          | some se => (.error se, tr)
          | none =>
            sendAttempts env endpoint token data userAgent maxRetry remaining
              (attempt + 1) (wrap64 (delay * 2)) (some e) tr

/-- Go `netclient.SendWithRetry`: the result and the calls made. -/
def SendWithRetry (env : NetEnv) (endpoint token : String)
    (payload : List (String × Value)) (opts : RetryOptions) :
    Except GoError String × List Effect :=
  if endpoint = "" then (.error (.other "API endpoint empty"), [])
  else
    let maxRetry := if opts.MaxRetry ≤ 0 then 1 else opts.MaxRetry
    let baseDelay := if opts.BaseDelay < 0 then 0 else opts.BaseDelay
    let userAgent := if opts.UserAgent = "" then "clip-hotkey-client/1.0" else opts.UserAgent
    match env.marshal payload with
    | .error e => (.error e, [])
    | .ok data =>
      sendAttempts env endpoint token data userAgent maxRetry maxRetry.toNat 1 baseDelay none []

/-! ## Package `request`: configuration strings -/

/-- Go `request.ParseExtraConfig`.  `unmarshal` is `json.Unmarshal` into an
`interface{}`; decoding into the map variable succeeds for an object and for
`null` (which leaves the nil map) and fails for every other JSON value. -/
def ParseExtraConfig (unmarshal : String → Option Value) (raw : String) :
    Option (List (String × Value)) :=
  let raw := TrimSpace raw
  if raw = "" then some []
  else
    match unmarshal raw with
    | some (.obj m) => some m
    | some .nil => some []
    | _ => none

/-- One of the three blocks of `ExtractRuntimeOverrides`: when `key` is
present its trimmed string value (empty for another type) is the override and
the key is deleted from `clean`. -/
def takeOverride (clean : List (String × Value)) (key : String) :
    String × List (String × Value) :=
  match mapGet clean key with
  | some v =>
    ((match v with
      | .str s => TrimSpace s
      | _ => ""), mapDelete clean key)
  | none => ("", clean)

/-- Go `request.ExtractRuntimeOverrides`.  For the nil map the source returns
early with no overrides and the nil map, which is what the general path gives
for the empty list. -/
def ExtractRuntimeOverrides (extra : List (String × Value)) :
    RuntimeOverrides × List (String × Value) :=
  let clean := mapCopyInto [] extra
  let r1 := takeOverride clean "APIEndpoint"
  let r2 := takeOverride r1.2 "Token"
  let r3 := takeOverride r2.2 "TEXTPath"
  ({ APIEndpoint := r1.1, Token := r2.1, TEXTPath := r3.1 }, r3.2)

/-! ## Package `config` -/

/-- Go `config.HotKeyEntry`. -/
structure HotKeyEntry where
  Prompt : String
  HotKey : String
  ExtraConfig : String
deriving DecidableEq

/-- Go `config.Config`. -/
structure Config where
  APIEndpoint : String
  Token : String
  Model : String
  Temperature : F64
  MaxTokens : Int
  TEXTPath : String
  ExtraConfig : String
  RequestTimeout : Int
  MaxRetry : Int
  RetryBaseDelay : F64
  EnableHTTP2 : Bool
  VerifySSL : Bool
  ClipboardTimeout : Int
  RequestFailedNotification : Bool
  StopTaskHotkey : String
  HotKeyConfig : List HotKeyEntry
  HotKeyHook : Bool
  DEBUG : Bool
deriving DecidableEq

/-! ## Package `app`: one job -/

/-- The collaborators of one job: the result of `textIO.CopySelected`, the
JSON decoder and the surroundings of the dispatch.  (`textIO.PasteText` is
recorded as an effect; its error only feeds a debug message.) -/
structure JobEnv where
  copy : Except GoError String
  unmarshal : String → Option Value
  net : NetEnv

/-- Everything `handleTask` has computed when it reaches the dispatch. -/
structure Dispatch where
  endpoint : String
  token : String
  payload : List (String × Value)
  opts : RetryOptions
  textPath : String

/-- The first part of `app.handleTask`, up to the call of `SendWithRetry`:
the calls made and, unless the job has ended, what is dispatched. -/
def prepareJob (cfg : Config) (globalExtra : List (String × Value)) (env : JobEnv)
    (id : Int) : List Effect × Option Dispatch :=
  if id < 1 ∨ id > cfg.HotKeyConfig.length then ([], none)
  else
    match cfg.HotKeyConfig.get? (id - 1).toNat with
    | none => ([], none)
    | some entry =>
      let prompt := TrimSpace entry.Prompt
      if prompt = "" then ([], none)
      else
        match env.copy with
        | .error _ => ([Effect.copySelected], none)
        | .ok selectedText =>
          if TrimSpace selectedText = "" then ([Effect.copySelected], none)
          else
            let perExtra : List (String × Value) :=
              match ParseExtraConfig env.unmarshal entry.ExtraConfig with
              | none => []
              | some m => m
            let ro := ExtractRuntimeOverrides perExtra
            let runtimeOverrides := ro.1
            let perExtraClean := ro.2
            let payload := BuildPayload
              { Model := cfg.Model
                Temperature := cfg.Temperature
                MaxTokens := cfg.MaxTokens
                Prompt := prompt
                UserText := selectedText
                Extra := MergeExtra globalExtra perExtraClean }
            let endpoint := TrimSpace runtimeOverrides.APIEndpoint
            let endpoint := if endpoint = "" then TrimSpace cfg.APIEndpoint else endpoint
            let token := TrimSpace runtimeOverrides.Token
            let token := if token = "" then TrimSpace cfg.Token else token
            ([Effect.copySelected], some
              { endpoint := endpoint
                token := token
                payload := payload
                opts :=
                  { MaxRetry := cfg.MaxRetry
                    BaseDelay := F64.toInt64
                      (F64.mul cfg.RetryBaseDelay (F64.ofInt64 1000000000))
                    Debug := cfg.DEBUG }
                textPath := runtimeOverrides.TEXTPath })

/-- Go `App.notifyPlaceholder`. -/
def notifyPlaceholder (cfg : Config) (text : String) : List Effect :=
  if !cfg.RequestFailedNotification then [] else [Effect.pasteText text]

/-- The second part of `app.handleTask`, from the result of `SendWithRetry`
on. -/
def completeJob (cfg : Config) (env : JobEnv) (d : Dispatch)
    (res : Except GoError String) : List Effect :=
  match res with
  | .error _ => notifyPlaceholder cfg "[request failed]"
  | .ok resBody =>
    let extracted := ExtractTextFromResponse env.unmarshal resBody d.textPath cfg.TEXTPath
    if TrimSpace extracted = "" then notifyPlaceholder cfg "[empty result]"
    else [Effect.pasteText extracted]

/-- The result of the dispatch of the job, when the job reaches it. -/
def dispatchResult (cfg : Config) (globalExtra : List (String × Value)) (env : JobEnv)
    (id : Int) : Option (Except GoError String) :=
  match (prepareJob cfg globalExtra env id).2 with
  | none => none
  | some d => some (SendWithRetry env.net d.endpoint d.token d.payload d.opts).1

/-- Go `App.handleTask`: the calls the job makes to its collaborators, in
order. -/
def handleTask (cfg : Config) (globalExtra : List (String × Value)) (env : JobEnv)
    (id : Int) : List Effect :=
  let p := prepareJob cfg globalExtra env id
  match p.2 with
  | none => p.1
  | some d =>
    let r := SendWithRetry env.net d.endpoint d.token d.payload d.opts
    p.1 ++ r.2 ++ completeJob cfg env d r.1

/-- The texts passed to `PasteText`, in order. -/
def pastes : List Effect → List String
  | [] => []
  | .pasteText t :: rest => t :: pastes rest
  | _ :: rest => pastes rest

/-! ## Package `app`: the orchestrator -/

/-- Where the worker goroutine started by `App.Start` stands: waiting in its
`select`, inside `handleTask` for a task id (before or after
`setCurrentCancel`), or returned. -/
inductive Worker where
  | idle
  | running (id : Int) (registered : Bool)
  | exited
deriving DecidableEq

/-- An entry of the worker's history. -/
inductive LogEntry where
  | started (id : Int)
  | effect (e : Effect)
  | finished (id : Int)
deriving DecidableEq

/-- The state of an `App`: the buffered channel `eventCh` (capacity 64,
oldest id first), the `closed` flag (the channel `stopCh` is closed together
with it), whether `currentCancel` is set, whether the context of the current
job has been cancelled, the worker, and the worker's history. -/
structure App where
  cfg : Config
  globalExtra : List (String × Value)
  eventCh : List Int
  closed : Bool
  currentCancel : Bool
  ctxCancelled : Bool
  worker : Worker
  log : List LogEntry

/-- The state after `app.New` and `Start`. -/
def App.start (cfg : Config) (globalExtra : List (String × Value)) : App :=
  { cfg := cfg, globalExtra := globalExtra, eventCh := [], closed := false,
    currentCancel := false, ctxCancelled := false, worker := .idle, log := [] }

/-- Go `App.EnqueueTask`: a non-blocking send on `eventCh`. -/
def EnqueueTask (a : App) (id : Int) : App :=
  if a.closed then a
  else if a.eventCh.length < 64 then { a with eventCh := a.eventCh ++ [id] }
  else a

/-- The loop of non-blocking receives at the end of `StopAll`: it returns
what is left in the channel when the `default` case is taken. -/
def drain : List Int → List Int
  | [] => []
  | _ :: rest => drain rest

/-- The mutex-protected section of Go `App.StopAll`: the context of the
current job, if there is one, is cancelled. -/
def stopCancel (a : App) : App :=
  if a.currentCancel then { a with ctxCancelled := true } else a

/-- One round of the loop at the end of `App.StopAll` that takes the case
`<-a.eventCh`: the oldest pending id is received and dropped.  On an empty
channel the loop takes `default` and the call returns, which changes
nothing. -/
def stopDrain (a : App) : App := { a with eventCh := a.eventCh.tail }

/-- Go `App.StopAll` when no other goroutine takes a step during the call: the
mutex section and then the whole drain loop.  The mutex is released before the
loop and the worker runs concurrently, so in `step` a call is the step
`stopCancel` followed by rounds `stopDrain`, between which the worker may
move. -/
def StopAll (a : App) : App :=
  { stopCancel a with eventCh := drain (stopCancel a).eventCh }

/-- Go `App.Close`, up to the final `wg.Wait()`. -/
def Close (a : App) : App :=
  if a.closed then a
  else
    let a := { a with closed := true }
    if a.currentCancel then { a with ctxCancelled := true, currentCancel := false } else a

/-- A step of the system: a call of `EnqueueTask` or `Close`, one of the two
kinds of step of a call of `StopAll`, or a move of the worker. -/
inductive Action where
  | enqueue (id : Int)
  | stopCancel
  | stopDrain
  | close
  | receive
  | register
  | finish (env : JobEnv)
  | exit

/-- The moves of the worker goroutine: `receive` is the `eventCh` case of the
`select` in `Start` followed by the call of `handleTask`, `register` is
`setCurrentCancel` with the fresh context, `finish` is the return of
`handleTask` (with the deferred `cancel` and `clearCurrentCancel` when the
context had been created), `exit` is the `stopCh` case.  A move that is not
possible in the state leaves it unchanged. -/
def workerMove (a : App) : Action → App
  | .receive =>
    match a.worker, a.eventCh with
    | .idle, id :: rest =>
      { a with eventCh := rest, worker := .running id false,
               log := a.log ++ [.started id] }
    | _, _ => a
  | .register =>
    match a.worker with
    | .running id false =>
      { a with worker := .running id true, currentCancel := true, ctxCancelled := false }
    | _ => a
  | .finish env =>
    match a.worker with
    | .running id registered =>
      { a with worker := .idle,
               currentCancel := if registered then false else a.currentCancel,
               ctxCancelled := if registered then true else a.ctxCancelled,
               log := a.log ++ (handleTask a.cfg a.globalExtra env id).map .effect
                        ++ [.finished id] }
    | _ => a
  | .exit =>
    match a.worker with
    | .idle => if a.closed then { a with worker := .exited } else a
    | _ => a
  | _ => a

/-- One step of the system.  A call of `EnqueueTask` and a call of `Close`
(up to its `wg.Wait()`) are single transitions.  A call of `StopAll` is not:
the worker may move after the mutex section and between two rounds of the
drain loop. -/
def step (a : App) : Action → App
  | .enqueue id => EnqueueTask a id
  | .stopCancel => stopCancel a
  | .stopDrain => stopDrain a
  | .close => Close a
  | act => workerMove a act

/-- A run: the steps taken one after another. -/
def run (a : App) (acts : List Action) : App := acts.foldl step a

/-- The task ids the worker has started, in order. -/
def startedIds : List LogEntry → List Int
  | [] => []
  | .started id :: rest => id :: startedIds rest
  | _ :: rest => startedIds rest

/-- The task ids whose job has returned, in order. -/
def finishedIds : List LogEntry → List Int
  | [] => []
  | .finished id :: rest => id :: finishedIds rest
  | _ :: rest => finishedIds rest

/-- How one history entry changes the job that is open (started and not yet
finished); `none` when the entry is not allowed there: a job may start only
when none is open, an effect and a finish belong to the open job. -/
def serialNext (open_ : Option Int) (e : LogEntry) : Option (Option Int) :=
  match open_, e with
  | none, .started id => some (some id)
  | some id, .effect _ => some (some id)
  | some id, .finished id' => if id = id' then some none else none
  | _, _ => none

/-- The job left open by a history in which the jobs do not overlap: every
job is `started id`, then its effects, then `finished id`, and the next job
starts after that. `none` when two jobs overlap. -/
def serialState (log : List LogEntry) : Option (Option Int) :=
  log.foldl (fun st e => st.bind (fun o => serialNext o e)) (some none)

/-- The task ids of the `enqueue` steps of a run, in order. -/
def enqueuedIds : List Action → List Int
  | [] => []
  | .enqueue id :: rest => id :: enqueuedIds rest
  | _ :: rest => enqueuedIds rest

/-- A step of a burst: a call of `EnqueueTask` or a move of the worker on a
job (no `StopAll`, no `Close`). -/
def Action.isBurst : Action → Bool
  | .enqueue _ => true
  | .receive => true
  | .register => true
  | .finish _ => true
  | _ => false

/-- The worker moves that finish the job in progress, if any, and then run
every queued id to its end. -/
def settle (env : JobEnv) (a : App) : List Action :=
  (match a.worker with
    | .running _ _ => [Action.finish env]
    | _ => []) ++
  a.eventCh.flatMap (fun _ => [Action.receive, Action.register, Action.finish env])

/-- The configuration of the orchestrator tests (`baseConfig`: the defaults
with an endpoint, one attempt and one task) with failure notification
switched on. -/
def notifyConfig : Config :=
  { APIEndpoint := "https://example"
    Token := ""
    Model := ""
    Temperature := .finite false 0 0
    MaxTokens := 0
    TEXTPath := "choices[0].message.content"
    ExtraConfig := ""
    RequestTimeout := 30
    MaxRetry := 1
    RetryBaseDelay := .finite false 1 (-1)
    EnableHTTP2 := true
    VerifySSL := true
    ClipboardTimeout := 1000
    RequestFailedNotification := true
    StopTaskHotkey := ""
    HotKeyConfig := [{ Prompt := "translate", HotKey := "ctrl+f1", ExtraConfig := "" }]
    HotKeyHook := false
    DEBUG := false }

/-- A job whose request is interrupted by the cancellation of its context:
the selection is `hello`, `doer.Do` returns the context error and `ctx.Err()`
is `context.Canceled`. -/
def cancelledEnv : JobEnv :=
  { copy := .ok "hello"
    unmarshal := fun _ => none
    net :=
      { marshal := fun _ => .ok "\x7b\x7d"
        newRequest := fun _ => none
        doer := fun _ _ => .err .canceled
        ctxErr := fun _ => some .canceled
        sleep := fun _ _ => none } }

/-- A job whose request succeeds with the body `{"text":"ok"}`. -/
def okEnv : JobEnv :=
  { copy := .ok "hello"
    unmarshal := fun _ => some (.obj [("text", .str "ok")])
    net :=
      { marshal := fun _ => .ok "\x7b\x7d"
        newRequest := fun _ => none
        doer := fun _ _ => .resp 200 "\x7b\"text\":\"ok\"\x7d" none
        ctxErr := fun _ => none
        sleep := fun _ _ => none } }

/-- The job the worker is inside of, if any. -/
def Worker.openJob : Worker → Option Int
  | .running id _ => some id
  | _ => none

/-- The worker and its history agree: the worker has not returned, the
history is a sequence of non-overlapping jobs whose open job is the one the
worker is inside of, and the started jobs are the finished ones followed by
the open one. -/
def Consistent (s : App) : Prop :=
  s.worker ≠ .exited ∧ serialState s.log = some s.worker.openJob ∧
  finishedIds s.log ++ s.worker.openJob.toList = startedIds s.log

/-- A burst of three `EnqueueTask` calls during which the worker has already
received one id. -/
def smallBurst : List Action :=
  [Action.enqueue 1, Action.enqueue 1, Action.receive, Action.enqueue 2]

/-- A payload with empty values at several depths next to a zero and a
`false`. -/
def mixedPayload : List (String × Value) :=
  [("zero", .float (.finite false 0 0)), ("off", .bool false), ("gone", .nil),
   ("blank", .str "  "), ("nested", .obj [("inner", .arr [.nil, .str ""]), ("keep", .str "x")]),
   ("list", .arr [.obj [], .str "a", .arr []])]

/-- Template values of a request: a model name, a token limit, temperature
zero. -/
def sampleInput : BuildInput :=
  { Model := "base-model", Temperature := .finite false 0 0, MaxTokens := 100,
    Prompt := "translate", UserText := "hello", Extra := [] }

/-- Global extra fields. -/
def globalExtras : List (String × Value) :=
  [("model", .str "global-model"), ("verbosity", .str "low")]

/-- Per-task extra fields: a model override and a null that deletes
`max_tokens`. -/
def taskExtras : List (String × Value) :=
  [("model", .str "task-model"), ("max_tokens", .nil)]

/-! ## Package `request`: the fields as the specification words them, example data -/

/-- The override read from `key` as the specification words it: the trimmed
string value of the key, empty when the key is absent or holds another
type. -/
def overrideOf (extra : List (String × Value)) (key : String) : String :=
  match mapGet extra key with
  | some (.str s) => TrimSpace s
  | _ => ""

/-- The field `k` of a payload built with no extra fields, as amended:
`temperature` and `messages` always, `model` when it is not blank,
`max_tokens` when it is positive, nothing else. -/
def bareField (i : BuildInput) (k : String) : Option Value :=
  if k = "temperature" then some (.float i.Temperature)
  else if k = "messages" then some (messagesOf i.Prompt i.UserText)
  else if k = "model" then (if TrimSpace i.Model = "" then none else some (.str i.Model))
  else if k = "max_tokens" then (if 0 < i.MaxTokens then some (.int i.MaxTokens) else none)
  else none

/-- An input whose extra fields set `temperature` to null. -/
def nullTemperatureInput : BuildInput :=
  { Model := "m", Temperature := .finite false 0 0, MaxTokens := 0,
    Prompt := "p", UserText := "u", Extra := [("temperature", .nil)] }

/-- An input with a model name that is a single space and no extra fields. -/
def blankModelInput : BuildInput :=
  { Model := " ", Temperature := .finite false 0 0, MaxTokens := 0,
    Prompt := "", UserText := " ", Extra := [] }

/-- The global extras of the merge test: `model`, `max_tokens`,
`verbosity`. -/
def testGlobal : List (String × Value) :=
  [("model", .str "x"), ("max_tokens", .int 100), ("verbosity", .str "low")]

/-- The per-task extras of the merge test: a null, an empty string and a
boolean. -/
def testEntry : List (String × Value) :=
  [("max_tokens", .nil), ("verbosity", .str ""), ("new_field", .bool true)]

/-- The extras of the override test: the three override keys and
`temperature` zero. -/
def testOverrides : List (String × Value) :=
  [("APIEndpoint", .str "https://x"), ("Token", .str "abc"),
   ("TEXTPath", .str "choices[0].message.content"), ("temperature", .int 0)]

/-! ## The outcome of a job -/

/-- The text extracted from the response of the job, when its dispatch
succeeds. -/
def extractedText (cfg : Config) (globalExtra : List (String × Value)) (env : JobEnv)
    (id : Int) : Option String :=
  match (prepareJob cfg globalExtra env id).2 with
  | none => none
  | some d =>
    match (SendWithRetry env.net d.endpoint d.token d.payload d.opts).1 with
    | .ok resBody =>
      some (ExtractTextFromResponse env.unmarshal resBody d.textPath cfg.TEXTPath)
    | .error _ => none

/-- The configuration of the orchestrator tests with failure notification
switched off. -/
def quietConfig : Config := { notifyConfig with RequestFailedNotification := false }

/-- A job whose every request fails with the transport error `network down`
and whose context is never cancelled. -/
def failingEnv : JobEnv :=
  { copy := .ok "hello"
    unmarshal := fun _ => none
    net :=
      { marshal := fun _ => .ok "\x7b\x7d"
        newRequest := fun _ => none
        doer := fun _ _ => .err (.other "network down")
        ctxErr := fun _ => none
        sleep := fun _ _ => none } }

/-- A job whose request succeeds with the empty object as body. -/
def emptyResultEnv : JobEnv :=
  { copy := .ok "hello"
    unmarshal := fun _ => some (.obj [])
    net :=
      { marshal := fun _ => .ok "\x7b\x7d"
        newRequest := fun _ => none
        doer := fun _ _ => .resp 200 "\x7b\x7d" none
        ctxErr := fun _ => none
        sleep := fun _ _ => none } }

/-! ## The retry loop as the specification describes it -/

/-- The request that every attempt of one `SendWithRetry` call sends. -/
def attemptRequest (endpoint token data userAgent : String) : Request :=
  { url := endpoint
    contentType := "application/json"
    userAgent := userAgent
    authorization := if token ≠ "" then some ("Bearer " ++ token) else none
    body := data }

/-- The error that makes an answer of the doer a failed attempt: the
transport error, the error of reading the body, or the status error of a
response outside `200..299`; `none` for a 2xx response whose body was read. -/
def DoResult.failure : DoResult → Option GoError
  | .err e => some e
  | .resp _ _ (some re) => some re
  | .resp status body none =>
    if status ≥ 200 ∧ status < 300 then none
    else some (.other ("status " ++ toString status ++ ": " ++ body))

/-- Attempt `j` fails with the error `e` and is not taken for a
cancellation: the answer of the doer is a failure, and when it is a transport
error the context is not cancelled at that moment. -/
def FailedAttempt (env : NetEnv) (req : Request) (j : Nat) (e : GoError) : Prop :=
  (env.doer j req).failure = some e ∧ (∀ x, env.doer j req = .err x → env.ctxErr j = none)

/-- The number of attempts, `max(1, MaxRetry)`. -/
def effectiveRetries (opts : RetryOptions) : Int := max 1 opts.MaxRetry

/-- The first backoff delay, `max(0, BaseDelay)`. -/
def effectiveDelay (opts : RetryOptions) : Int := max 0 opts.BaseDelay

/-- The user agent sent: the default one when none is given. -/
def effectiveAgent (opts : RetryOptions) : String :=
  if opts.UserAgent = "" then "clip-hotkey-client/1.0" else opts.UserAgent

/-- The delay after `n` doublings in `int64` arithmetic. -/
def delayIter (d : Int) : Nat → Int
  | 0 => d
  | n + 1 => delayIter (wrap64 (d * 2)) n

/-- The calls made by `n` failed attempts, each followed by its backoff
sleep, starting with the delay `d`. -/
def retryTrace (req : Request) (d : Int) : Nat → List Effect
  | 0 => []
  | n + 1 => Effect.httpDo req :: Effect.sleep d :: retryTrace req (wrap64 (d * 2)) n

/-- The number of calls of `doer.Do`. -/
def doCalls : List Effect → Nat
  | [] => 0
  | .httpDo _ :: rest => doCalls rest + 1
  | _ :: rest => doCalls rest

/-- The durations of the backoff sleeps, in order. -/
def sleeps : List Effect → List Int
  | [] => []
  | .sleep d :: rest => d :: sleeps rest
  | _ :: rest => sleeps rest

/-- The doubling backoff schedule `d, 2 d, ..., 2^(n-1) d`. -/
def backoff (d : Int) (n : Nat) : List Int := (List.range n).map (fun i => d * 2 ^ i)

/-- The surroundings of the retry test: the first two calls fail with a
transport error, the third one answers 200. -/
def flakyNet : NetEnv :=
  { marshal := fun _ => .ok "\x7b\x7d"
    newRequest := fun _ => none
    doer := fun n _ => if n < 3 then .err (.other "transient") else .resp 200 "done" none
    ctxErr := fun _ => none
    sleep := fun _ _ => none }

/-- The surroundings of the cancellation test: every call fails and the first
backoff sleep is interrupted by the cancellation of the context. -/
def cancelInSleepNet : NetEnv :=
  { marshal := fun _ => .ok "\x7b\x7d"
    newRequest := fun _ => none
    doer := fun _ _ => .err (.other "always fail")
    ctxErr := fun _ => none
    sleep := fun _ _ => some .canceled }

/-- Surroundings in which every call fails and nothing is cancelled. -/
def alwaysFailNet : NetEnv :=
  { marshal := fun _ => .ok "\x7b\x7d"
    newRequest := fun _ => none
    doer := fun n _ => .err (.other ("fail " ++ toString n))
    ctxErr := fun _ => none
    sleep := fun _ _ => none }

/-- Surroundings in which the endpoint is not a URL the HTTP library accepts
(such as `:`, which has no scheme), so that no request can be built. -/
def badUrlNet : NetEnv :=
  { marshal := fun _ => .ok "\x7b\x7d"
    newRequest := fun _ => some (.other "missing protocol scheme")
    doer := fun _ _ => .err (.other "unreachable")
    ctxErr := fun _ => none
    sleep := fun _ _ => none }

/-! ## Package `hotkey` -/

/-- Go `unicode.ToLower` on one character: an ASCII capital letter moves to
its small letter and every other ASCII character stays; the case table of
the other characters is the parameter `uni`. -/
def toLowerChar (uni : Char → Char) (c : Char) : Char :=
  if c.toNat < 128 then
    if 65 ≤ c.toNat ∧ c.toNat ≤ 90 then Char.ofNat (c.toNat + 32) else c
  else uni c

/-- Go `strings.ToLower`. -/
def ToLower (uni : Char → Char) (s : String) : String := ⟨s.data.map (toLowerChar uni)⟩

/-- One round of the loop over the modifier tokens of `ParseHotkey`: the
`switch` has no `default`, a token that is none of the names leaves the mask
as it is. -/
def modifierStep (mod : Nat) (p : String) : Nat :=
  if p = "alt" ∨ p = "menu" then mod ||| 0x0001
  else if p = "ctrl" ∨ p = "control" then mod ||| 0x0002
  else if p = "shift" then mod ||| 0x0004
  else if p = "win" ∨ p = "meta" ∨ p = "super" then mod ||| 0x0008
  else mod

/-- The branch `len(keyToken) == 1` of `ParseHotkey`: a small letter gives
`ch - 'a' + 'A'`, a digit itself. A token of one character with more than one
byte is not ASCII and fails both tests, like a longer token. -/
def singleKey (k : String) : Option Nat :=
  match k.data with
  | [ch] =>
    if 97 ≤ ch.toNat ∧ ch.toNat ≤ 122 then some (ch.toNat - 97 + 65)
    else if 48 ≤ ch.toNat ∧ ch.toNat ≤ 57 then some ch.toNat
    else none
  | _ => none

/-- The first `switch keyToken` of `ParseHotkey`: the named keys. -/
def namedKey (k : String) : Option Nat :=
  if k = "esc" ∨ k = "escape" then some 0x1B
  else if k = "space" then some 0x20
  else if k = "enter" ∨ k = "return" then some 0x0D
  else if k = "tab" then some 0x09
  else if k = "backspace" then some 0x08
  else if k = "insert" then some 0x2D
  else if k = "delete" then some 0x2E
  else if k = "home" then some 0x24
  else if k = "end" then some 0x23
  else if k = "pageup" then some 0x21
  else if k = "pagedown" then some 0x22
  else if k = "left" then some 0x25
  else if k = "up" then some 0x26
  else if k = "right" then some 0x27
  else if k = "down" then some 0x28
  else none

/-- The branch `strings.HasPrefix(keyToken, "f")` of `ParseHotkey`: the rest
of the token read by `strconv.Atoi`, accepted from 1 to 24. -/
def functionKey (k : String) : Option Nat :=
  match k.data with
  | 'f' :: rest =>
    match Atoi rest with
    | some n => if n ≥ 1 ∧ n ≤ 24 then some (0x70 + (n - 1).toNat) else none
    | none => none
  | _ => none

/-- The second `switch keyToken` of `ParseHotkey`: the keys of the numeric
pad. -/
def numpadKey (k : String) : Option Nat :=
  if k = "numpad0" ∨ k = "num0" ∨ k = "kp0" then some 0x60
  else if k = "numpad1" ∨ k = "num1" ∨ k = "kp1" then some 0x61
  else if k = "numpad2" ∨ k = "num2" ∨ k = "kp2" then some 0x62
  else if k = "numpad3" ∨ k = "num3" ∨ k = "kp3" then some 0x63
  else if k = "numpad4" ∨ k = "num4" ∨ k = "kp4" then some 0x64
  else if k = "numpad5" ∨ k = "num5" ∨ k = "kp5" then some 0x65
  else if k = "numpad6" ∨ k = "num6" ∨ k = "kp6" then some 0x66
  else if k = "numpad7" ∨ k = "num7" ∨ k = "kp7" then some 0x67
  else if k = "numpad8" ∨ k = "num8" ∨ k = "kp8" then some 0x68
  else if k = "numpad9" ∨ k = "num9" ∨ k = "kp9" then some 0x69
  else if k = "add" ∨ k = "plus" ∨ k = "kpadd" then some 0x6B
  else if k = "subtract" ∨ k = "minus" ∨ k = "kpsubtract" then some 0x6D
  else none

/-- The part of `ParseHotkey` that reads the main key, in the order of the
source; `none` is the error `unsupported key token`. -/
def keyCode (k : String) : Option Nat :=
  match singleKey k with
  | some c => some c
  | none =>
    match namedKey k with
    | some c => some c
    | none =>
      match functionKey k with
      | some c => some c
      | none => numpadKey k

/-- Go `hotkey.ParseHotkey`: the modifier mask and the key code, `none` for
an error. -/
def ParseHotkey (uni : Char → Char) (s : String) : Option (Nat × Nat) :=
  if s = "" then none
  else
    let parts := (splitOnChar '+' s.data).map (fun p => TrimSpace (ToLower uni ⟨p⟩))
    let keyToken := parts.getLast?.getD ""
    let mod := parts.dropLast.foldl modifierStep 0
    match keyCode keyToken with
    | some c => some (mod, c)
    | none => none

/-! ### The hotkey grammar as the specification words it -/

/-- The modifier names and their bits. -/
def modifierBits : List (String × Nat) :=
  [("alt", 1), ("menu", 1), ("ctrl", 2), ("control", 2), ("shift", 4),
   ("win", 8), ("meta", 8), ("super", 8)]

/-- The decimal numeral of a number, as a list of characters. -/
def numeral (n : Nat) : List Char := natDigits n

/-- The named main keys of the grammar and the two operators of the numeric
pad, each with the Windows virtual-key code of the key it names (`VK_ESCAPE`,
`VK_SPACE`, `VK_RETURN`, `VK_TAB`, `VK_BACK`, `VK_INSERT`, `VK_DELETE`,
`VK_HOME`, `VK_END`, `VK_PRIOR`, `VK_NEXT`, `VK_LEFT`, `VK_UP`, `VK_RIGHT`,
`VK_DOWN`, `VK_ADD`, `VK_SUBTRACT`). -/
def namedKeyCodes : List (String × Nat) :=
  [("esc", 0x1B), ("escape", 0x1B), ("space", 0x20), ("enter", 0x0D), ("return", 0x0D),
   ("tab", 0x09), ("backspace", 0x08), ("insert", 0x2D), ("delete", 0x2E), ("home", 0x24),
   ("end", 0x23), ("pageup", 0x21), ("pagedown", 0x22), ("left", 0x25), ("up", 0x26),
   ("right", 0x27), ("down", 0x28), ("add", 0x6B), ("plus", 0x6B), ("kpadd", 0x6B),
   ("subtract", 0x6D), ("minus", 0x6D), ("kpsubtract", 0x6D)]

/-- Every main-key token of the hotkey grammar with its code: a letter gives
its upper-case ASCII code, a digit its ASCII code, `fN` for `1 <= N <= 24`
gives `0x70 + N - 1`, `numpadN`, `numN` and `kpN` give `0x60 + N`, and a named
key or numeric-pad operator gives its virtual-key code. -/
def recognizedKeys : List (String × Nat) :=
  (List.range 26).map (fun i => (String.mk [Char.ofNat (97 + i)], 65 + i)) ++
  (List.range 10).map (fun i => (String.mk [Char.ofNat (48 + i)], 48 + i)) ++
  (List.range 24).map (fun i => (String.mk ('f' :: numeral (i + 1)), 0x70 + (i + 1) - 1)) ++
  (List.range 10).flatMap (fun i =>
    ["numpad", "num", "kp"].map (fun p => (String.mk (p.data ++ numeral i), 0x60 + i))) ++
  namedKeyCodes

/-- A token as it is written: spaces, the name in some mix of cases, spaces. -/
structure Written where
  left : Nat
  text : String
  right : Nat

/-- The characters of a written token. -/
def Written.raw (w : Written) : List Char :=
  List.replicate w.left ' ' ++ w.text.data ++ List.replicate w.right ' '

/-- A character is the letter `n` in one of its two cases, or the character
`n` itself. -/
def caseMatch (c n : Char) : Bool :=
  c = n || (97 ≤ n.toNat && n.toNat ≤ 122 && c.toNat + 32 = n.toNat)

/-- A text spells a name up to the case of its letters. -/
def spells : List Char → List Char → Bool
  | [], [] => true
  | c :: cs, n :: ns => caseMatch c n && spells cs ns
  | _, _ => false

/-- The tokens joined by `+`. -/
def joinPlus : List (List Char) → List Char
  | [] => []
  | [t] => t
  | t :: rest => t ++ '+' :: joinPlus rest

/-- The text of a hotkey: the modifiers and then the main key, joined by
`+`. -/
def hotkeyText (mods : List Written) (key : Written) : String :=
  ⟨joinPlus ((mods ++ [key]).map Written.raw)⟩

/-- The bitwise OR of a list of bits. -/
def orBits (bits : List Nat) : Nat := bits.foldr (fun b m => b ||| m) 0

/-- The mask that holds each of the four modifier bits exactly when the bit
occurs in the list. -/
def maskOf (bits : List Nat) : Nat :=
  (if 1 ∈ bits then 1 else 0) + (if 2 ∈ bits then 2 else 0) +
  (if 4 ∈ bits then 4 else 0) + (if 8 ∈ bits then 8 else 0)

/-- A small letter or a digit of ASCII. -/
def isLowerAlnum (c : Char) : Bool :=
  (97 ≤ c.toNat && c.toNat ≤ 122) || (48 ≤ c.toNat && c.toNat ≤ 57)

/-- A hotkey written with mixed case, spaces and a repeated modifier:
` Ctrl+SHIFT + ctrl+F5 `. -/
def sampleMods : List (Written × String × Nat) :=
  [(⟨1, "Ctrl", 0⟩, "ctrl", 2), (⟨0, "SHIFT", 1⟩, "shift", 4), (⟨1, "ctrl", 0⟩, "ctrl", 2)]

/-- The main key of the sample hotkey. -/
def sampleKey : Written := ⟨0, "F5", 1⟩

/-- The named key `esc`, written ` Esc`. -/
def escKey : Written := ⟨1, "Esc", 0⟩

/-- The token `f25`, written `F25 `. -/
def f25Key : Written := ⟨0, "F25", 1⟩

/-! ## Package `hotkey`: the capture service -/

/-- A run-time panic of Go. -/
inductive Panic where
  | closeOfClosedChannel
  | indexOutOfRange
deriving DecidableEq

/-- Go `hotkey.Event`: a task event with its id, or the stop event. -/
inductive Event where
  | task (id : Int)
  | stop
deriving DecidableEq

/-- Go `hotkey.taskSpec`: a binding, with its id, its modifier mask and its
main key. -/
structure taskSpec where
  id : Int
  mod : Nat
  vk : Nat
deriving DecidableEq

/-- The id of the stop binding. -/
def stopHotkeyID : Int := 1000001

/-- The flag `LLKHF_INJECTED`. -/
def llkhfInjected : Nat := 0x00000010

/-- The message `WM_KEYDOWN`. -/
def wmKeyDown : Nat := 0x0100

/-- The message `WM_KEYUP`. -/
def wmKeyUp : Nat := 0x0101

/-- The message `WM_SYSKEYDOWN`. -/
def wmSysKeyDown : Nat := 0x0104

/-- The message `WM_SYSKEYUP`. -/
def wmSysKeyUp : Nat := 0x0105

/-- The virtual key `VK_CONTROL`. -/
def vkControl : Nat := 0x11

/-- The virtual key `VK_MENU` (Alt). -/
def vkMenu : Nat := 0x12

/-- The virtual key `VK_SHIFT`. -/
def vkShift : Nat := 0x10

/-- The virtual key `VK_LWIN`. -/
def vkLwin : Nat := 0x5B

/-- The virtual key `VK_RWIN`. -/
def vkRwin : Nat := 0x5C

/-- The state of a Go `hotkey.platformService`: whether the channel `stopCh`
has been closed, the buffered channel `events` (capacity 32, oldest first),
the map `llHotkeyMap` from a main key to its bindings and the keys of the map
`llBlocked` (every value stored in it is `true`). -/
structure platformService where
  stopCh : Bool
  events : List Event
  llHotkeyMap : List (Nat × List taskSpec)
  llBlocked : List Nat
deriving DecidableEq

/-- Go `hotkey.newPlatformService`. -/
def newPlatformService : platformService :=
  { stopCh := false, events := [], llHotkeyMap := [], llBlocked := [] }

/-- Go `platformService.Close`: `close(s.stopCh)` and then `return nil`;
closing a channel that is already closed is a run-time panic. -/
def platformService.Close (s : platformService) : Except Panic platformService :=
  if s.stopCh then .error .closeOfClosedChannel
  else .ok { s with stopCh := true }

/-- The read `s.llHotkeyMap[vk]`: the nil slice for a key that is absent. -/
def hotkeyMapGet : List (Nat × List taskSpec) → Nat → List taskSpec
  | [], _ => []
  | (k, es) :: rest, vk => if k = vk then es else hotkeyMapGet rest vk

/-- The write `s.llHotkeyMap[vk] = es`. -/
def hotkeyMapSet : List (Nat × List taskSpec) → Nat → List taskSpec →
    List (Nat × List taskSpec)
  | [], vk, es => [(vk, es)]
  | (k, old) :: rest, vk, es =>
    if k = vk then (k, es) :: rest else (k, old) :: hotkeyMapSet rest vk es

/-- The loop of `startLowLevelHook` that fills `llHotkeyMap`:
`s.llHotkeyMap[e.vk] = append(s.llHotkeyMap[e.vk], e)` for every entry. -/
def buildHotkeyMap (entries : List taskSpec) : List (Nat × List taskSpec) :=
  entries.foldl (fun m e => hotkeyMapSet m e.vk (hotkeyMapGet m e.vk ++ [e])) []

/-- Go `platformService.startLowLevelHook`, as far as the state of the service
goes; `entries` is the result of `s.buildEntries()`, which is not empty when
the hook is installed. -/
def startLowLevelHook (s : platformService) (entries : List taskSpec) : platformService :=
  { s with llHotkeyMap := buildHotkeyMap entries }

/-- Go `platformService.emitByID`: a non-blocking send on `events`. -/
def emitByID (s : platformService) (id : Int) : platformService :=
  let ev := if id = stopHotkeyID then Event.stop else Event.task id
  if s.events.length < 32 then { s with events := s.events ++ [ev] } else s

/-- Go `platformService.modsMatch`; `held vk` is the closure `isDown(vk)`, the
top bit of `GetAsyncKeyState(vk)` at the time of the call. -/
def modsMatch (held : Nat → Bool) (required : Nat) : Bool :=
  if required &&& 0x0001 ≠ 0 ∧ held vkMenu = false then false
  else if required &&& 0x0002 ≠ 0 ∧ held vkControl = false then false
  else if required &&& 0x0004 ≠ 0 ∧ held vkShift = false then false
  else if required &&& 0x0008 ≠ 0 ∧ (held vkLwin || held vkRwin) = false then false
  else true

/-- A call of the hook procedure by the system: `nCode`, `wParam`, the fields
`VkCode` and `Flags` of the structure behind `lParam`, and the state of the
keyboard that `GetAsyncKeyState` reports during the call. -/
structure KeyEvent where
  nCode : Int
  wParam : Nat
  VkCode : Nat
  Flags : Nat
  held : Nat → Bool

/-- What a call of the hook procedure does: whether it returns 1 (the event is
swallowed) or the result of `CallNextHookEx` (the event is passed on), the
state of the service afterwards, and the ids given to `emitByID`. -/
structure HookResult where
  swallowed : Bool
  service : platformService
  emitted : List Int

/-- Go `hotkey.lowLevelKeyboardProc` for the installed service `s`
(`activeLLService` and its two procedures are set before the hook is
installed). -/
def lowLevelKeyboardProc (s : platformService) (k : KeyEvent) : HookResult :=
  if k.nCode < 0 then { swallowed := false, service := s, emitted := [] }
  else if k.Flags &&& llkhfInjected ≠ 0 then { swallowed := false, service := s, emitted := [] }
  else
    let msg := k.wParam % 2 ^ 32
    if msg = wmKeyDown ∨ msg = wmSysKeyDown then
      match (hotkeyMapGet s.llHotkeyMap k.VkCode).find? (fun e => modsMatch k.held e.mod) with
      | some e =>
        { swallowed := true
          service := emitByID
            { s with llBlocked :=
                if k.VkCode ∈ s.llBlocked then s.llBlocked else k.VkCode :: s.llBlocked } e.id
          emitted := [e.id] }
      | none => { swallowed := false, service := s, emitted := [] }
    else if msg = wmKeyUp ∨ msg = wmSysKeyUp then
      if k.VkCode ∈ s.llBlocked then
        { swallowed := true
          service := { s with llBlocked := s.llBlocked.filter (fun v => v ≠ k.VkCode) }
          emitted := [] }
      else { swallowed := false, service := s, emitted := [] }
    else { swallowed := false, service := s, emitted := [] }

/-- A step of the capture service: a call of the hook procedure, or a receive
of the dispatcher goroutine (`runDispatcher`) from `events`. -/
inductive HookAction where
  | key (k : KeyEvent)
  | dispatch

/-- One step of the capture service. -/
def hookStep (s : platformService) : HookAction → platformService
  | .key k => (lowLevelKeyboardProc s k).service
  | .dispatch => { s with events := s.events.tail }

/-- A run of the capture service. -/
def hookRun (s : platformService) (acts : List HookAction) : platformService :=
  acts.foldl hookStep s

/-! ### The interception rules as the specification words them -/

/-- Every modifier that the mask requires is held: Alt for bit 0, Ctrl for
bit 1, Shift for bit 2, either Win key for bit 3; the other modifiers are not
looked at. -/
def requiredHeld (held : Nat → Bool) (mod : Nat) : Bool :=
  (!mod.testBit 0 || held 0x12) && (!mod.testBit 1 || held 0x11) &&
  (!mod.testBit 2 || held 0x10) && (!mod.testBit 3 || held 0x5B || held 0x5C)

/-- The event of a binding: the stop event for the stop binding, otherwise
the task event with the id of the binding. -/
def eventOf (b : taskSpec) : Event :=
  if b.id = stopHotkeyID then .stop else .task b.id

/-- A call that the hook procedure is to process and that is not injected. -/
def KeyEvent.genuine (k : KeyEvent) : Bool :=
  decide (0 ≤ k.nCode) && (k.Flags.testBit 4 == false)

/-- A key-down message. -/
def KeyEvent.isDown (k : KeyEvent) : Bool :=
  k.wParam % 2 ^ 32 == 0x0100 || k.wParam % 2 ^ 32 == 0x0104

/-- A key-up message. -/
def KeyEvent.isUp (k : KeyEvent) : Bool :=
  k.wParam % 2 ^ 32 == 0x0101 || k.wParam % 2 ^ 32 == 0x0105

/-- Some binding with the main key of the event has its modifiers held. -/
def bindingMatches (entries : List taskSpec) (k : KeyEvent) : Bool :=
  entries.any (fun b => b.vk == k.VkCode && requiredHeld k.held b.mod)

/-- A step that is not a genuine key-up of `v`. -/
def HookAction.keepsDown (v : Nat) : HookAction → Bool
  | .key k => !(k.genuine && k.isUp && k.VkCode == v)
  | .dispatch => true

/-- A step that is neither a genuine key-up of `v` nor a genuine key-down of
`v` that matches a binding. -/
def HookAction.leavesAlone (entries : List taskSpec) (v : Nat) : HookAction → Bool
  | .key k =>
    !(k.genuine && k.VkCode == v && (k.isUp || (k.isDown && bindingMatches entries k)))
  | .dispatch => true

/-! ### Example data of the capture service -/

/-- Bindings: task 1 on Ctrl+F1, task 2 on Ctrl+Shift+F1, the stop binding on
Alt+Q. -/
def sampleEntries : List taskSpec :=
  [{ id := 1, mod := 2, vk := 0x70 }, { id := 2, mod := 6, vk := 0x70 },
   { id := 1000001, mod := 1, vk := 0x51 }]

/-- The service with the sample bindings installed. -/
def sampleService : platformService := startLowLevelHook newPlatformService sampleEntries

/-- A key-down of F1 with Ctrl and Shift held. -/
def ctrlShiftF1Down : KeyEvent :=
  { nCode := 0, wParam := 0x0100, VkCode := 0x70, Flags := 0,
    held := fun vk => vk == 0x11 || vk == 0x10 }

/-- A key-up of F1. -/
def f1Up : KeyEvent :=
  { nCode := 0, wParam := 0x0101, VkCode := 0x70, Flags := 0, held := fun _ => false }

/-- An injected key-down of F1 with Ctrl held. -/
def injectedF1Down : KeyEvent :=
  { nCode := 0, wParam := 0x0100, VkCode := 0x70, Flags := 0x10,
    held := fun vk => vk == 0x11 }

/-- A key-down of the letter A with Ctrl held. -/
def ctrlADown : KeyEvent :=
  { nCode := 0, wParam := 0x0100, VkCode := 0x41, Flags := 0, held := fun vk => vk == 0x11 }

/-! ## Index expressions of Go -/

/-- Go index expression `arr[idx]` on a slice of values: a run-time panic
when the index is out of range. -/
def indexValue (arr : List Value) (idx : Int) : Except Panic Value :=
  if idx < 0 then .error .indexOutOfRange
  else
    match arr.get? idx.toNat with
    | some v => .ok v
    | none => .error .indexOutOfRange

/-- The loop `for _, idx := range idxs` of `extractByPath` with the index
expression `arr[idx]` evaluated as Go does: `.error` is a run-time panic,
`.ok none` the result `("", false)`. -/
def walkIndexesGo : Value → List Int → Except Panic (Option Value)
  | cur, [] => .ok (some cur)
  | cur, idx :: rest =>
    match cur with
    | .arr arr =>
      if idx < 0 ∨ idx ≥ arr.length then .ok none
      else
        match indexValue arr idx with
        | .error p => .error p
        | .ok next => walkIndexesGo next rest
    | _ => .ok none

/-- Go index expression `a.cfg.HotKeyConfig[id-1]` of `handleTask`. -/
def taskEntry (cfg : Config) (id : Int) : Except Panic HotKeyEntry :=
  if id - 1 < 0 then .error .indexOutOfRange
  else
    match cfg.HotKeyConfig.get? (id - 1).toNat with
    | some e => .ok e
    | none => .error .indexOutOfRange

/-! ## Path walking as the specification words it -/

/-- Consuming the key of a segment: with no key the current value stays;
otherwise the current value must be a mapping that has the key. -/
def keyStep (cur : Value) (key : String) : Option Value :=
  if key = "" then some cur
  else
    match cur with
    | .obj m => mapGet m key
    | _ => none

/-- A value that is not a terminal: an object, an array or null. -/
def Value.isContainerOrNull : Value → Bool
  | .obj _ => true
  | .arr _ => true
  | .nil => true
  | _ => false

/-- A value that is a sequence. -/
def Value.isArr : Value → Bool
  | .arr _ => true
  | _ => false

/-- A value that is a mapping. -/
def Value.isObj : Value → Bool
  | .obj _ => true
  | _ => false

/-- The number of items of a sequence, zero for another value. -/
def Value.arrLength : Value → Nat
  | .arr xs => xs.length
  | _ => 0

/-! ## Jobs that stop early, example data -/

/-- The task list with the extra-field string of entry `n` (counted from
zero) replaced by the empty string. -/
def blankExtraAt : Nat → List HotKeyEntry → List HotKeyEntry
  | _, [] => []
  | 0, e :: rest => { e with ExtraConfig := "" } :: rest
  | n + 1, e :: rest => e :: blankExtraAt n rest

/-- The configuration with the extra-field string of task `id` replaced by the
empty string. -/
def withoutExtra (cfg : Config) (id : Int) : Config :=
  { cfg with HotKeyConfig := blankExtraAt (id - 1).toNat cfg.HotKeyConfig }

/-- Copying the selection fails or yields only white space. -/
def copyBlank (env : JobEnv) : Bool :=
  match env.copy with
  | .error _ => true
  | .ok t => TrimSpace t = ""

/-- The configuration of the orchestrator tests with the extra-field string
`{`, which is not JSON, on its one task. -/
def malformedExtraConfig : Config :=
  { notifyConfig with
    HotKeyConfig := [{ Prompt := "translate", HotKey := "ctrl+f1", ExtraConfig := "\x7b" }] }

/-- A job whose decoder accepts the body `{"text":"ok"}` only, and whose
request succeeds with that body. -/
def strictEnv : JobEnv :=
  { copy := .ok "hello"
    unmarshal := fun s =>
      if s = "\x7b\"text\":\"ok\"\x7d" then some (.obj [("text", .str "ok")]) else none
    net :=
      { marshal := fun _ => .ok "\x7b\x7d"
        newRequest := fun _ => none
        doer := fun _ _ => .resp 200 "\x7b\"text\":\"ok\"\x7d" none
        ctxErr := fun _ => none
        sleep := fun _ _ => none } }

/-- A job whose selection is white space only. -/
def blankCopyEnv : JobEnv := { okEnv with copy := .ok "  " }

/-- A job whose copy fails. -/
def failedCopyEnv : JobEnv := { okEnv with copy := .error (.other "clipboard timeout") }

/-! ## Package `config`: command-line flags -/

/-- Go `config.CLIOptions`; `set` holds the names of the flags that
`flag.Visit` reported, the keys of the map `set`. -/
structure CLIOptions where
  ConfigPath : String
  ShowHelp : Bool
  APIEndpoint : String
  Token : String
  Model : String
  Temperature : F64
  MaxTokens : Int
  TEXTPath : String
  ExtraConfig : String
  RequestTimeout : Int
  MaxRetry : Int
  RetryBaseDelay : F64
  EnableHTTP2 : Bool
  VerifySSL : Bool
  ClipboardTimeout : Int
  RequestFailedNotification : Bool
  StopTaskHotkey : String
  HotKeyHook : Bool
  DEBUG : Bool
  set : List String

/-- Go `CLIOptions.IsSet`. -/
def CLIOptions.IsSet (o : CLIOptions) (name : String) : Bool := o.set.contains name

/-- Go `config.ApplyCLI`: the assignments in the order of the source. -/
def ApplyCLI (c : Config) (o : CLIOptions) : Config :=
  let c := if o.IsSet "api-endpoint" then { c with APIEndpoint := o.APIEndpoint } else c
  let c := if o.IsSet "token" then { c with Token := o.Token } else c
  let c := if o.IsSet "model" then { c with Model := o.Model } else c
  let c := if o.IsSet "temperature" then { c with Temperature := o.Temperature } else c
  let c := if o.IsSet "max-tokens" then { c with MaxTokens := o.MaxTokens } else c
  let c := if o.IsSet "text-path" then { c with TEXTPath := o.TEXTPath } else c
  let c := if o.IsSet "extra-config" then { c with ExtraConfig := o.ExtraConfig } else c
  let c := if o.IsSet "request-timeout" then { c with RequestTimeout := o.RequestTimeout } else c
  let c := if o.IsSet "max-retry" then { c with MaxRetry := o.MaxRetry } else c
  let c := if o.IsSet "retry-base-delay" then { c with RetryBaseDelay := o.RetryBaseDelay } else c
  let c := if o.IsSet "enable-http2" then { c with EnableHTTP2 := o.EnableHTTP2 } else c
  let c := if o.IsSet "verify-ssl" then { c with VerifySSL := o.VerifySSL } else c
  let c := if o.IsSet "clipboard-timeout" then
    { c with ClipboardTimeout := o.ClipboardTimeout } else c
  let c := if o.IsSet "request-failed-notification" then
    { c with RequestFailedNotification := o.RequestFailedNotification } else c
  let c := if o.IsSet "stop-task-hotkey" then { c with StopTaskHotkey := o.StopTaskHotkey } else c
  let c := if o.IsSet "hotkeyhook" then { c with HotKeyHook := o.HotKeyHook } else c
  let c := if o.IsSet "debug" then { c with DEBUG := o.DEBUG } else c
  c

/-- The configuration that `ApplyCLI` is to produce, field by field: the value
of the flag for a field whose flag was given, the loaded value otherwise; the
task list has no flag. -/
def overridden (c : Config) (o : CLIOptions) : Config :=
  { APIEndpoint := if o.IsSet "api-endpoint" then o.APIEndpoint else c.APIEndpoint
    Token := if o.IsSet "token" then o.Token else c.Token
    Model := if o.IsSet "model" then o.Model else c.Model
    Temperature := if o.IsSet "temperature" then o.Temperature else c.Temperature
    MaxTokens := if o.IsSet "max-tokens" then o.MaxTokens else c.MaxTokens
    TEXTPath := if o.IsSet "text-path" then o.TEXTPath else c.TEXTPath
    ExtraConfig := if o.IsSet "extra-config" then o.ExtraConfig else c.ExtraConfig
    RequestTimeout := if o.IsSet "request-timeout" then o.RequestTimeout else c.RequestTimeout
    MaxRetry := if o.IsSet "max-retry" then o.MaxRetry else c.MaxRetry
    RetryBaseDelay := if o.IsSet "retry-base-delay" then o.RetryBaseDelay else c.RetryBaseDelay
    EnableHTTP2 := if o.IsSet "enable-http2" then o.EnableHTTP2 else c.EnableHTTP2
    VerifySSL := if o.IsSet "verify-ssl" then o.VerifySSL else c.VerifySSL
    ClipboardTimeout :=
      if o.IsSet "clipboard-timeout" then o.ClipboardTimeout else c.ClipboardTimeout
    RequestFailedNotification :=
      if o.IsSet "request-failed-notification" then o.RequestFailedNotification
      else c.RequestFailedNotification
    StopTaskHotkey := if o.IsSet "stop-task-hotkey" then o.StopTaskHotkey else c.StopTaskHotkey
    HotKeyConfig := c.HotKeyConfig
    HotKeyHook := if o.IsSet "hotkeyhook" then o.HotKeyHook else c.HotKeyHook
    DEBUG := if o.IsSet "debug" then o.DEBUG else c.DEBUG }

/-- The options that `ParseCLI` returns for no argument at all. -/
def noFlags : CLIOptions :=
  { ConfigPath := "", ShowHelp := false, APIEndpoint := "", Token := "", Model := "",
    Temperature := .finite false 0 0, MaxTokens := 0, TEXTPath := "", ExtraConfig := "",
    RequestTimeout := 0, MaxRetry := 0, RetryBaseDelay := .finite false 0 0,
    EnableHTTP2 := false, VerifySSL := false, ClipboardTimeout := 0,
    RequestFailedNotification := false, StopTaskHotkey := "", HotKeyHook := false,
    DEBUG := false, set := [] }

/-- The options of the arguments `-verify-ssl=false -max-retry=0 -model=`
together with `-config c.json`: three flags given with a false, a zero and an
empty value. -/
def zeroFlags : CLIOptions :=
  { noFlags with ConfigPath := "c.json", set := ["config", "verify-ssl", "max-retry", "model"] }

/-- A loaded configuration with a model name, three attempts and certificate
checks. -/
def loadedConfig : Config := { notifyConfig with Model := "base", MaxRetry := 3 }

/-! ## A call of `StopAll` next to the worker -/

/-- The number of calls of `CopySelected` in a history. -/
def copyCalls : List LogEntry → Nat
  | [] => 0
  | .effect .copySelected :: rest => copyCalls rest + 1
  | _ :: rest => copyCalls rest

/-- The situation of `TestStopAllCancelsCurrentAndClearsQueue` at the call of
`StopAll`: failure notification is off, task 1 has been enqueued and received,
its job has registered its context and waits in the doer, and task 1 has been
enqueued a second time. -/
def stopTestApp : App :=
  run (App.start quietConfig [])
    [Action.enqueue 1, Action.receive, Action.register, Action.enqueue 1]

/-- The steps of a call of `StopAll` made in the state `a` when no other
goroutine moves during the call: the mutex section and one round of the drain
loop for every pending id. -/
def stopAllSteps (a : App) : List Action :=
  Action.stopCancel :: a.eventCh.map (fun _ => Action.stopDrain)

/-- A call of `StopAll` with the worker moving in the middle of it: the mutex
section cancels the job in flight, that job returns with the cancellation
error, the worker receives the next id, the drain loop of `StopAll` finds the
channel empty and returns, and the worker runs the job it received. -/
def stopRace : List Action :=
  [Action.stopCancel, Action.finish cancelledEnv, Action.receive, Action.stopDrain,
   Action.register, Action.finish okEnv]

/-! # Theorems -/

/-! ## Theorems: package `request` -/

theorem isNil_iff (v : Value) : v.isNil = true ↔ v = .nil := by
  cases v <;> simp [Value.isNil]

mutual
theorem cleanValue_idem : ∀ v : Value, cleanValue (cleanValue v) = cleanValue v
  | .nil => by simp [cleanValue]
  | .str t => by
    by_cases h : TrimSpace t = "" <;> simp [cleanValue, h]
  | .float f => by simp [cleanValue]
  | .int n => by simp [cleanValue]
  | .bool b => by simp [cleanValue]
  | .msgs ms => by simp [cleanValue]
  | .obj t => by
    have ih := strip_idem t
    by_cases h : (StripEmptyFields t).length = 0
    · simp [cleanValue, h]
    · simp [cleanValue, h, ih]
  | .arr t => by
    have ih := cleanItems_idem t
    by_cases h : (cleanItems t).length = 0
    · simp [cleanValue, h]
    · simp [cleanValue, h, ih]
theorem strip_idem : ∀ m : List (String × Value),
    StripEmptyFields (StripEmptyFields m) = StripEmptyFields m
  | [] => by simp [StripEmptyFields]
  | (k, v) :: rest => by
    have ih := strip_idem rest
    have iv := cleanValue_idem v
    by_cases h : (cleanValue v).isNil = true
    · simp [StripEmptyFields, h, ih]
    · simp [StripEmptyFields, h, ih, iv]
theorem cleanItems_idem : ∀ xs : List Value,
    cleanItems (cleanItems xs) = cleanItems xs
  | [] => by simp [cleanItems]
  | v :: rest => by
    have ih := cleanItems_idem rest
    have iv := cleanValue_idem v
    by_cases h : (cleanValue v).isNil = true
    · simp [cleanItems, h, ih]
    · simp [cleanItems, h, ih, iv]
end

theorem mapGet_mapSet (m : List (String × Value)) (k k' : String) (v : Value) :
    mapGet (mapSet m k v) k' = if k = k' then some v else mapGet m k' := by
  induction m with
  | nil => simp [mapSet, mapGet]
  | cons hd tl ih =>
    obtain ⟨a, b⟩ := hd
    by_cases h : a = k
    · subst h
      by_cases h2 : a = k' <;> simp [mapSet, mapGet, h2]
    · by_cases h2 : k = k'
      · subst h2
        simp [mapSet, mapGet, h, ih]
      · by_cases h3 : a = k'
        · subst h3
          simp [mapSet, mapGet, h, h2]
        · simp [mapSet, mapGet, h, h2, h3, ih]

theorem mapGet_eq_none_of_not_mem (m : List (String × Value)) (k : String)
    (h : k ∉ m.map Prod.fst) : mapGet m k = none := by
  induction m with
  | nil => rfl
  | cons hd tl ih =>
    obtain ⟨a, b⟩ := hd
    simp only [List.map_cons, List.mem_cons, not_or] at h
    have h1 : ¬ a = k := fun e => h.1 e.symm
    simp [mapGet, h1, ih h.2]

theorem keys_mapSet (m : List (String × Value)) (k : String) (v : Value) :
    (mapSet m k v).map Prod.fst =
      if k ∈ m.map Prod.fst then m.map Prod.fst else m.map Prod.fst ++ [k] := by
  induction m with
  | nil => simp [mapSet]
  | cons hd tl ih =>
    obtain ⟨a, b⟩ := hd
    by_cases h : a = k
    · subst h
      simp [mapSet]
    · have h' : ¬ k = a := fun e => h e.symm
      by_cases h2 : k ∈ tl.map Prod.fst
      · simp only [mapSet, h, if_false, List.map_cons, ih, h2, if_true, List.mem_cons, or_true]
      · simp only [mapSet, h, if_false, List.map_cons, ih, h2, List.mem_cons, h', or_self,
          List.cons_append]

theorem keysNodup_mapSet (m : List (String × Value)) (k : String) (v : Value)
    (h : keysNodup m) : keysNodup (mapSet m k v) := by
  unfold keysNodup at *
  rw [keys_mapSet]
  by_cases h2 : k ∈ m.map Prod.fst
  · simpa [h2] using h
  · simp only [h2, if_false]
    rw [List.nodup_append]
    refine ⟨h, List.nodup_singleton k, ?_⟩
    intro a ha hb
    simp only [List.mem_singleton] at hb
    exact h2 (hb ▸ ha)

theorem keysNodup_mapCopyInto (src dst : List (String × Value))
    (h : keysNodup dst) : keysNodup (mapCopyInto dst src) := by
  induction src generalizing dst with
  | nil => simpa [mapCopyInto] using h
  | cons hd tl ih =>
    simp only [mapCopyInto, List.foldl_cons]
    exact ih _ (keysNodup_mapSet dst hd.1 hd.2 h)

theorem mapGet_mapCopyInto (src dst : List (String × Value)) (k : String)
    (h : keysNodup src) :
    mapGet (mapCopyInto dst src) k =
      match mapGet src k with
      | some v => some v
      | none => mapGet dst k := by
  induction src generalizing dst with
  | nil => simp [mapCopyInto, mapGet]
  | cons hd tl ih =>
    obtain ⟨a, b⟩ := hd
    have hn : keysNodup tl := by
      unfold keysNodup at *
      exact (List.nodup_cons.mp h).2
    have hrec := ih (mapSet dst a b) hn
    simp only [mapCopyInto, List.foldl_cons] at hrec ⊢
    rw [hrec, mapGet_mapSet]
    by_cases hk : a = k
    · subst hk
      have hnot : a ∉ tl.map Prod.fst := by
        unfold keysNodup at h
        exact (List.nodup_cons.mp h).1
      simp [mapGet, mapGet_eq_none_of_not_mem tl a hnot]
    · simp [mapGet, hk]

theorem mapGet_strip (m : List (String × Value)) (k : String) (h : keysNodup m) :
    mapGet (StripEmptyFields m) k = strippedField (mapGet m k) := by
  induction m with
  | nil => simp [StripEmptyFields, mapGet, strippedField]
  | cons hd tl ih =>
    obtain ⟨a, b⟩ := hd
    have hn : keysNodup tl := by
      unfold keysNodup at *
      exact (List.nodup_cons.mp h).2
    have hnot : a ∉ tl.map Prod.fst := by
      unfold keysNodup at h
      exact (List.nodup_cons.mp h).1
    by_cases hk : a = k
    · subst hk
      by_cases hc : (cleanValue b).isNil = true
      · simp [StripEmptyFields, hc, mapGet, strippedField, ih hn,
          mapGet_eq_none_of_not_mem tl a hnot]
      · simp [StripEmptyFields, hc, mapGet, strippedField]
    · by_cases hc : (cleanValue b).isNil = true
      · simp [StripEmptyFields, hc, mapGet, hk, ih hn]
      · simp [StripEmptyFields, hc, mapGet, hk, ih hn]

theorem mapGet_MergeExtra (base override : List (String × Value)) (k : String)
    (hb : keysNodup base) (ho : keysNodup override) :
    mapGet (MergeExtra base override) k =
      match mapGet override k with
      | some v => some v
      | none => mapGet base k := by
  have h1 := mapGet_mapCopyInto override (mapCopyInto [] base) k ho
  have h2 := mapGet_mapCopyInto base [] k hb
  unfold MergeExtra
  by_cases hl : (mapCopyInto (mapCopyInto [] base) override).length = 0
  · have he : mapCopyInto (mapCopyInto [] base) override = [] := List.length_eq_zero.mp hl
    rw [he] at h1
    simp only [hl, if_true]
    rw [h1, h2]
    cases mapGet base k <;> simp [mapGet]
  · simp only [hl, if_false]
    rw [h1, h2]
    cases mapGet base k <;> simp [mapGet]

theorem keysNodup_MergeExtra (base override : List (String × Value)) :
    keysNodup (MergeExtra base override) := by
  unfold MergeExtra
  have h : keysNodup (mapCopyInto (mapCopyInto [] base) override) :=
    keysNodup_mapCopyInto _ _ (keysNodup_mapCopyInto _ _ (by simp [keysNodup]))
  by_cases hl : (mapCopyInto (mapCopyInto [] base) override).length = 0
  · simp [hl, keysNodup]
  · simpa [hl] using h

theorem BuildPayload_eq (i : BuildInput) :
    BuildPayload i = StripEmptyFields (mapCopyInto (templatePayload i) i.Extra) := rfl

theorem keysNodup_templatePayload (i : BuildInput) : keysNodup (templatePayload i) := by
  unfold templatePayload
  apply keysNodup_mapSet
  split
  · apply keysNodup_mapSet
    apply keysNodup_mapSet
    split
    · apply keysNodup_mapSet
      simp [keysNodup]
    · simp [keysNodup]
  · apply keysNodup_mapSet
    split
    · apply keysNodup_mapSet
      simp [keysNodup]
    · simp [keysNodup]

theorem mapGet_templatePayload (i : BuildInput) (k : String) :
    mapGet (templatePayload i) k = templateDefault i k := by
  have e1 : ∀ a : String, (a = k) = (k = a) := fun a => propext eq_comm
  unfold templatePayload templateDefault
  by_cases hm : i.Model = "" <;> by_cases ht : 0 < i.MaxTokens <;>
    by_cases h1 : k = "model" <;> by_cases h2 : k = "messages" <;>
    by_cases h3 : k = "max_tokens" <;> by_cases h4 : k = "temperature" <;>
    simp [mapGet_mapSet, mapGet, e1, hm, ht, h1, h2, h3, h4]

/-- C4: for every field name, the payload built with the merged extra fields
takes the field from the per-task extras if present there, otherwise from the
global extras, otherwise from the template defaults, and the chosen value is
then subject to empty-field stripping. -/
theorem BuildPayload_merge_precedence (i : BuildInput)
    (global perTask : List (String × Value)) (k : String)
    (hg : keysNodup global) (hp : keysNodup perTask) :
    mapGet (BuildPayload { i with Extra := MergeExtra global perTask }) k =
      strippedField (chosenField i global perTask k) := by
  rw [BuildPayload_eq]
  have hn : keysNodup (mapCopyInto
      (templatePayload { i with Extra := MergeExtra global perTask })
      (MergeExtra global perTask)) :=
    keysNodup_mapCopyInto _ _ (keysNodup_templatePayload _)
  rw [mapGet_strip _ _ hn,
    mapGet_mapCopyInto _ _ _ (keysNodup_MergeExtra global perTask),
    mapGet_MergeExtra _ _ _ hg hp, mapGet_templatePayload]
  unfold chosenField
  cases mapGet perTask k <;> cases mapGet global k <;> rfl

/-! ## Theorems: float64 and number formatting -/

theorem bitLenAux_le (fuel n k : Nat) (h : n < 2 ^ k) : bitLenAux fuel n ≤ k := by
  induction fuel generalizing n k with
  | zero => simp [bitLenAux]
  | succ f ih =>
    unfold bitLenAux
    by_cases hn : n = 0
    · simp [hn]
    · simp only [hn, if_false]
      cases k with
      | zero =>
        simp at h
        exact absurd h hn
      | succ k =>
        have : n / 2 < 2 ^ k := by
          apply Nat.div_lt_of_lt_mul
          rw [pow_succ] at h
          omega
        have := ih (n / 2) k this
        omega

theorem bitLen_le (n k : Nat) (h : n < 2 ^ k) : bitLen n ≤ k :=
  bitLenAux_le n n k h

/-- Rounding an integer below `2^63` whose low bits beyond 53 are zero is exact. -/
theorem round_exact_int (neg : Bool) (m e : Nat) (hm : m < 2 ^ 53) (hr : m * 2 ^ e < 2 ^ 64) :
    ∃ q s : Nat, F64.round neg (m * 2 ^ e) 0 = .finite neg q s ∧ s ≤ e ∧
      q * 2 ^ s = m * 2 ^ e := by
  have hb63 : bitLen (m * 2 ^ e) ≤ 64 := bitLen_le _ _ hr
  have hbe : bitLen (m * 2 ^ e) ≤ 53 + e := by
    apply bitLen_le
    rw [pow_add]
    exact Nat.mul_lt_mul_of_lt_of_le hm (le_refl _) (by positivity)
  by_cases hs : bitLen (m * 2 ^ e) ≤ 53
  · refine ⟨m * 2 ^ e, 0, ?_, Nat.zero_le _, by simp⟩
    unfold F64.round
    have h1 : max ((bitLen (m * 2 ^ e) : Int) - 53) (-1074 - 0) ≤ 0 := by omega
    simp only [h1, if_true]
    have h2 : ¬ ((bitLen (m * 2 ^ e) : Int) + 0 > 1024) := by omega
    simp only [h2, if_false]
    rfl
  · have hs' : 53 < bitLen (m * 2 ^ e) := by omega
    obtain ⟨s, hsdef⟩ : ∃ s : Nat, bitLen (m * 2 ^ e) = 53 + s := ⟨bitLen (m * 2 ^ e) - 53, by omega⟩
    have hspos : 0 < s := by omega
    have hse : s ≤ e := by omega
    have hdvd : 2 ^ s ∣ m * 2 ^ e := Dvd.dvd.mul_left (Nat.pow_dvd_pow 2 hse) m
    have hmod : m * 2 ^ e % 2 ^ s = 0 := Nat.mod_eq_zero_of_dvd hdvd
    refine ⟨m * 2 ^ e / 2 ^ s, s, ?_, hse, Nat.div_mul_cancel hdvd⟩
    unfold F64.round
    have h1 : max ((bitLen (m * 2 ^ e) : Int) - 53) (-1074 - 0) = (s : Int) := by omega
    have h1' : ¬ ((s : Int) ≤ 0) := by omega
    simp only [h1, h1', if_false, Int.toNat_ofNat, hmod]
    have hhalf : 0 < 2 ^ (s - 1) := by positivity
    have h3 : (decide (2 ^ (s - 1) < 0) || ((0 : Nat) == 2 ^ (s - 1) && m * 2 ^ e / 2 ^ s % 2 == 1)) = false := by
      have : ((0 : Nat) == 2 ^ (s - 1)) = false := by
        rw [beq_eq_false_iff_ne]; omega
      simp [this]
    simp only [h3]
    have hq : m * 2 ^ e / 2 ^ s ≤ m * 2 ^ e := Nat.div_le_self _ _
    have hbq : bitLen (m * 2 ^ e / 2 ^ s) ≤ 64 := bitLen_le _ _ (lt_of_le_of_lt hq hr)
    have h4 : ¬ ((bitLen (m * 2 ^ e / 2 ^ s) : Int) + (0 + (s : Int)) > 1024) := by omega
    have h5 : (bitLen (m * 2 ^ e / 2 ^ s) : Int) + (s : Int) ≤ 1024 := by omega
    simp [h5]


/-- The sign test of `F64.eq` for a value and the float of its integer. -/
theorem sign_ok (neg : Bool) (mag a : Nat) (n : Int)
    (hn : (if neg = true then -(mag : Int) else (mag : Int)) = n) (ha : mag = 0 → a = 0) :
    (neg == decide (n < 0) || a == 0) = true := by
  cases neg
  · simp only [Bool.false_eq_true, if_false] at hn
    have : ¬ n < 0 := by omega
    simp [this]
  · simp only [if_true] at hn
    by_cases h0 : mag = 0
    · simp [ha h0]
    · have : n < 0 := by omega
      simp [this]

theorem natAbs_of_signed (neg : Bool) (mag : Nat) (n : Int)
    (hn : (if neg = true then -(mag : Int) else (mag : Int)) = n) : n.natAbs = mag := by
  cases neg
  · simp only [Bool.false_eq_true, if_false] at hn
    omega
  · simp only [if_true] at hn
    omega

theorem F64_eq_roundtrip (v : F64) (n : Int) (hd : v.isDouble = true)
    (hi : v.intValue = some n) (hlo : -2 ^ 63 ≤ n) (hhi : n < 2 ^ 63) :
    v.toInt64 = n ∧ F64.eq v (F64.ofInt64 n) = true := by
  cases v with
  | nan => simp [F64.intValue] at hi
  | inf b => simp [F64.intValue] at hi
  | finite neg m e =>
    simp only [F64.isDouble, Bool.and_eq_true, decide_eq_true_eq] at hd
    obtain ⟨⟨hm, -⟩, -⟩ := hd
    have hrange : -2 ^ 63 ≤ n ∧ n < 2 ^ 63 := ⟨hlo, hhi⟩
    by_cases he : 0 ≤ e
    · obtain ⟨k, rfl⟩ : ∃ k : Nat, e = (k : Int) := ⟨e.toNat, (Int.toNat_of_nonneg he).symm⟩
      simp only [F64.intValue, he, if_true, Int.toNat_ofNat, Option.some.injEq] at hi
      have hnabs := natAbs_of_signed neg _ n hi
      have hmag : m * 2 ^ k < 2 ^ 64 := by
        rw [← hnabs]; omega
      constructor
      · simp only [F64.toInt64, he, if_true, Int.toNat_ofNat, hi, hrange, and_self]
      · obtain ⟨q, s, hround, hsk, hqs⟩ := round_exact_int (decide (n < 0)) m k hm hmag
        unfold F64.ofInt64
        rw [hnabs, hround]
        unfold F64.eq
        have hmin : min (k : Int) (s : Int) = (s : Int) := by omega
        have h1 : ((k : Int) - (s : Int)).toNat = k - s := by omega
        simp only [hmin, h1, sub_self, Int.toNat_zero, pow_zero, mul_one]
        have h2 : m * 2 ^ (k - s) = q := by
          have hpos : 0 < 2 ^ s := by positivity
          apply Nat.eq_of_mul_eq_mul_right hpos
          rw [hqs, mul_assoc, ← pow_add, Nat.sub_add_cancel hsk]
        rw [h2]
        simp only [beq_self_eq_true, Bool.true_and]
        apply sign_ok neg (m * 2 ^ k) q n hi
        intro h0
        rw [h0] at hqs
        rcases Nat.eq_zero_or_pos q with hq | hq
        · exact hq
        · have : 0 < q * 2 ^ s := by positivity
          omega
    · obtain ⟨k, hk⟩ : ∃ k : Nat, -e = (k : Int) :=
        ⟨(-e).toNat, (Int.toNat_of_nonneg (by omega)).symm⟩
      simp only [F64.intValue, he, if_false, hk, Int.toNat_ofNat] at hi
      by_cases hmod : m % 2 ^ k = 0
      · simp only [hmod, if_true, Option.some.injEq] at hi
        have hnabs := natAbs_of_signed neg _ n hi
        have hle : m / 2 ^ k ≤ m := Nat.div_le_self _ _
        have hmag53 : m / 2 ^ k < 2 ^ 53 := lt_of_le_of_lt hle hm
        constructor
        · simp only [F64.toInt64, he, if_false, hk, Int.toNat_ofNat, hi, hrange, and_self,
            if_true]
        · have hmag : m / 2 ^ k * 2 ^ 0 < 2 ^ 64 := by
            simp only [pow_zero, mul_one]
            exact lt_of_lt_of_le hmag53 (Nat.pow_le_pow_right (by norm_num) (by norm_num))
          obtain ⟨q, s, hround, hsk, hqs⟩ :=
            round_exact_int (decide (n < 0)) (m / 2 ^ k) 0 hmag53 hmag
          have hs0 : s = 0 := by omega
          subst hs0
          simp only [pow_zero, mul_one] at hqs hround
          subst hqs
          unfold F64.ofInt64
          rw [hnabs, hround]
          unfold F64.eq
          have hmin : min e ((0 : Nat) : Int) = e := by omega
          have h1 : (((0 : Nat) : Int) - e).toNat = k := by omega
          simp only [hmin, h1, sub_self, Int.toNat_zero, pow_zero, mul_one]
          have h2 : m / 2 ^ k * 2 ^ k = m := Nat.div_mul_cancel (Nat.dvd_of_mod_eq_zero hmod)
          rw [h2]
          simp only [beq_self_eq_true, Bool.true_and]
          apply sign_ok neg (m / 2 ^ k) m n hi
          intro h0
          rw [h0] at h2
          omega
      · simp [hmod] at hi

theorem digit_char (k : Nat) (h : k < 10) :
    isDigitChar (Char.ofNat (48 + k)) = true ∧ (Char.ofNat (48 + k)).toNat - 48 = k ∧
    Char.ofNat (48 + k) ≠ '-' ∧ Char.ofNat (48 + k) ≠ '+' ∧ Char.ofNat (48 + k) ≠ '.' ∧
    Char.ofNat (48 + k) ≠ '[' ∧ Char.ofNat (48 + k) ≠ ']' := by
  interval_cases k <;> decide

theorem natDigitsAux_append (fuel n : Nat) (acc : List Char) :
    natDigitsAux fuel n acc = natDigitsAux fuel n [] ++ acc := by
  induction fuel generalizing n acc with
  | zero => simp [natDigitsAux]
  | succ f ih =>
    unfold natDigitsAux
    by_cases h : n < 10
    · simp [h]
    · simp only [h, if_false]
      rw [ih (n / 10) (Char.ofNat (48 + n % 10) :: acc), ih (n / 10) [Char.ofNat (48 + n % 10)]]
      simp

theorem not_mem_snoc (a c : Char) (l : List Char) (h1 : a ∉ l) (h : c ≠ a) :
    a ∉ l ++ [c] := by
  simp only [List.mem_append, List.mem_singleton, not_or]
  exact ⟨h1, fun e => h e.symm⟩

theorem natDigitsAux_spec (fuel n : Nat) (h : n < fuel) :
    natDigitsAux fuel n [] ≠ [] ∧ isDigitOnly (natDigitsAux fuel n []) ∧
    digitsVal (natDigitsAux fuel n []) = n := by
  induction fuel generalizing n with
  | zero => omega
  | succ f ih =>
    obtain ⟨d1, d2, d3, d4, d5, d6, d7⟩ := digit_char (n % 10) (Nat.mod_lt _ (by norm_num))
    unfold natDigitsAux
    by_cases h10 : n < 10
    · simp only [h10, if_true]
      have hn : n % 10 = n := Nat.mod_eq_of_lt h10
      rw [hn] at d1 d2 d3 d4 d5 d6 d7 ⊢
      refine ⟨by simp, ⟨by simp [d1], ?_, ?_, ?_, ?_, ?_⟩, by simp [digitsVal, d2]⟩
      · exact not_mem_snoc _ _ [] (by simp) d5
      · exact not_mem_snoc _ _ [] (by simp) d6
      · exact not_mem_snoc _ _ [] (by simp) d7
      · exact not_mem_snoc _ _ [] (by simp) d3
      · exact not_mem_snoc _ _ [] (by simp) d4
    · simp only [h10, if_false]
      rw [natDigitsAux_append]
      have hlt : n / 10 < f := by omega
      obtain ⟨h1, ⟨h2, h3, h4, h5, h6, h7⟩, h8⟩ := ih (n / 10) hlt
      refine ⟨by simp, ⟨by simp [h2, d1], ?_, ?_, ?_, ?_, ?_⟩, ?_⟩
      · exact not_mem_snoc _ _ _ h3 d5
      · exact not_mem_snoc _ _ _ h4 d6
      · exact not_mem_snoc _ _ _ h5 d7
      · exact not_mem_snoc _ _ _ h6 d3
      · exact not_mem_snoc _ _ _ h7 d4
      · unfold digitsVal at h8 ⊢
        rw [List.foldl_append, h8]
        simp only [List.foldl_cons, List.foldl_nil, d2]
        omega

theorem natDigits_spec (n : Nat) :
    natDigits n ≠ [] ∧ isDigitOnly (natDigits n) ∧ digitsVal (natDigits n) = n :=
  natDigitsAux_spec (n + 1) n (Nat.lt_succ_self n)

theorem stripSign_digits (ds : List Char) (hminus : '-' ∉ ds) (hplus : '+' ∉ ds) :
    stripSign ds = ds ∧ stripMinus ds = ds ∧ (decide (ds.head? = some '-')) = false := by
  cases ds with
  | nil => simp [stripSign, stripMinus]
  | cons c rest =>
    have hc1 : c ≠ '-' := fun e => hminus (by simp [e])
    have hc2 : c ≠ '+' := fun e => hplus (by simp [e])
    refine ⟨?_, ?_, by simp [hc1]⟩
    · unfold stripSign
      split
      · rename_i h; simp at h; exact absurd h.1 hc1
      · rename_i h; simp at h; exact absurd h.1 hc2
      · rfl
    · unfold stripMinus
      split
      · rename_i h; simp at h; exact absurd h.1 hc1
      · rfl

theorem Atoi_digits (ds : List Char) (hne : ds ≠ []) (hd : isDigitOnly ds)
    (hr : (digitsVal ds : Int) < 2 ^ 63) : Atoi ds = some (digitsVal ds : Int) := by
  obtain ⟨hall, -, -, -, hminus, hplus⟩ := hd
  obtain ⟨h1, -, h3⟩ := stripSign_digits ds hminus hplus
  unfold Atoi
  have hemp : ds.isEmpty = false := by
    cases ds with
    | nil => exact absurd rfl hne
    | cons c r => rfl
  have hnn : (0 : Int) ≤ (digitsVal ds : Int) := Int.ofNat_nonneg _
  have hlo : (-2 : Int) ^ 63 ≤ (digitsVal ds : Int) := by omega
  simp only [h1, h3, hemp, hall, Bool.not_true, Bool.or_self, Bool.false_eq_true, if_false]
  simp [hr]
  omega

theorem Atoi_neg_digits (ds : List Char) (hne : ds ≠ []) (hd : isDigitOnly ds)
    (hr : (digitsVal ds : Int) ≤ 2 ^ 63) : Atoi ('-' :: ds) = some (-(digitsVal ds : Int)) := by
  obtain ⟨hall, -, -, -, hminus, hplus⟩ := hd
  unfold Atoi
  have hemp : ds.isEmpty = false := by
    cases ds with
    | nil => exact absurd rfl hne
    | cons c r => rfl
  have hnn : (0 : Int) ≤ (digitsVal ds : Int) := Int.ofNat_nonneg _
  have hs : stripSign ('-' :: ds) = ds := rfl
  simp only [hs, hemp, hall, Bool.not_true, Bool.or_self, Bool.false_eq_true, if_false,
    List.head?_cons, decide_True, if_true]
  have h1 : (-2 : Int) ^ 63 ≤ -(digitsVal ds : Int) := by omega
  have h2 : -(digitsVal ds : Int) < 2 ^ 63 := by omega
  simp [h1, h2]
  omega

/-- The `%d` rendering is a plain base-10 integer that reads back as the
number. -/
theorem fmtD_plain (n : Int) (hlo : -2 ^ 63 ≤ n) (hhi : n < 2 ^ 63) :
    isPlainInt (fmtD n) = true ∧ Atoi (fmtD n).data = some n := by
  obtain ⟨hne, hd, hv⟩ := natDigits_spec n.natAbs
  have hemp : (natDigits n.natAbs).isEmpty = false := by
    cases h : natDigits n.natAbs with
    | nil => exact absurd h hne
    | cons c r => rfl
  have hall : (natDigits n.natAbs).all isDigitChar = true := hd.1
  unfold fmtD
  by_cases hneg : n < 0
  · simp only [hneg, if_true]
    constructor
    · simp only [isPlainInt, stripMinus, hemp, hall]
      rfl
    · rw [Atoi_neg_digits _ hne hd (by rw [hv]; omega), hv]
      congr 1
      omega
  · simp only [hneg, if_false]
    obtain ⟨-, h2, -⟩ := stripSign_digits _ hd.2.2.2.2.1 hd.2.2.2.2.2
    constructor
    · simp only [isPlainInt, h2, hemp, hall]
      rfl
    · rw [Atoi_digits _ hne hd (by rw [hv]; omega), hv]
      congr 1
      omega

/-! ## Theorems: package `response` -/

theorem split_no_dot (t : List Char) (h : '.' ∉ t) : splitOnChar '.' t = [t] := by
  induction t with
  | nil => rfl
  | cons c r ih =>
    simp only [List.mem_cons, not_or] at h
    have hc : ¬ c = '.' := fun e => h.1 e.symm
    simp [splitOnChar, hc, ih h.2]

theorem split_dot_append (t rest : List Char) (h : '.' ∉ t) :
    splitOnChar '.' (t ++ '.' :: rest) = t :: splitOnChar '.' rest := by
  induction t with
  | nil => simp [splitOnChar]
  | cons c r ih =>
    simp only [List.mem_cons, not_or] at h
    have hc : ¬ c = '.' := fun e => h.1 e.symm
    simp [splitOnChar, hc, ih h.2]

theorem split_joinDots (ts : List (List Char)) (hne : ts ≠ []) (h : ∀ t ∈ ts, '.' ∉ t) :
    splitOnChar '.' (joinDots ts) = ts := by
  induction ts with
  | nil => exact absurd rfl hne
  | cons t rest ih =>
    cases rest with
    | nil => simpa [joinDots] using split_no_dot t (h t (by simp))
    | cons t2 rest2 =>
      have h1 : '.' ∉ t := h t (by simp)
      have h2 : ∀ x ∈ t2 :: rest2, '.' ∉ x := fun x hx => h x (List.mem_cons_of_mem _ hx)
      simp only [joinDots]
      rw [split_dot_append _ _ h1, ih (by simp) h2]

theorem indexOf_append (c : Char) (t rest : List Char) (h : c ∉ t) :
    indexOfChar c (t ++ c :: rest) = some t.length := by
  induction t with
  | nil => simp [indexOfChar]
  | cons x r ih =>
    simp only [List.mem_cons, not_or] at h
    have hx : ¬ x = c := fun e => h.1 e.symm
    simp [indexOfChar, hx, ih h.2]

theorem indexOf_none (c : Char) (t : List Char) (h : c ∉ t) : indexOfChar c t = none := by
  induction t with
  | nil => rfl
  | cons x r ih =>
    simp only [List.mem_cons, not_or] at h
    have hx : ¬ x = c := fun e => h.1 e.symm
    simp [indexOfChar, hx, ih h.2]

theorem indexText_length (idxs : List Nat) : idxs.length ≤ (indexText idxs).length := by
  induction idxs with
  | nil => simp [indexText]
  | cons i rest ih => simp [indexText]; omega

theorem parseIndexes_indexText (idxs : List Nat) (fuel : Nat) (acc : List Int)
    (hf : idxs.length < fuel) (hr : ∀ i ∈ idxs, i < 2 ^ 63) :
    parseIndexes fuel (indexText idxs) acc = some (acc ++ idxs.map Int.ofNat) := by
  induction idxs generalizing fuel acc with
  | nil =>
    cases fuel with
    | zero => simp at hf
    | succ f => simp [parseIndexes, indexText]
  | cons i rest ih =>
    cases fuel with
    | zero => simp at hf
    | succ f =>
      obtain ⟨hne, hd, hv⟩ := natDigits_spec i
      have hclose : indexOfChar ']' ('[' :: natDigits i ++ ']' :: indexText rest) =
          some (natDigits i).length.succ := by
        have := indexOf_append ']' ('[' :: natDigits i) (indexText rest)
          (by
            simp only [List.mem_cons, not_or]
            exact ⟨by decide, hd.2.2.2.1⟩)
        simpa using this
      have hi : (i : Int) < 2 ^ 63 := by
        have := hr i (by simp)
        exact_mod_cast this
      have hat : Atoi (natDigits i) = some (i : Int) := by
        rw [Atoi_digits _ hne hd (by rw [hv]; exact hi), hv]
      have hrest : ∀ j ∈ rest, j < 2 ^ 63 := fun j hj => hr j (List.mem_cons_of_mem _ hj)
      have hlen : rest.length < f := by simp at hf; omega
      unfold parseIndexes
      simp only [indexText, List.length_cons, gt_iff_lt, Nat.zero_lt_succ, if_true,
        List.head?_cons, ne_eq, not_true_eq_false, if_false, hclose]
      have htake : (List.take (natDigits i).length.succ ('[' :: (natDigits i ++ ']' :: indexText rest))).drop 1
          = natDigits i := by
        simp [List.take_append_eq_append_take]
      have hdrop : List.drop ((natDigits i).length.succ + 1) ('[' :: (natDigits i ++ ']' :: indexText rest))
          = indexText rest := by
        simp [List.drop_append_eq_append_drop]
      simp only [List.cons_append] at htake hdrop ⊢
      rw [htake, hat]
      simp only []
      rw [hdrop, ih f (acc ++ [(i : Int)]) hlen hrest]
      simp

theorem extractByPath_empty (root : Value) : extractByPath root "" = none := by
  simp [extractByPath]

theorem ExtractText_eq (unmarshal : String → Option Value) (body : String) (root : Value)
    (o d : String) (hroot : unmarshal body = some root) :
    ExtractTextFromResponse unmarshal body o d =
      match extractByPath root (effectivePath o d) with
      | some out => out
      | none => structuralFallback root := by
  unfold ExtractTextFromResponse effectivePath
  rw [hroot]
  by_cases h1 : TrimSpace o = ""
  · by_cases h2 : TrimSpace d = ""
    · simp only [h1, h2, if_true, ne_eq, not_true_eq_false, if_false, extractByPath_empty]
    · simp only [h1, h2, if_true, ne_eq, not_false_eq_true]
  · simp only [h1, if_false, ne_eq, not_false_eq_true, if_true]

/-- C9: structural fallback on `text`.  For every response whose root is a
mapping with a string-valued `text` field `s`, whatever its other fields, if
the effective path (the trimmed override, or the trimmed default when the
override is blank) does not resolve against the response, then
`ExtractTextFromResponse` returns `s`. -/
theorem ExtractText_fallback_text (unmarshal : String → Option Value) (body : String)
    (m : List (String × Value)) (s o d : String)
    (hroot : unmarshal body = some (.obj m))
    (htext : mapGet m "text" = some (.str s))
    (hfail : extractByPath (.obj m) (effectivePath o d) = none) :
    ExtractTextFromResponse unmarshal body o d = s := by
  rw [ExtractText_eq unmarshal body _ o d hroot, hfail]
  simp [structuralFallback, htext]

/-- C9, witness: the response of the fallback test, `{"text":"fallback"}` with
the failing override path `bad.path` and no default path, yields `fallback`. -/
theorem ExtractText_fallback_text_witness :
    ExtractTextFromResponse (fun _ => some (.obj [("text", .str "fallback")]))
      "\x7b\"text\":\"fallback\"\x7d" "bad.path" "" = "fallback" :=
  ExtractText_fallback_text (fun _ => some (.obj [("text", .str "fallback")]))
    "\x7b\"text\":\"fallback\"\x7d" [("text", .str "fallback")] "fallback" "bad.path" ""
    rfl rfl (by rfl)


/-- C10, counterexample: on `{"answer":"A","text":"T"}` the non-blank override
path `missing` fails and the default path `answer` resolves to `A`, yet the
result is the structural fallback `T`, not the value at the default path. -/
theorem ExtractText_order_counterexample :
    TrimSpace "missing" ≠ "" ∧
    extractByPath orderRoot "missing" = none ∧
    extractByPath orderRoot "answer" = some "A" ∧
    ExtractTextFromResponse (fun _ => some orderRoot)
      "\x7b\"answer\":\"A\",\"text\":\"T\"\x7d" "missing" "answer" = "T" ∧
    "T" ≠ "A" := by
  refine ⟨by decide, by rfl, by rfl, by rfl, by decide⟩

/-- C10, amended: a non-blank override path is the only path tried: the result
is the value at the override path when it resolves and the structural fallback
otherwise, whatever the global default path is; the global default path is
tried only when the override is blank, and then the result is the value at the
default path when it resolves and the structural fallback otherwise. -/
theorem ExtractText_resolution_order (unmarshal : String → Option Value) (body : String)
    (root : Value) (o d : String) (hroot : unmarshal body = some root) :
    (TrimSpace o ≠ "" →
      ExtractTextFromResponse unmarshal body o d =
        match extractByPath root (TrimSpace o) with
        | some out => out
        | none => structuralFallback root) ∧
    (TrimSpace o = "" →
      ExtractTextFromResponse unmarshal body o d =
        match extractByPath root (TrimSpace d) with
        | some out => out
        | none => structuralFallback root) := by
  rw [ExtractText_eq unmarshal body root o d hroot]
  unfold effectivePath
  constructor
  · intro h
    simp only [h, if_false]
  · intro h
    simp only [h, if_true]

/-- C10, witness of the amended claim on `{"answer":"A","text":"T"}` with the
override `missing` and the default `answer`. -/
theorem ExtractText_resolution_order_witness :
    (TrimSpace "missing" ≠ "" →
      ExtractTextFromResponse (fun _ => some orderRoot) "" "missing" "answer" =
        match extractByPath orderRoot (TrimSpace "missing") with
        | some out => out
        | none => structuralFallback orderRoot) ∧
    (TrimSpace "missing" = "" →
      ExtractTextFromResponse (fun _ => some orderRoot) "" "missing" "answer" =
        match extractByPath orderRoot (TrimSpace "answer") with
        | some out => out
        | none => structuralFallback orderRoot) :=
  ExtractText_resolution_order (fun _ => some orderRoot) "" orderRoot "missing" "answer" rfl

theorem indexText_no_dot (idxs : List Nat) : '.' ∉ indexText idxs := by
  induction idxs with
  | nil => simp [indexText]
  | cons i rest ih =>
    obtain ⟨-, hd, -⟩ := natDigits_spec i
    simp only [indexText, List.mem_cons, List.mem_append, not_or]
    exact ⟨⟨by decide, hd.2.1⟩, by decide, ih⟩

theorem indexText_cons_ne (i : Nat) (rest : List Nat) :
    indexText (i :: rest) = '[' :: (natDigits i ++ ']' :: indexText rest) := rfl

theorem parseKey_text (s : Segment) (h : s.wellFormed) :
    parseKeyAndIndexes ⟨s.text⟩ = some (s.key, s.idxs.map Int.ofNat) := by
  obtain ⟨-, hbr, hne, hr⟩ := h
  obtain ⟨key, idxs⟩ := s
  simp only at hbr hne hr
  cases idxs with
  | nil =>
    have hk : key ≠ "" := by
      rcases hne with h | h
      · exact h
      · exact absurd rfl h
    have htext : (⟨(Segment.mk key []).text⟩ : String) = key := by
      simp [Segment.text, indexText]
    rw [htext]
    unfold parseKeyAndIndexes
    simp [hk, indexOf_none '[' key.data hbr]
  | cons i rest =>
    have hne' : (⟨(Segment.mk key (i :: rest)).text⟩ : String) ≠ "" := by
      intro e
      have := congrArg String.data e
      simp [Segment.text, indexText] at this
    unfold parseKeyAndIndexes
    simp only [hne', if_false]
    have hidx : indexOfChar '[' (Segment.mk key (i :: rest)).text = some key.data.length := by
      simp only [Segment.text, indexText_cons_ne]
      exact indexOf_append '[' key.data _ hbr
    simp only [hidx]
    have htake : List.take key.data.length (Segment.mk key (i :: rest)).text = key.data := by
      simp [Segment.text]
    have hdrop : List.drop key.data.length (Segment.mk key (i :: rest)).text =
        indexText (i :: rest) := by
      simp [Segment.text]
    simp only [htake, hdrop]
    rw [parseIndexes_indexText (i :: rest) _ [] (by
      have := indexText_length (i :: rest)
      omega) hr]
    simp

theorem followIndex_none (idxs : List Nat) : idxs.foldl followIndex none = none := by
  induction idxs with
  | nil => rfl
  | cons i rest ih => simpa [List.foldl_cons, followIndex] using ih

theorem walkIndexes_follow (cur : Value) (idxs : List Nat) :
    walkIndexes cur (idxs.map Int.ofNat) = idxs.foldl followIndex (some cur) := by
  induction idxs generalizing cur with
  | nil => rfl
  | cons i rest ih =>
    simp only [List.map_cons, List.foldl_cons]
    cases cur with
    | arr xs =>
      simp only [walkIndexes, followIndex]
      by_cases hlt : i < xs.length
      · have h1 : ¬ ((Int.ofNat i) < 0 ∨ (Int.ofNat i) ≥ (xs.length : Int)) := by
          simp only [Int.ofNat_eq_coe]
          omega
        have ht : (Int.ofNat i).toNat = i := rfl
        simp only [h1, if_false, ht]
        cases hg : xs.get? i with
        | none => rw [followIndex_none]
        | some next => exact ih next
      · have h1 : ((Int.ofNat i) < 0 ∨ (Int.ofNat i) ≥ (xs.length : Int)) := by
          simp only [Int.ofNat_eq_coe]
          omega
        have hg : xs.get? i = none := by
          rw [List.get?_eq_none]; omega
        simp only [h1, if_true, hg]
        rw [followIndex_none]
    | nil => simp [walkIndexes, followIndex, followIndex_none]
    | str _ => simp [walkIndexes, followIndex, followIndex_none]
    | float _ => simp [walkIndexes, followIndex, followIndex_none]
    | int _ => simp [walkIndexes, followIndex, followIndex_none]
    | bool _ => simp [walkIndexes, followIndex, followIndex_none]
    | obj _ => simp [walkIndexes, followIndex, followIndex_none]
    | msgs _ => simp [walkIndexes, followIndex, followIndex_none]

theorem followSegment_none (s : Segment) : followSegment none s = none := by
  unfold followSegment
  by_cases h : s.key = "" <;> simp [h, followIndex_none]

theorem followPath_none (segs : List Segment) : segs.foldl followSegment none = none := by
  induction segs with
  | nil => rfl
  | cons s rest ih => simpa [List.foldl_cons, followSegment_none] using ih

theorem walkParts_follow (root : Value) (segs : List Segment)
    (h : ∀ s ∈ segs, s.wellFormed) :
    walkParts root ((segs.map Segment.text).map String.mk) = followPath root segs := by
  unfold followPath
  induction segs generalizing root with
  | nil => rfl
  | cons s rest ih =>
    have hs := h s (by simp)
    have hrest : ∀ x ∈ rest, x.wellFormed := fun x hx => h x (List.mem_cons_of_mem _ hx)
    simp only [List.map_cons, List.foldl_cons]
    unfold walkParts
    rw [parseKey_text s hs]
    simp only []
    by_cases hk : s.key = ""
    · simp only [hk, ne_eq, not_true_eq_false, if_false]
      rw [walkIndexes_follow]
      have hf : followSegment (some root) s = s.idxs.foldl followIndex (some root) := by
        simp [followSegment, hk]
      rw [hf]
      cases hw : s.idxs.foldl followIndex (some root) with
      | none => simp [followPath_none]
      | some cur => simpa using ih cur hrest
    · simp only [hk, ne_eq, not_false_eq_true, if_true]
      cases root with
      | obj m =>
        simp only []
        have hf : followSegment (some (.obj m)) s = s.idxs.foldl followIndex (mapGet m s.key) := by
          simp [followSegment, hk]
        rw [hf]
        cases hg : mapGet m s.key with
        | none => simp [followIndex_none, followPath_none]
        | some v =>
          simp only []
          rw [walkIndexes_follow]
          cases hw : s.idxs.foldl followIndex (some v) with
          | none => simp [followPath_none]
          | some cur => simpa using ih cur hrest
      | nil => simp [followSegment, hk, followIndex_none, followPath_none]
      | str _ => simp [followSegment, hk, followIndex_none, followPath_none]
      | float _ => simp [followSegment, hk, followIndex_none, followPath_none]
      | int _ => simp [followSegment, hk, followIndex_none, followPath_none]
      | bool _ => simp [followSegment, hk, followIndex_none, followPath_none]
      | arr _ => simp [followSegment, hk, followIndex_none, followPath_none]
      | msgs _ => simp [followSegment, hk, followIndex_none, followPath_none]

theorem pathText_ne_empty (segs : List Segment) (hne : segs ≠ [])
    (h : ∀ s ∈ segs, s.wellFormed) : pathText segs ≠ "" := by
  cases segs with
  | nil => exact absurd rfl hne
  | cons s rest =>
    have hs := h s (by simp)
    have htext : s.text ≠ [] := by
      obtain ⟨-, -, hk, -⟩ := hs
      obtain ⟨key, idxs⟩ := s
      simp only at hk
      rcases hk with hk | hk
      · intro e
        simp only [Segment.text, List.append_eq_nil] at e
        apply hk
        have : key = ⟨key.data⟩ := rfl
        rw [this, e.1]
      · cases idxs with
        | nil => exact absurd rfl hk
        | cons i r => simp [Segment.text, indexText]
    intro e
    have e' := congrArg String.data e
    cases rest with
    | nil =>
      simp only [pathText, List.map_cons, List.map_nil, joinDots] at e'
      exact htext e'
    | cons s2 r2 =>
      simp [pathText, joinDots] at e'

theorem extractByPath_pathText (root : Value) (segs : List Segment) (hne : segs ≠ [])
    (h : ∀ s ∈ segs, s.wellFormed) :
    extractByPath root (pathText segs) =
      match followPath root segs with
      | none => none
      | some cur => renderTerminal cur := by
  unfold extractByPath
  simp only [pathText_ne_empty segs hne h, if_false]
  have hsplit : splitOnChar '.' (pathText segs).data = segs.map Segment.text := by
    apply split_joinDots
    · simpa using hne
    · intro t ht
      simp only [List.mem_map] at ht
      obtain ⟨s, hs, rfl⟩ := ht
      obtain ⟨hk, -, -, -⟩ := h s hs
      simp only [Segment.text, List.mem_append, not_or]
      exact ⟨hk, indexText_no_dot _⟩
  rw [hsplit, walkParts_follow root segs h]

/-- C7: path extraction follows the path.  For every string `s`, the path
`choices[0].message.content` extracts `s` from
`{"choices":[{"message":{"content":s}}]}`; and for every root and every path
made of well-formed segments, when applying the segments one after another
(the key first, then the indices in order) reaches a string, that string is
returned unchanged, and when it reaches a boolean, `true` or `false` is
returned. -/
theorem extractByPath_follows_path (s : String) (root : Value) (segs : List Segment)
    (hne : segs ≠ []) (hwf : ∀ g ∈ segs, g.wellFormed) :
    extractByPath (choicesResponse s) "choices[0].message.content" = some s ∧
    (∀ t, followPath root segs = some (.str t) →
      extractByPath root (pathText segs) = some t) ∧
    (∀ b, followPath root segs = some (.bool b) →
      extractByPath root (pathText segs) = some (if b then "true" else "false")) := by
  refine ⟨by rfl, ?_, ?_⟩
  · intro t ht
    rw [extractByPath_pathText root segs hne hwf, ht]
    rfl
  · intro b hb
    rw [extractByPath_pathText root segs hne hwf, hb]
    rfl

theorem segment_wf_choices :
    ∀ g ∈ [Segment.mk "choices" [0], Segment.mk "message" [], Segment.mk "content" []],
      g.wellFormed := by
  intro g hg
  simp only [List.mem_cons, List.mem_singleton, List.not_mem_nil, or_false] at hg
  rcases hg with rfl | rfl | rfl <;>
    refine ⟨by decide, by decide, by decide, by simp⟩

/-- C7, witness: the segments `choices[0]`, `message`, `content` spell the path of
the test, lead to the content `hello`, and the extraction returns it. -/
theorem extractByPath_follows_path_witness :
    pathText [Segment.mk "choices" [0], Segment.mk "message" [], Segment.mk "content" []]
      = "choices[0].message.content" ∧
    followPath (choicesResponse "hello")
      [Segment.mk "choices" [0], Segment.mk "message" [], Segment.mk "content" []]
      = some (.str "hello") ∧
    extractByPath (choicesResponse "hello")
      (pathText [Segment.mk "choices" [0], Segment.mk "message" [], Segment.mk "content" []])
      = some "hello" :=
  ⟨by rfl, by rfl,
   (extractByPath_follows_path "hello" (choicesResponse "hello")
      [Segment.mk "choices" [0], Segment.mk "message" [], Segment.mk "content" []]
      (by simp) segment_wf_choices).2.1 "hello" (by rfl)⟩

set_option maxRecDepth 100000 in
/-- C8, counterexample: the float64 nearest to `10^30` is a JSON number
with an integral value, and the path `num` ending at it in `{"num":1e30}` is
rendered `1e+30`, which is not a plain base-10 integer. -/
theorem extractByPath_integral_counterexample :
    tenPow30.isDouble = true ∧
    tenPow30.intValue = some 1000000000000000019884624838656 ∧
    extractByPath (.obj [("num", .float tenPow30)]) "num" = some "1e+30" ∧
    isPlainInt "1e+30" = false := by
  refine ⟨by decide, by decide, by rfl, by decide⟩

/-- C8, amended: for every JSON number whose value is an integer `n` of the
int64 range `-2^63 ≤ n < 2^63`, a path that ends at that number is rendered
by `%d`: a plain base-10 integer (optional minus sign, digits only, no decimal
point, fraction or exponent) that reads back as `n`. -/
theorem extractByPath_integral_int64 (root : Value) (path : String) (v : F64) (n : Int)
    (hpath : path ≠ "")
    (hwalk : walkParts root ((splitOnChar '.' path.data).map String.mk) = some (.float v))
    (hd : v.isDouble = true) (hi : v.intValue = some n)
    (hlo : -2 ^ 63 ≤ n) (hhi : n < 2 ^ 63) :
    extractByPath root path = some (fmtD n) ∧ isPlainInt (fmtD n) = true ∧
      Atoi (fmtD n).data = some n := by
  obtain ⟨h1, h2⟩ := F64_eq_roundtrip v n hd hi hlo hhi
  obtain ⟨h3, h4⟩ := fmtD_plain n hlo hhi
  refine ⟨?_, h3, h4⟩
  unfold extractByPath
  simp only [hpath, if_false, hwalk, renderTerminal, h1, h2, if_true]

/-- C8, witness of the amended claim: `{"num":12}` with the path `num` gives
`12`. -/
theorem extractByPath_integral_int64_witness :
    extractByPath (.obj [("num", .float (.finite false 12 0))]) "num" = some (fmtD 12) ∧
    isPlainInt (fmtD 12) = true ∧ Atoi (fmtD 12).data = some 12 ∧ fmtD 12 = "12" :=
  have h := extractByPath_integral_int64 (.obj [("num", .float (.finite false 12 0))]) "num"
    (.finite false 12 0) 12 (by decide) (by rfl) (by decide) (by decide) (by decide) (by decide)
  ⟨h.1, h.2.1, h.2.2, by decide⟩

theorem pastes_append (a b : List Effect) : pastes (a ++ b) = pastes a ++ pastes b := by
  induction a with
  | nil => rfl
  | cons e rest ih => cases e <;> simp [pastes, ih]

theorem afterAttempts_trace (lastErr : Option GoError) (tr : List Effect) :
    (afterAttempts lastErr tr).2 = tr := by
  cases lastErr <;> rfl

theorem sendAttempts_pastes (env : NetEnv) (endpoint token data ua : String) (maxRetry : Int)
    (remaining : Nat) (attempt delay : Int) (lastErr : Option GoError) (tr : List Effect) :
    pastes (sendAttempts env endpoint token data ua maxRetry remaining attempt delay lastErr tr).2
      = pastes tr := by
  induction remaining generalizing attempt delay lastErr tr with
  | zero => simp [sendAttempts, afterAttempts_trace]
  | succ r ih =>
    unfold sendAttempts
    cases hnr : env.newRequest endpoint with
    | some e => simp
    | none =>
      simp only []
      split
      · simp [pastes_append, pastes]
      · split
        · simp [afterAttempts_trace, pastes_append, pastes]
        · split
          · simp [pastes_append, pastes]
          · rw [ih]
            simp [pastes_append, pastes]

theorem SendWithRetry_pastes (env : NetEnv) (endpoint token : String)
    (payload : List (String × Value)) (opts : RetryOptions) :
    pastes (SendWithRetry env endpoint token payload opts).2 = [] := by
  unfold SendWithRetry
  split
  · rfl
  · simp only []
    split
    · rfl
    · rw [sendAttempts_pastes]
      rfl

theorem prepareJob_effects (cfg : Config) (ge : List (String × Value)) (env : JobEnv)
    (id : Int) :
    (prepareJob cfg ge env id).1 = [] ∨ (prepareJob cfg ge env id).1 = [Effect.copySelected] := by
  unfold prepareJob
  by_cases h1 : id < 1 ∨ id > cfg.HotKeyConfig.length
  · simp [h1]
  · simp only [h1, if_false]
    cases cfg.HotKeyConfig.get? (id - 1).toNat with
    | none => simp
    | some entry =>
      simp only []
      by_cases h2 : TrimSpace entry.Prompt = ""
      · simp [h2]
      · simp only [h2, if_false]
        cases env.copy with
        | error e => simp
        | ok t =>
          simp only []
          by_cases h3 : TrimSpace t = "" <;> simp [h3]

theorem prepareJob_pastes (cfg : Config) (ge : List (String × Value)) (env : JobEnv) (id : Int) :
    pastes (prepareJob cfg ge env id).1 = [] := by
  rcases prepareJob_effects cfg ge env id with h | h <;> rw [h] <;> rfl

/-- C1, amended: when the dispatch of a job ends with the cancellation
result, the job never pastes the extracted text; it calls `PasteText` exactly
once, with the placeholder `[request failed]`, when failure notification is
enabled, and not at all when it is disabled. -/
theorem handleTask_cancelled_dispatch (cfg : Config) (ge : List (String × Value))
    (env : JobEnv) (id : Int)
    (h : dispatchResult cfg ge env id = some (.error .canceled)) :
    pastes (handleTask cfg ge env id) =
      if cfg.RequestFailedNotification then ["[request failed]"] else [] := by
  unfold dispatchResult at h
  unfold handleTask
  cases hp : (prepareJob cfg ge env id).2 with
  | none => simp [hp] at h
  | some d =>
    simp only [hp, Option.some.injEq] at h
    simp only [hp, pastes_append, prepareJob_pastes, SendWithRetry_pastes, List.nil_append, h,
      completeJob, notifyPlaceholder]
    cases cfg.RequestFailedNotification <;> rfl

/-- C1, counterexample: with failure notification enabled, a job whose dispatch
ends with the cancellation result pastes the placeholder `[request failed]`. -/
theorem handleTask_cancelled_counterexample :
    notifyConfig.RequestFailedNotification = true ∧
    dispatchResult notifyConfig [] cancelledEnv 1 = some (.error .canceled) ∧
    pastes (handleTask notifyConfig [] cancelledEnv 1) = ["[request failed]"] ∧
    pastes (handleTask notifyConfig [] cancelledEnv 1) ≠ [] := by
  refine ⟨rfl, by rfl, by rfl, by decide⟩

/-- C1, witness of the amended claim on the cancelled job of the counterexample. -/
theorem handleTask_cancelled_dispatch_witness :
    dispatchResult notifyConfig [] cancelledEnv 1 = some (.error .canceled) ∧
    pastes (handleTask notifyConfig [] cancelledEnv 1) =
      if notifyConfig.RequestFailedNotification then ["[request failed]"] else [] :=
  ⟨by rfl, handleTask_cancelled_dispatch notifyConfig [] cancelledEnv 1 (by rfl)⟩

theorem drain_eq_nil (q : List Int) : drain q = [] := by
  induction q with
  | nil => rfl
  | cons _ rest ih => simpa [drain] using ih

theorem startedIds_append (a b : List LogEntry) :
    startedIds (a ++ b) = startedIds a ++ startedIds b := by
  induction a with
  | nil => rfl
  | cons e rest ih => cases e <;> simp [startedIds, ih]

theorem finishedIds_append (a b : List LogEntry) :
    finishedIds (a ++ b) = finishedIds a ++ finishedIds b := by
  induction a with
  | nil => rfl
  | cons e rest ih => cases e <;> simp [finishedIds, ih]

theorem startedIds_effects (es : List Effect) : startedIds (es.map LogEntry.effect) = [] := by
  induction es with
  | nil => rfl
  | cons e rest ih => simpa [startedIds] using ih

theorem finishedIds_effects (es : List Effect) : finishedIds (es.map LogEntry.effect) = [] := by
  induction es with
  | nil => rfl
  | cons e rest ih => simpa [finishedIds] using ih

theorem enqueuedIds_cons (act : Action) (rest : List Action) :
    enqueuedIds (act :: rest) = enqueuedIds [act] ++ enqueuedIds rest := by
  cases act <;> simp [enqueuedIds]

theorem step_started (s : App) (act : Action) :
    ∃ l, startedIds (step s act).log = startedIds s.log ++ l ∧
      (l ++ (step s act).eventCh).Sublist (s.eventCh ++ enqueuedIds [act]) := by
  cases act with
  | enqueue id =>
    refine ⟨[], ?_, ?_⟩
    · simp only [step, EnqueueTask]
      split
      · simp
      · split <;> simp
    · simp only [step, EnqueueTask, enqueuedIds, List.nil_append]
      split
      · exact List.sublist_append_left _ _
      · split
        · exact List.Sublist.refl _
        · exact List.sublist_append_left _ _
  | stopCancel =>
    refine ⟨[], ?_, ?_⟩
    · simp only [step, stopCancel]
      split <;> simp
    · simp only [step, stopCancel, enqueuedIds]
      split <;> simp
  | stopDrain =>
    refine ⟨[], by simp [step, stopDrain], ?_⟩
    simp only [step, stopDrain, enqueuedIds, List.nil_append, List.append_nil]
    exact List.tail_sublist _
  | close =>
    refine ⟨[], ?_, ?_⟩
    · simp only [step, Close]
      split
      · simp
      · split <;> simp
    · simp only [step, Close, enqueuedIds]
      split
      · simp
      · split <;> simp
  | receive =>
    simp only [step, workerMove, enqueuedIds, List.append_nil]
    split
    · rename_i id rest hw hq
      refine ⟨[id], ?_, ?_⟩
      · simp [startedIds_append, startedIds]
      · simp [hq]
    · exact ⟨[], by simp, by simp⟩
  | register =>
    simp only [step, workerMove, enqueuedIds, List.append_nil]
    split
    · exact ⟨[], by simp, by simp⟩
    · exact ⟨[], by simp, by simp⟩
  | finish env =>
    simp only [step, workerMove, enqueuedIds, List.append_nil]
    split
    · refine ⟨[], ?_, by simp⟩
      simp [startedIds_append, startedIds_effects, startedIds]
    · exact ⟨[], by simp, by simp⟩
  | exit =>
    simp only [step, workerMove, enqueuedIds, List.append_nil]
    split
    · split
      · exact ⟨[], by simp, by simp⟩
      · exact ⟨[], by simp, by simp⟩
    · exact ⟨[], by simp, by simp⟩

theorem run_started (acts : List Action) (s : App) :
    ∃ l, startedIds (run s acts).log = startedIds s.log ++ l ∧
      (l ++ (run s acts).eventCh).Sublist (s.eventCh ++ enqueuedIds acts) := by
  induction acts generalizing s with
  | nil => exact ⟨[], by simp [run], by simp [run, enqueuedIds]⟩
  | cons act rest ih =>
    obtain ⟨l1, h1, h2⟩ := step_started s act
    obtain ⟨l2, h3, h4⟩ := ih (step s act)
    refine ⟨l1 ++ l2, ?_, ?_⟩
    · simp only [run, List.foldl_cons] at h3 ⊢
      rw [h3, h1, List.append_assoc]
    · simp only [run, List.foldl_cons] at h4 ⊢
      rw [enqueuedIds_cons, List.append_assoc]
      have h5 : (l1 ++ (l2 ++ (List.foldl step (step s act) rest).eventCh)).Sublist
          (l1 ++ ((step s act).eventCh ++ enqueuedIds rest)) :=
        List.Sublist.append (List.Sublist.refl l1) h4
      have h6 : (l1 ++ ((step s act).eventCh ++ enqueuedIds rest)).Sublist
          (s.eventCh ++ (enqueuedIds [act] ++ enqueuedIds rest)) := by
        rw [← List.append_assoc, ← List.append_assoc]
        exact List.Sublist.append h2 (List.Sublist.refl _)
      exact h5.trans h6

theorem serialState_snoc (log : List LogEntry) (e : LogEntry) :
    serialState (log ++ [e]) = (serialState log).bind (fun o => serialNext o e) := by
  simp [serialState, List.foldl_append]

theorem serialState_effects (log : List LogEntry) (es : List Effect) (id : Int)
    (h : serialState log = some (some id)) :
    serialState (log ++ es.map LogEntry.effect) = some (some id) := by
  induction es using List.reverseRecOn with
  | nil => simpa using h
  | append_singleton es e ih =>
    rw [List.map_append, ← List.append_assoc]
    simp only [List.map_cons, List.map_nil]
    rw [serialState_snoc, ih]
    rfl

theorem consistent_start (cfg : Config) (ge : List (String × Value)) :
    Consistent (App.start cfg ge) := by
  refine ⟨by simp [App.start], rfl, rfl⟩

theorem step_consistent (s : App) (act : Action) (hc : Consistent s)
    (hb : act.isBurst = true) : Consistent (step s act) := by
  obtain ⟨hw, hs, hf⟩ := hc
  cases act with
  | enqueue id =>
    simp only [step, EnqueueTask]
    split
    · exact ⟨hw, hs, hf⟩
    · split
      · exact ⟨hw, hs, hf⟩
      · exact ⟨hw, hs, hf⟩
  | stopCancel => simp [Action.isBurst] at hb
  | stopDrain => simp [Action.isBurst] at hb
  | close => simp [Action.isBurst] at hb
  | exit => simp [Action.isBurst] at hb
  | receive =>
    simp only [step, workerMove]
    split
    · rename_i id rest hwk hq
      rw [hwk] at hs hf
      simp only [Worker.openJob, Option.toList, List.append_nil] at hs hf
      refine ⟨by simp, ?_, ?_⟩
      · simp only [Worker.openJob]
        rw [serialState_snoc, hs]
        rfl
      · simp only [Worker.openJob, Option.toList, finishedIds_append, startedIds_append,
          finishedIds, startedIds, List.append_nil, hf]
    · exact ⟨hw, hs, hf⟩
  | register =>
    simp only [step, workerMove]
    split
    · rename_i id hwk
      rw [hwk] at hs hf
      exact ⟨by simp, hs, hf⟩
    · exact ⟨hw, hs, hf⟩
  | finish env =>
    simp only [step, workerMove]
    split
    · rename_i id reg hwk
      rw [hwk] at hs hf
      simp only [Worker.openJob, Option.toList] at hs hf
      refine ⟨by simp, ?_, ?_⟩
      · simp only [Worker.openJob]
        rw [serialState_snoc, serialState_effects _ _ id hs]
        simp [serialNext]
      · simp only [Worker.openJob, Option.toList, finishedIds_append, startedIds_append,
          finishedIds_effects, startedIds_effects, finishedIds, startedIds, List.append_nil]
        exact hf
    · exact ⟨hw, hs, hf⟩

theorem run_consistent (acts : List Action) (s : App) (hc : Consistent s)
    (hb : ∀ act ∈ acts, act.isBurst = true) : Consistent (run s acts) := by
  induction acts generalizing s with
  | nil => exact hc
  | cons act rest ih =>
    simp only [run, List.foldl_cons]
    exact ih (step s act) (step_consistent s act hc (hb act (by simp)))
      (fun a ha => hb a (List.mem_cons_of_mem _ ha))

theorem step_burst_queue (s : App) (act : Action) (hb : act.isBurst = true)
    (hcl : s.closed = false) (hlen : s.eventCh.length + (enqueuedIds [act]).length ≤ 64) :
    startedIds (step s act).log ++ (step s act).eventCh =
      startedIds s.log ++ s.eventCh ++ enqueuedIds [act] ∧
    (step s act).closed = false ∧
    (step s act).eventCh.length ≤ s.eventCh.length + (enqueuedIds [act]).length := by
  cases act with
  | enqueue id =>
    simp only [enqueuedIds, List.length_singleton] at hlen
    have h1 : s.eventCh.length < 64 := by omega
    simp [step, EnqueueTask, hcl, h1, enqueuedIds]
  | stopCancel => simp [Action.isBurst] at hb
  | stopDrain => simp [Action.isBurst] at hb
  | close => simp [Action.isBurst] at hb
  | exit => simp [Action.isBurst] at hb
  | receive =>
    simp only [step, workerMove, enqueuedIds, List.append_nil]
    split
    · rename_i id rest hwk hq
      simp [startedIds_append, startedIds, hq, hcl]
    · simp [hcl]
  | register =>
    simp only [step, workerMove, enqueuedIds, List.append_nil]
    split <;> simp [hcl]
  | finish env =>
    simp only [step, workerMove, enqueuedIds, List.append_nil]
    split
    · simp [startedIds_append, startedIds_effects, startedIds, hcl]
    · simp [hcl]

theorem run_burst_queue (acts : List Action) (s : App)
    (hb : ∀ act ∈ acts, act.isBurst = true) (hcl : s.closed = false)
    (hlen : s.eventCh.length + (enqueuedIds acts).length ≤ 64) :
    startedIds (run s acts).log ++ (run s acts).eventCh =
      startedIds s.log ++ s.eventCh ++ enqueuedIds acts ∧
    (run s acts).closed = false := by
  induction acts generalizing s with
  | nil => simp [run, enqueuedIds, hcl]
  | cons act rest ih =>
    rw [enqueuedIds_cons, List.length_append] at hlen
    obtain ⟨h1, h2, h3⟩ := step_burst_queue s act (hb act (by simp)) hcl (by omega)
    obtain ⟨h4, h5⟩ := ih (step s act) (fun a ha => hb a (List.mem_cons_of_mem _ ha)) h2
      (by omega)
    simp only [run, List.foldl_cons] at h4 h5 ⊢
    refine ⟨?_, h5⟩
    rw [h4, h1, enqueuedIds_cons act rest, List.append_assoc]

theorem run_append (s : App) (a b : List Action) : run s (a ++ b) = run (run s a) b := by
  simp [run, List.foldl_append]

theorem settle_idle (env : JobEnv) (q : List Int) (s : App) (hw : s.worker = .idle)
    (hq : s.eventCh = q) (hc : Consistent s) :
    (run s (q.flatMap (fun _ => [Action.receive, Action.register, Action.finish env]))).eventCh = [] ∧
    (run s (q.flatMap (fun _ => [Action.receive, Action.register, Action.finish env]))).worker = .idle ∧
    startedIds (run s (q.flatMap (fun _ => [Action.receive, Action.register, Action.finish env]))).log
      = startedIds s.log ++ q ∧
    Consistent (run s (q.flatMap (fun _ => [Action.receive, Action.register, Action.finish env]))) ∧
    (run s (q.flatMap (fun _ => [Action.receive, Action.register, Action.finish env]))).closed
      = s.closed := by
  induction q generalizing s with
  | nil => simp [run, hq, hw, hc]
  | cons id rest ih =>
    have hb : ∀ act ∈ [Action.receive, Action.register, Action.finish env],
        act.isBurst = true := by
      intro act hact
      simp only [List.mem_cons, List.mem_singleton, List.not_mem_nil, or_false] at hact
      rcases hact with rfl | rfl | rfl <;> rfl
    have hc3 := run_consistent [Action.receive, Action.register, Action.finish env] s hc hb
    have hs3w : (run s [Action.receive, Action.register, Action.finish env]).worker = .idle := by
      simp [run, step, workerMove, hw, hq]
    have hs3q : (run s [Action.receive, Action.register, Action.finish env]).eventCh = rest := by
      simp [run, step, workerMove, hw, hq]
    have hs3c : (run s [Action.receive, Action.register, Action.finish env]).closed = s.closed := by
      simp [run, step, workerMove, hw, hq]
    have hs3l : startedIds (run s [Action.receive, Action.register, Action.finish env]).log
        = startedIds s.log ++ [id] := by
      simp [run, step, workerMove, hw, hq, startedIds_append, startedIds_effects, startedIds]
    obtain ⟨h1, h2, h3, h4, h5⟩ :=
      ih (run s [Action.receive, Action.register, Action.finish env]) hs3w hs3q hc3
    simp only [List.flatMap_cons, run_append]
    refine ⟨h1, h2, ?_, h4, ?_⟩
    · rw [h3, hs3l]
      simp
    · rw [h5, hs3c]

theorem settle_spec (env : JobEnv) (s : App) (hc : Consistent s) :
    (run s (settle env s)).eventCh = [] ∧ (run s (settle env s)).worker = .idle ∧
    startedIds (run s (settle env s)).log = startedIds s.log ++ s.eventCh ∧
    finishedIds (run s (settle env s)).log = startedIds s.log ++ s.eventCh ∧
    serialState (run s (settle env s)).log = some none ∧
    (run s (settle env s)).closed = s.closed := by
  have key : ∀ t : App, Consistent t → t.worker = .idle → t.eventCh = s.eventCh →
      startedIds t.log = startedIds s.log → t.closed = s.closed →
      (run t (s.eventCh.flatMap (fun _ => [Action.receive, Action.register, Action.finish env]))).eventCh = [] ∧
      (run t (s.eventCh.flatMap (fun _ => [Action.receive, Action.register, Action.finish env]))).worker = .idle ∧
      startedIds (run t (s.eventCh.flatMap (fun _ => [Action.receive, Action.register, Action.finish env]))).log
        = startedIds s.log ++ s.eventCh ∧
      finishedIds (run t (s.eventCh.flatMap (fun _ => [Action.receive, Action.register, Action.finish env]))).log
        = startedIds s.log ++ s.eventCh ∧
      serialState (run t (s.eventCh.flatMap (fun _ => [Action.receive, Action.register, Action.finish env]))).log
        = some none ∧
      (run t (s.eventCh.flatMap (fun _ => [Action.receive, Action.register, Action.finish env]))).closed
        = s.closed := by
    intro t htc htw htq htl htcl
    obtain ⟨h1, h2, h3, h4, h5⟩ := settle_idle env s.eventCh t htw htq htc
    obtain ⟨-, h6, h7⟩ := h4
    rw [h2] at h6 h7
    simp only [Worker.openJob, Option.toList, List.append_nil] at h6 h7
    refine ⟨h1, h2, by rw [h3, htl], by rw [h7, h3, htl], h6, by rw [h5, htcl]⟩
  unfold settle
  cases hw : s.worker with
  | idle =>
    simp only [List.nil_append]
    exact key s hc hw rfl rfl rfl
  | exited => exact absurd hw hc.1
  | running id reg =>
    simp only [run_append]
    have hb : ∀ act ∈ [Action.finish env], act.isBurst = true := by
      intro act hact
      simp only [List.mem_singleton] at hact
      rw [hact]; rfl
    have hc1 := run_consistent [Action.finish env] s hc hb
    apply key (run s [Action.finish env]) hc1
    · simp [run, step, workerMove, hw]
    · simp [run, step, workerMove, hw]
    · simp [run, step, workerMove, hw, startedIds_append, startedIds_effects, startedIds]
    · simp [run, step, workerMove, hw]

/-- C3: for any burst of `EnqueueTask` calls interleaved in any way with the
moves of the single worker, the worker's history is a sequence of jobs that do
not overlap (each job's effects lie between its start and its end, and the
next job starts after that end); and when the burst has at most 64 calls,
every id is accepted in arrival order, none is lost or duplicated, and letting
the worker go on runs every enqueued id exactly once, to its end. -/
theorem burst_runs_serially (cfg : Config) (ge : List (String × Value))
    (acts : List Action) (env : JobEnv) (hb : ∀ act ∈ acts, act.isBurst = true) :
    (serialState (run (App.start cfg ge) acts).log).isSome = true ∧
    ((enqueuedIds acts).length ≤ 64 →
      startedIds (run (App.start cfg ge) acts).log ++ (run (App.start cfg ge) acts).eventCh
        = enqueuedIds acts ∧
      (run (run (App.start cfg ge) acts) (settle env (run (App.start cfg ge) acts))).eventCh
        = [] ∧
      (run (run (App.start cfg ge) acts) (settle env (run (App.start cfg ge) acts))).worker
        = .idle ∧
      startedIds
        (run (run (App.start cfg ge) acts) (settle env (run (App.start cfg ge) acts))).log
        = enqueuedIds acts ∧
      finishedIds
        (run (run (App.start cfg ge) acts) (settle env (run (App.start cfg ge) acts))).log
        = enqueuedIds acts ∧
      serialState
        (run (run (App.start cfg ge) acts) (settle env (run (App.start cfg ge) acts))).log
        = some none) := by
  have hc := run_consistent acts (App.start cfg ge) (consistent_start cfg ge) hb
  refine ⟨by rw [hc.2.1]; rfl, ?_⟩
  intro hN
  obtain ⟨hq, -⟩ := run_burst_queue acts (App.start cfg ge) hb rfl (by simpa [App.start] using hN)
  have hq' : startedIds (run (App.start cfg ge) acts).log ++ (run (App.start cfg ge) acts).eventCh
      = enqueuedIds acts := by
    rw [hq]; simp [App.start, startedIds]
  obtain ⟨h1, h2, h3, h4, h5, -⟩ := settle_spec env (run (App.start cfg ge) acts) hc
  exact ⟨hq', h1, h2, by rw [h3, hq'], by rw [h4, hq'], h5⟩

theorem smallBurst_isBurst : ∀ act ∈ smallBurst, act.isBurst = true := by
  intro act h
  simp only [smallBurst, List.mem_cons, List.mem_singleton, List.not_mem_nil, or_false] at h
  rcases h with rfl | rfl | rfl | rfl <;> rfl

/-- C3, witness: three calls with one worker move in between; two ids wait while
the first job runs, and all three jobs are finished in arrival order. -/
theorem burst_runs_serially_witness :
    (enqueuedIds smallBurst).length ≤ 64 ∧
    (run (App.start notifyConfig []) smallBurst).worker = .running 1 false ∧
    (run (App.start notifyConfig []) smallBurst).eventCh = [1, 2] ∧
    finishedIds
      (run (run (App.start notifyConfig []) smallBurst)
        (settle okEnv (run (App.start notifyConfig []) smallBurst))).log = [1, 1, 2] :=
  ⟨by decide, by rfl, by rfl,
   ((burst_runs_serially notifyConfig [] smallBurst okEnv smallBurst_isBurst).2
      (by decide)).2.2.2.2.1⟩

/-- C5: field stripping is idempotent on every payload map:
`StripEmptyFields (StripEmptyFields m) = StripEmptyFields m`. -/
theorem StripEmptyFields_idempotent (m : List (String × Value)) :
    StripEmptyFields (StripEmptyFields m) = StripEmptyFields m :=
  strip_idem m

mutual
theorem cleanValue_noEmpty : ∀ v : Value, v.isJSON = true →
    (cleanValue v).isNil = false → (cleanValue v).noEmpty = true
  | .nil => by simp [cleanValue, Value.isNil]
  | .str t => by
    by_cases h : TrimSpace t = "" <;> simp [cleanValue, h, Value.isNil, Value.noEmpty]
  | .float f => by simp [cleanValue, Value.noEmpty]
  | .int n => by simp [Value.isJSON]
  | .bool b => by simp [cleanValue, Value.noEmpty]
  | .msgs ms => by simp [Value.isJSON]
  | .obj t => by
    intro hj _
    have ih := strip_noEmpty t (by simpa [Value.isJSON] using hj)
    by_cases h : (StripEmptyFields t).length = 0
    · simp_all [cleanValue, Value.isNil]
    · have hne : StripEmptyFields t ≠ [] := fun e => h (by simp [e])
      simp [cleanValue, h, Value.noEmpty, ih, hne]
  | .arr t => by
    intro hj _
    have ih := cleanItems_noEmpty t (by simpa [Value.isJSON] using hj)
    by_cases h : (cleanItems t).length = 0
    · simp_all [cleanValue, Value.isNil]
    · have hne : cleanItems t ≠ [] := fun e => h (by simp [e])
      simp [cleanValue, h, Value.noEmpty, ih, hne]
theorem strip_noEmpty : ∀ m : List (String × Value), fieldsJSON m = true →
    fieldsNoEmpty (StripEmptyFields m) = true
  | [] => by simp [StripEmptyFields, fieldsNoEmpty]
  | (k, v) :: rest => by
    intro hj
    simp only [fieldsJSON, Bool.and_eq_true] at hj
    have ih := strip_noEmpty rest hj.2
    have iv := cleanValue_noEmpty v hj.1
    by_cases h : (cleanValue v).isNil = true
    · simp [StripEmptyFields, h, ih]
    · simp only [Bool.not_eq_true] at h
      simp [StripEmptyFields, h, fieldsNoEmpty, ih, iv h]
theorem cleanItems_noEmpty : ∀ xs : List Value, itemsJSON xs = true →
    itemsNoEmpty (cleanItems xs) = true
  | [] => by simp [cleanItems, itemsNoEmpty]
  | v :: rest => by
    intro hj
    simp only [itemsJSON, Bool.and_eq_true] at hj
    have ih := cleanItems_noEmpty rest hj.2
    have iv := cleanValue_noEmpty v hj.1
    by_cases h : (cleanValue v).isNil = true
    · simp [cleanItems, h, ih]
    · simp only [Bool.not_eq_true] at h
      simp [cleanItems, h, itemsNoEmpty, ih, iv h]
end

theorem mapGet_strip_of_kept (m : List (String × Value)) (k : String) (v : Value)
    (hc : cleanValue v = v) (hn : v.isNil = false) (h : mapGet m k = some v) :
    mapGet (StripEmptyFields m) k = some v := by
  induction m with
  | nil => simp [mapGet] at h
  | cons hd tl ih =>
    obtain ⟨a, b⟩ := hd
    by_cases hk : a = k
    · subst hk
      simp only [mapGet, if_true, Option.some.injEq] at h
      subst h
      simp [StripEmptyFields, hc, hn, mapGet]
    · simp only [mapGet, hk, if_false] at h
      by_cases hb : (cleanValue b).isNil = true
      · simp [StripEmptyFields, hb, ih h]
      · simp [StripEmptyFields, hb, mapGet, hk, ih h]

/-- C6: the stripped payload of a map of JSON values contains, at no nesting
depth, a null, a white-space-only string, an empty array or an empty mapping;
and every field whose value is a number (zero included) or a boolean (false
included) is still present under the same key with the same value. -/
theorem StripEmptyFields_no_empty_keeps_scalars (m : List (String × Value))
    (hj : fieldsJSON m = true) :
    fieldsNoEmpty (StripEmptyFields m) = true ∧
    (∀ k f, mapGet m k = some (.float f) →
      mapGet (StripEmptyFields m) k = some (.float f)) ∧
    (∀ k b, mapGet m k = some (.bool b) →
      mapGet (StripEmptyFields m) k = some (.bool b)) :=
  ⟨strip_noEmpty m hj,
   fun k f h => mapGet_strip_of_kept m k (.float f) (by simp [cleanValue]) rfl h,
   fun k b h => mapGet_strip_of_kept m k (.bool b) (by simp [cleanValue]) rfl h⟩

/-- C6, witness: a payload with empty values at several depths keeps its zero and
its `false` and loses every empty value. -/
theorem StripEmptyFields_no_empty_keeps_scalars_witness :
    fieldsJSON mixedPayload = true ∧
    StripEmptyFields mixedPayload =
      [("zero", .float (.finite false 0 0)), ("off", .bool false),
       ("nested", .obj [("keep", .str "x")]), ("list", .arr [.str "a"])] ∧
    fieldsNoEmpty (StripEmptyFields mixedPayload) = true ∧
    mapGet (StripEmptyFields mixedPayload) "zero" = some (.float (.finite false 0 0)) ∧
    mapGet (StripEmptyFields mixedPayload) "off" = some (.bool false) :=
  have h := StripEmptyFields_no_empty_keeps_scalars mixedPayload (by rfl)
  ⟨by rfl, by rfl, h.1, h.2.1 "zero" _ (by rfl), h.2.2 "off" _ (by rfl)⟩

/-- C4, witness: the per-task model overrides the global one, the global
`verbosity` is added, the per-task null deletes `max_tokens`, and
`temperature` comes from the template. -/
theorem BuildPayload_merge_precedence_witness :
    keysNodup globalExtras ∧ keysNodup taskExtras ∧
    mapGet (BuildPayload { sampleInput with Extra := MergeExtra globalExtras taskExtras }) "model"
      = some (.str "task-model") ∧
    mapGet (BuildPayload { sampleInput with Extra := MergeExtra globalExtras taskExtras }) "verbosity"
      = some (.str "low") ∧
    mapGet (BuildPayload { sampleInput with Extra := MergeExtra globalExtras taskExtras }) "max_tokens"
      = none ∧
    mapGet (BuildPayload { sampleInput with Extra := MergeExtra globalExtras taskExtras }) "temperature"
      = some (.float (.finite false 0 0)) := by
  have h := fun k => BuildPayload_merge_precedence sampleInput globalExtras taskExtras k
    (by decide) (by decide)
  refine ⟨by decide, by decide, ?_, ?_, ?_, ?_⟩
  · rw [h "model"]; rfl
  · rw [h "verbosity"]; rfl
  · rw [h "max_tokens"]; rfl
  · rw [h "temperature"]; rfl

theorem mapCopyInto_nil (dst : List (String × Value)) : mapCopyInto dst [] = dst := rfl

theorem keys_strip_sublist (m : List (String × Value)) :
    ((StripEmptyFields m).map Prod.fst).Sublist (m.map Prod.fst) := by
  induction m with
  | nil => simp [StripEmptyFields]
  | cons hd tl ih =>
    obtain ⟨a, b⟩ := hd
    by_cases hc : (cleanValue b).isNil = true
    · simp only [StripEmptyFields, hc, if_true, List.map_cons]
      exact List.Sublist.cons _ ih
    · simp only [StripEmptyFields, hc, List.map_cons]
      exact List.Sublist.cons₂ _ ih

theorem keysNodup_strip (m : List (String × Value)) (h : keysNodup m) :
    keysNodup (StripEmptyFields m) := by
  unfold keysNodup at *
  exact List.Nodup.sublist (keys_strip_sublist m) h

theorem TrimSpace_empty : TrimSpace "" = "" := rfl

theorem mapGet_BuildPayload_none (i : BuildInput) (k : String) (hn : keysNodup i.Extra)
    (h : mapGet i.Extra k = none) :
    mapGet (BuildPayload i) k = strippedField (templateDefault i k) := by
  rw [BuildPayload_eq, mapGet_strip _ _ (keysNodup_mapCopyInto _ _ (keysNodup_templatePayload i)),
    mapGet_mapCopyInto _ _ _ hn, mapGet_templatePayload, h]

theorem mapGet_BuildPayload_some (i : BuildInput) (k : String) (v : Value)
    (hn : keysNodup i.Extra) (h : mapGet i.Extra k = some v) :
    mapGet (BuildPayload i) k = strippedField (some v) := by
  rw [BuildPayload_eq, mapGet_strip _ _ (keysNodup_mapCopyInto _ _ (keysNodup_templatePayload i)),
    mapGet_mapCopyInto _ _ _ hn, h]

/-- C16, counterexample: an input whose extra fields set `temperature` to
null; the payload of `BuildPayload` has no `temperature` field, the null of
the extra map replaces the template value and `StripEmptyFields` removes
it. -/
theorem BuildPayload_temperature_counterexample :
    mapGet nullTemperatureInput.Extra "temperature" = some .nil ∧
    mapGet (BuildPayload nullTemperatureInput) "temperature" = none := by
  refine ⟨by rfl, by rfl⟩

/-- C16, amended: for every `BuildInput` (any `Temperature`, zero included)
whose extra map does not name `temperature`, the payload of `BuildPayload`
holds the field `temperature` with the value `Temperature`; when the extra
map names it, the payload holds the cleaned extra value, and no `temperature`
field at all when that value is empty (null, a blank string, or a container
that cleans to nothing). -/
theorem BuildPayload_temperature (i : BuildInput) (hn : keysNodup i.Extra) :
    (mapGet i.Extra "temperature" = none →
      mapGet (BuildPayload i) "temperature" = some (.float i.Temperature)) ∧
    (∀ v, mapGet i.Extra "temperature" = some v →
      mapGet (BuildPayload i) "temperature" =
        if (cleanValue v).isNil then none else some (cleanValue v)) := by
  constructor
  · intro h
    rw [mapGet_BuildPayload_none i _ hn h]
    simp [templateDefault, strippedField, cleanValue, Value.isNil]
  · intro v h
    rw [mapGet_BuildPayload_some i _ v hn h]
    rfl

/-- C16, witness: an input without `temperature` among its extras, and the
input of the counterexample. -/
theorem BuildPayload_temperature_witness :
    keysNodup sampleInput.Extra ∧
    mapGet (BuildPayload sampleInput) "temperature" = some (.float (.finite false 0 0)) ∧
    keysNodup nullTemperatureInput.Extra ∧
    mapGet (BuildPayload nullTemperatureInput) "temperature" =
      if (cleanValue Value.nil).isNil then none else some (cleanValue Value.nil) :=
  ⟨by decide, (BuildPayload_temperature sampleInput (by decide)).1 (by rfl),
   by decide, (BuildPayload_temperature nullTemperatureInput (by decide)).2 .nil (by rfl)⟩

/-- C17, counterexample: with no extra fields and the model name ` `, which
is not empty, the payload has no `model` field: `StripEmptyFields` removes a
string that is blank after trimming. -/
theorem BuildPayload_bare_counterexample :
    blankModelInput.Extra = [] ∧ blankModelInput.Model ≠ "" ∧
    mapGet (BuildPayload blankModelInput) "model" = none := by
  refine ⟨rfl, by decide, by rfl⟩

/-- C17, amended: with no extra fields, `BuildPayload` returns exactly these
fields, each once: `temperature` equal to `Temperature`; `messages` equal to
the two entries developer/`Prompt` then user/`UserText`, kept whatever the
contents; `model` equal to `Model` if and only if `Model` is not blank after
trimming; `max_tokens` equal to `MaxTokens` if and only if `MaxTokens > 0`;
and no other field. -/
theorem BuildPayload_bare (i : BuildInput) (k : String) (he : i.Extra = []) :
    mapGet (BuildPayload i) k = bareField i k ∧ keysNodup (BuildPayload i) := by
  constructor
  · rw [mapGet_BuildPayload_none i k (by rw [he]; simp [keysNodup]) (by rw [he]; rfl)]
    unfold templateDefault bareField
    by_cases h1 : k = "model"
    · subst h1
      by_cases hm : i.Model = ""
      · simp [hm, TrimSpace_empty, strippedField]
      · by_cases ht : TrimSpace i.Model = ""
        · simp [hm, ht, strippedField, cleanValue, Value.isNil]
        · simp [hm, ht, strippedField, cleanValue, Value.isNil]
    · by_cases h2 : k = "messages"
      · subst h2
        simp [strippedField, cleanValue, Value.isNil, messagesOf]
      · by_cases h3 : k = "max_tokens"
        · subst h3
          by_cases ht : 0 < i.MaxTokens <;>
            simp [ht, strippedField, cleanValue, Value.isNil]
        · by_cases h4 : k = "temperature"
          · subst h4
            simp [strippedField, cleanValue, Value.isNil]
          · simp [h1, h2, h3, h4, strippedField]
  · rw [BuildPayload_eq, he, mapCopyInto_nil]
    exact keysNodup_strip _ (keysNodup_templatePayload i)

/-- C17, witness: the input of the counterexample, with an empty prompt. -/
theorem BuildPayload_bare_witness :
    blankModelInput.Extra = [] ∧
    mapGet (BuildPayload blankModelInput) "messages"
      = some (messagesOf "" " ") ∧
    mapGet (BuildPayload blankModelInput) "model" = none ∧
    mapGet (BuildPayload blankModelInput) "other" = none :=
  ⟨rfl, (BuildPayload_bare blankModelInput "messages" rfl).1,
   (BuildPayload_bare blankModelInput "model" rfl).1,
   (BuildPayload_bare blankModelInput "other" rfl).1⟩

theorem mapGet_strip_merge (g p : List (String × Value)) (k : String) (v : Value)
    (hg : keysNodup g) (hp : keysNodup p) (h : mapGet p k = some v) :
    mapGet (StripEmptyFields (MergeExtra g p)) k = strippedField (some v) := by
  rw [mapGet_strip _ _ (keysNodup_MergeExtra g p), mapGet_MergeExtra _ _ _ hg hp, h]

/-- C18: for every global extras map and per-task extras map, a field that
the per-task map sets to null or to a blank string is absent from
`StripEmptyFields (MergeExtra global perTask)`, whatever the global map gives
it, and a per-task field with a boolean or numeric value is present with that
value. -/
theorem MergeExtra_empty_value_deletes (g p : List (String × Value)) (k : String)
    (hg : keysNodup g) (hp : keysNodup p) :
    (mapGet p k = some .nil → mapGet (StripEmptyFields (MergeExtra g p)) k = none) ∧
    (∀ s, mapGet p k = some (.str s) → TrimSpace s = "" →
      mapGet (StripEmptyFields (MergeExtra g p)) k = none) ∧
    (∀ b, mapGet p k = some (.bool b) →
      mapGet (StripEmptyFields (MergeExtra g p)) k = some (.bool b)) ∧
    (∀ f, mapGet p k = some (.float f) →
      mapGet (StripEmptyFields (MergeExtra g p)) k = some (.float f)) ∧
    (∀ n, mapGet p k = some (.int n) →
      mapGet (StripEmptyFields (MergeExtra g p)) k = some (.int n)) := by
  refine ⟨?_, ?_, ?_, ?_, ?_⟩
  · intro h
    rw [mapGet_strip_merge g p k _ hg hp h]
    rfl
  · intro s h hs
    rw [mapGet_strip_merge g p k _ hg hp h]
    simp [strippedField, cleanValue, hs, Value.isNil]
  · intro b h
    rw [mapGet_strip_merge g p k _ hg hp h]
    rfl
  · intro f h
    rw [mapGet_strip_merge g p k _ hg hp h]
    rfl
  · intro n h
    rw [mapGet_strip_merge g p k _ hg hp h]
    rfl

/-- C18, witness: the maps of `TestMergeExtraAndNullDeletion`. -/
theorem MergeExtra_empty_value_deletes_witness :
    keysNodup testGlobal ∧ keysNodup testEntry ∧
    mapGet testGlobal "max_tokens" = some (.int 100) ∧
    mapGet (StripEmptyFields (MergeExtra testGlobal testEntry)) "max_tokens" = none ∧
    mapGet (StripEmptyFields (MergeExtra testGlobal testEntry)) "verbosity" = none ∧
    mapGet (StripEmptyFields (MergeExtra testGlobal testEntry)) "new_field"
      = some (.bool true) :=
  ⟨by decide, by decide, by rfl,
   (MergeExtra_empty_value_deletes testGlobal testEntry "max_tokens" (by decide) (by decide)).1
     (by rfl),
   (MergeExtra_empty_value_deletes testGlobal testEntry "verbosity" (by decide) (by decide)).2.1
     "" (by rfl) (by rfl),
   (MergeExtra_empty_value_deletes testGlobal testEntry "new_field" (by decide) (by decide)).2.2.1
     true (by rfl)⟩

theorem mapGet_mapDelete (m : List (String × Value)) (k k' : String) :
    mapGet (mapDelete m k) k' = if k = k' then none else mapGet m k' := by
  induction m with
  | nil => simp [mapDelete, mapGet]
  | cons hd tl ih =>
    obtain ⟨a, b⟩ := hd
    by_cases h : a = k
    · simp only [mapDelete, h, if_true, ih, mapGet]
      by_cases h2 : k = k'
      · simp [h2]
      · simp [h2]
    · simp only [mapDelete, h, if_false, mapGet, ih]
      by_cases h2 : k = k'
      · have h3 : ¬ a = k' := fun e => h (e.trans h2.symm)
        simp [h2, h3]
      · simp [h2]

theorem mapGet_copy_nil (m : List (String × Value)) (k : String) (h : keysNodup m) :
    mapGet (mapCopyInto [] m) k = mapGet m k := by
  rw [mapGet_mapCopyInto m [] k h]
  cases mapGet m k <;> rfl

theorem takeOverride_fst (clean : List (String × Value)) (key : String) :
    (takeOverride clean key).1 = overrideOf clean key := by
  unfold takeOverride overrideOf
  cases h : mapGet clean key with
  | none => rfl
  | some v => cases v <;> rfl

theorem takeOverride_snd (clean : List (String × Value)) (key k : String) :
    mapGet (takeOverride clean key).2 k = if key = k then none else mapGet clean k := by
  unfold takeOverride
  cases h : mapGet clean key with
  | none =>
    simp only []
    by_cases hk : key = k
    · subst hk; simp [h]
    · simp [hk]
  | some v =>
    simp only []
    exact mapGet_mapDelete clean key k

theorem overrideOf_congr (a b : List (String × Value)) (key : String)
    (h : mapGet a key = mapGet b key) : overrideOf a key = overrideOf b key := by
  unfold overrideOf
  rw [h]

/-- C19: the overrides returned by `ExtractRuntimeOverrides extra` hold in
`APIEndpoint`, `Token` and `TEXTPath` the trimmed string values of those three
keys of `extra` (empty when the key is absent or not a string), and the clean
map has none of the three keys and gives every other key what `extra` gives
it, zero values included. -/
theorem ExtractRuntimeOverrides_frame (extra : List (String × Value)) (k : String)
    (hn : keysNodup extra) :
    (ExtractRuntimeOverrides extra).1.APIEndpoint = overrideOf extra "APIEndpoint" ∧
    (ExtractRuntimeOverrides extra).1.Token = overrideOf extra "Token" ∧
    (ExtractRuntimeOverrides extra).1.TEXTPath = overrideOf extra "TEXTPath" ∧
    mapGet (ExtractRuntimeOverrides extra).2 k =
      if k = "APIEndpoint" ∨ k = "Token" ∨ k = "TEXTPath" then none else mapGet extra k := by
  unfold ExtractRuntimeOverrides
  simp only [takeOverride_fst]
  refine ⟨?_, ?_, ?_, ?_⟩
  · exact overrideOf_congr _ _ _ (mapGet_copy_nil extra _ hn)
  · apply overrideOf_congr
    rw [takeOverride_snd, mapGet_copy_nil extra _ hn]
    simp
  · apply overrideOf_congr
    rw [takeOverride_snd, takeOverride_snd, mapGet_copy_nil extra _ hn]
    simp
  · rw [takeOverride_snd, takeOverride_snd, takeOverride_snd, mapGet_copy_nil extra _ hn]
    by_cases h1 : k = "APIEndpoint"
    · subst h1; simp
    · by_cases h2 : k = "Token"
      · subst h2; simp
      · by_cases h3 : k = "TEXTPath"
        · subst h3; simp
        · have e1 : ¬ "APIEndpoint" = k := fun e => h1 e.symm
          have e2 : ¬ "Token" = k := fun e => h2 e.symm
          have e3 : ¬ "TEXTPath" = k := fun e => h3 e.symm
          simp [h1, h2, h3, e1, e2, e3]

/-- C19, witness: the map of `TestExtractRuntimeOverrides`. -/
theorem ExtractRuntimeOverrides_frame_witness :
    keysNodup testOverrides ∧
    (ExtractRuntimeOverrides testOverrides).1 =
      { APIEndpoint := "https://x", Token := "abc", TEXTPath := "choices[0].message.content" } ∧
    mapGet (ExtractRuntimeOverrides testOverrides).2 "APIEndpoint" = none ∧
    mapGet (ExtractRuntimeOverrides testOverrides).2 "temperature" = some (.int 0) :=
  have h1 := ExtractRuntimeOverrides_frame testOverrides "APIEndpoint" (by decide)
  have h2 := ExtractRuntimeOverrides_frame testOverrides "temperature" (by decide)
  ⟨by decide, by rfl, h1.2.2.2, h2.2.2.2⟩

theorem pastes_handleTask (cfg : Config) (ge : List (String × Value)) (env : JobEnv) (id : Int)
    (d : Dispatch) (hp : (prepareJob cfg ge env id).2 = some d) :
    pastes (handleTask cfg ge env id) =
      pastes (completeJob cfg env d
        (SendWithRetry env.net d.endpoint d.token d.payload d.opts).1) := by
  unfold handleTask
  simp only [hp, pastes_append, prepareJob_pastes, SendWithRetry_pastes, List.nil_append]

theorem pastes_notifyPlaceholder (cfg : Config) (text : String) :
    pastes (notifyPlaceholder cfg text) =
      if cfg.RequestFailedNotification then [text] else [] := by
  unfold notifyPlaceholder
  cases cfg.RequestFailedNotification <;> rfl

/-- C20: a job whose dispatch ends with an error pastes exactly the text
`[request failed]`, once, when failure notification is enabled and nothing
when it is disabled; a job whose dispatch succeeds and whose extracted text
is blank pastes exactly `[empty result]`, once, when failure notification is
enabled and nothing when it is disabled. -/
theorem handleTask_failure_placeholders (cfg : Config) (ge : List (String × Value))
    (env : JobEnv) (id : Int) :
    (∀ e, dispatchResult cfg ge env id = some (.error e) →
      pastes (handleTask cfg ge env id) =
        if cfg.RequestFailedNotification then ["[request failed]"] else []) ∧
    (∀ t, extractedText cfg ge env id = some t → TrimSpace t = "" →
      pastes (handleTask cfg ge env id) =
        if cfg.RequestFailedNotification then ["[empty result]"] else []) := by
  constructor
  · intro e h
    unfold dispatchResult at h
    cases hp : (prepareJob cfg ge env id).2 with
    | none => simp [hp] at h
    | some d =>
      simp only [hp, Option.some.injEq] at h
      rw [pastes_handleTask cfg ge env id d hp, h]
      exact pastes_notifyPlaceholder cfg _
  · intro t h ht
    unfold extractedText at h
    cases hp : (prepareJob cfg ge env id).2 with
    | none => simp [hp] at h
    | some d =>
      simp only [hp] at h
      rw [pastes_handleTask cfg ge env id d hp]
      cases hr : (SendWithRetry env.net d.endpoint d.token d.payload d.opts).1 with
      | error e => simp [hr] at h
      | ok body =>
        simp only [hr, Option.some.injEq] at h
        simp only [completeJob, h, ht, if_true]
        exact pastes_notifyPlaceholder cfg _

/-- C20, witness: a job whose every request fails and a job whose response is
the empty object, each with the notification on and off. -/
theorem handleTask_failure_placeholders_witness :
    dispatchResult notifyConfig [] failingEnv 1 = some (.error (.other "network down")) ∧
    pastes (handleTask notifyConfig [] failingEnv 1) = ["[request failed]"] ∧
    pastes (handleTask quietConfig [] failingEnv 1) = [] ∧
    extractedText notifyConfig [] emptyResultEnv 1 = some "" ∧
    pastes (handleTask notifyConfig [] emptyResultEnv 1) = ["[empty result]"] ∧
    pastes (handleTask quietConfig [] emptyResultEnv 1) = [] :=
  ⟨by rfl,
   (handleTask_failure_placeholders notifyConfig [] failingEnv 1).1 _ (by rfl),
   (handleTask_failure_placeholders quietConfig [] failingEnv 1).1
     (.other "network down") (by rfl),
   by rfl,
   (handleTask_failure_placeholders notifyConfig [] emptyResultEnv 1).2 "" (by rfl) (by rfl),
   (handleTask_failure_placeholders quietConfig [] emptyResultEnv 1).2 "" (by rfl) (by rfl)⟩

/-- The part of one round of the loop up to the decision on the attempt: a
failed attempt that is not mistaken for a cancellation hands its error to the
rest of the round. -/
theorem sendAttempts_failed (env : NetEnv) (endpoint token data ua : String) (M : Int)
    (r : Nat) (a : Nat) (d : Int) (l : Option GoError) (tr : List Effect) (e : GoError)
    (hreq : env.newRequest endpoint = none)
    (hf : FailedAttempt env (attemptRequest endpoint token data ua) a e) :
    sendAttempts env endpoint token data ua M (r + 1) a d l tr =
      if (a : Int) = M then
        afterAttempts (some e) (tr ++ [Effect.httpDo (attemptRequest endpoint token data ua)])
      else if env.sleep a d = none then
        sendAttempts env endpoint token data ua M r ((a : Int) + 1) (wrap64 (d * 2))
          (some e) (tr ++ [Effect.httpDo (attemptRequest endpoint token data ua)]
            ++ [Effect.sleep d])
      else
        (.error ((env.sleep a d).getD e),
          tr ++ [Effect.httpDo (attemptRequest endpoint token data ua)] ++ [Effect.sleep d]) := by
  obtain ⟨hfail, hctx⟩ := hf
  have tail : ∀ x : GoError, x = e →
      (if (a : Int) = M then
        afterAttempts (some x) (tr ++ [Effect.httpDo (attemptRequest endpoint token data ua)])
      else
        match env.sleep a d with
        | some se => (Except.error se,
            tr ++ [Effect.httpDo (attemptRequest endpoint token data ua)] ++ [Effect.sleep d])
        | none => sendAttempts env endpoint token data ua M r ((a : Int) + 1) (wrap64 (d * 2))
            (some x) (tr ++ [Effect.httpDo (attemptRequest endpoint token data ua)]
              ++ [Effect.sleep d])) =
      if (a : Int) = M then
        afterAttempts (some e) (tr ++ [Effect.httpDo (attemptRequest endpoint token data ua)])
      else if env.sleep a d = none then
        sendAttempts env endpoint token data ua M r ((a : Int) + 1) (wrap64 (d * 2))
          (some e) (tr ++ [Effect.httpDo (attemptRequest endpoint token data ua)]
            ++ [Effect.sleep d])
      else
        (.error ((env.sleep a d).getD e),
          tr ++ [Effect.httpDo (attemptRequest endpoint token data ua)] ++ [Effect.sleep d]) := by
    intro x hx
    subst hx
    by_cases hM : (a : Int) = M
    · simp only [hM, if_true]
    · simp only [hM, if_false]
      cases hs : env.sleep a d with
      | none => simp
      | some se => simp
  simp only [sendAttempts, hreq, Int.toNat_ofNat]
  unfold attemptRequest at hfail hctx tail ⊢
  cases hd : env.doer a _ with
  | err x =>
    rw [hd] at hfail
    simp only [DoResult.failure, Option.some.injEq] at hfail
    have hc := hctx x hd
    simp only [hc]
    exact tail x hfail
  | resp status body readErr =>
    rw [hd] at hfail
    cases readErr with
    | some re =>
      simp only [DoResult.failure, Option.some.injEq] at hfail
      exact tail re hfail
    | none =>
      simp only [DoResult.failure] at hfail
      by_cases hs : status ≥ 200 ∧ status < 300
      · simp [hs] at hfail
      · simp only [hs, if_false, Option.some.injEq] at hfail
        simp only [hs, if_false]
        exact tail _ hfail

theorem doCalls_append (a b : List Effect) : doCalls (a ++ b) = doCalls a + doCalls b := by
  induction a with
  | nil => simp [doCalls]
  | cons e rest ih =>
    cases e <;> simp [doCalls, ih]
    omega

theorem sleeps_append (a b : List Effect) : sleeps (a ++ b) = sleeps a ++ sleeps b := by
  induction a with
  | nil => rfl
  | cons e rest ih => cases e <;> simp [sleeps, ih]

theorem doCalls_retryTrace (req : Request) (d : Int) (n : Nat) :
    doCalls (retryTrace req d n) = n := by
  induction n generalizing d with
  | zero => rfl
  | succ n ih => simp [retryTrace, doCalls, ih]

theorem sleeps_retryTrace (req : Request) (d : Int) (n : Nat) :
    sleeps (retryTrace req d n) = (List.range n).map (fun i => delayIter d i) := by
  induction n generalizing d with
  | zero => rfl
  | succ n ih =>
    simp only [retryTrace, sleeps, ih, List.range_succ_eq_map, List.map_cons, List.map_map]
    rfl

/-- After `n` failed attempts, each followed by a sleep that returns nil, the
loop stands at attempt `a + n`. -/
theorem sendAttempts_prefix (env : NetEnv) (endpoint token data ua : String) (M : Int)
    (hreq : env.newRequest endpoint = none)
    (n : Nat) (r a : Nat) (d : Int) (l : Option GoError) (tr : List Effect)
    (hM : (a : Int) + ((r + n : Nat) : Int) = M)
    (hf : ∀ i, i < n → ∃ e, FailedAttempt env (attemptRequest endpoint token data ua) (a + i) e ∧
      env.sleep (a + i) (delayIter d i) = none) :
    ∃ l', sendAttempts env endpoint token data ua M (r + n + 1) a d l tr =
      sendAttempts env endpoint token data ua M (r + 1) ((a + n : Nat) : Int) (delayIter d n) l'
        (tr ++ retryTrace (attemptRequest endpoint token data ua) d n) := by
  induction n generalizing a d l tr with
  | zero => exact ⟨l, by simp [delayIter, retryTrace]⟩
  | succ n ih =>
    obtain ⟨e, hfa, hsl⟩ := hf 0 (Nat.succ_pos n)
    simp only [Nat.add_zero, delayIter] at hfa hsl
    have hne : (a : Int) ≠ M := by
      rw [← hM]; push_cast; omega
    have hstep := sendAttempts_failed env endpoint token data ua M (r + n + 1) a d l tr e hreq hfa
    simp only [hne, if_false, hsl, if_true] at hstep
    have hM' : ((a + 1 : Nat) : Int) + ((r + n : Nat) : Int) = M := by
      rw [← hM]; push_cast; omega
    obtain ⟨l', hrec⟩ := ih (a + 1) (wrap64 (d * 2)) (some e)
      (tr ++ [Effect.httpDo (attemptRequest endpoint token data ua)] ++ [Effect.sleep d]) hM'
      (by
        intro i hi
        obtain ⟨e', h1, h2⟩ := hf (i + 1) (by omega)
        refine ⟨e', ?_, ?_⟩
        · have : a + 1 + i = a + (i + 1) := by omega
          rw [this]; exact h1
        · have : a + 1 + i = a + (i + 1) := by omega
          rw [this]; exact h2)
    refine ⟨l', ?_⟩
    have e1 : r + (n + 1) + 1 = (r + n) + 1 + 1 := by omega
    rw [e1, hstep]
    have e2 : ((a : Int) + 1) = ((a + 1 : Nat) : Int) := by push_cast; rfl
    rw [e2, hrec]
    have e3 : a + 1 + n = a + (n + 1) := by omega
    simp only [e3, delayIter, retryTrace, List.append_assoc, List.cons_append, List.nil_append]

theorem wrap64_id (x : Int) (h1 : -2 ^ 63 ≤ x) (h2 : x < 2 ^ 63) : wrap64 x = x := by
  unfold wrap64
  rw [Int.emod_eq_of_lt (by omega) (by omega)]
  omega

theorem delayIter_exact (n : Nat) (d : Int) (h0 : 0 ≤ d) (h : d * 2 ^ n < 2 ^ 63) :
    delayIter d n = d * 2 ^ n := by
  induction n generalizing d with
  | zero => simp [delayIter]
  | succ n ih =>
    have hpow : (1 : Int) ≤ 2 ^ n := one_le_pow₀ (by norm_num)
    have h2 : d * 2 ≤ d * 2 ^ (n + 1) := by
      rw [pow_succ, ← mul_assoc]
      nlinarith
    have hw : wrap64 (d * 2) = d * 2 := wrap64_id _ (by omega) (by omega)
    simp only [delayIter, hw]
    rw [ih (d * 2) (by omega) (by rw [mul_assoc, ← pow_succ']; exact h)]
    rw [mul_assoc, ← pow_succ']

theorem pow_mono_bound (d : Int) (i n : Nat) (h0 : 0 ≤ d) (hi : i ≤ n)
    (h : d * 2 ^ n < 2 ^ 63) : d * 2 ^ i < 2 ^ 63 := by
  have : (2 : Int) ^ i ≤ 2 ^ n := pow_le_pow_right₀ (by norm_num) hi
  have : d * 2 ^ i ≤ d * 2 ^ n := mul_le_mul_of_nonneg_left this h0
  omega

theorem SendWithRetry_eq (env : NetEnv) (endpoint token : String)
    (payload : List (String × Value)) (opts : RetryOptions) (data : String)
    (hend : endpoint ≠ "") (hmar : env.marshal payload = .ok data) :
    SendWithRetry env endpoint token payload opts =
      sendAttempts env endpoint token data (effectiveAgent opts) (effectiveRetries opts)
        (effectiveRetries opts).toNat 1 (effectiveDelay opts) none [] := by
  have h1 : (if opts.MaxRetry ≤ 0 then 1 else opts.MaxRetry) = effectiveRetries opts := by
    unfold effectiveRetries
    split <;> omega
  have h2 : (if opts.BaseDelay < 0 then 0 else opts.BaseDelay) = effectiveDelay opts := by
    unfold effectiveDelay
    split <;> omega
  unfold SendWithRetry
  simp only [hend, if_false, hmar, h1, h2]
  rfl

theorem sendAttempts_success (env : NetEnv) (endpoint token data ua : String) (M : Int)
    (r a : Nat) (d : Int) (l : Option GoError) (tr : List Effect) (status : Int) (body : String)
    (hreq : env.newRequest endpoint = none)
    (hok : env.doer a (attemptRequest endpoint token data ua) = .resp status body none)
    (hst : 200 ≤ status ∧ status ≤ 299) :
    sendAttempts env endpoint token data ua M (r + 1) a d l tr =
      (.ok body, tr ++ [Effect.httpDo (attemptRequest endpoint token data ua)]) := by
  simp only [sendAttempts, hreq, Int.toNat_ofNat]
  unfold attemptRequest at hok ⊢
  have hs : status ≥ 200 ∧ status < 300 := by omega
  simp only [hok, hs, and_self, if_true]

theorem sendAttempts_cancelled (env : NetEnv) (endpoint token data ua : String) (M : Int)
    (r a : Nat) (d : Int) (l : Option GoError) (tr : List Effect) (e c : GoError)
    (hreq : env.newRequest endpoint = none)
    (herr : env.doer a (attemptRequest endpoint token data ua) = .err e)
    (hctx : env.ctxErr a = some c) :
    sendAttempts env endpoint token data ua M (r + 1) a d l tr =
      (.error c, tr ++ [Effect.httpDo (attemptRequest endpoint token data ua)]) := by
  simp only [sendAttempts, hreq, Int.toNat_ofNat]
  unfold attemptRequest at herr ⊢
  simp only [herr, hctx]

/-- The loop of a call whose first `n` attempts fail and are followed by
sleeps that return nil stands at attempt `n + 1` with `r + 1` rounds left. -/
theorem SendWithRetry_prefix (env : NetEnv) (endpoint token : String)
    (payload : List (String × Value)) (opts : RetryOptions) (data : String) (n r : Nat)
    (hend : endpoint ≠ "") (hmar : env.marshal payload = .ok data)
    (hreq : env.newRequest endpoint = none)
    (hM : ((n + r + 1 : Nat) : Int) = effectiveRetries opts)
    (hf : ∀ j, 1 ≤ j → j ≤ n → ∃ e,
      FailedAttempt env (attemptRequest endpoint token data (effectiveAgent opts)) j e ∧
      env.sleep j (delayIter (effectiveDelay opts) (j - 1)) = none) :
    ∃ l', SendWithRetry env endpoint token payload opts =
      sendAttempts env endpoint token data (effectiveAgent opts) (effectiveRetries opts)
        (r + 1) ((n + 1 : Nat) : Int) (delayIter (effectiveDelay opts) n) l'
        (retryTrace (attemptRequest endpoint token data (effectiveAgent opts))
          (effectiveDelay opts) n) := by
  rw [SendWithRetry_eq env endpoint token payload opts data hend hmar]
  have hN : (effectiveRetries opts).toNat = r + n + 1 := by
    rw [← hM]; simp; omega
  obtain ⟨l', h⟩ := sendAttempts_prefix env endpoint token data (effectiveAgent opts)
    (effectiveRetries opts) hreq n r 1 (effectiveDelay opts) none []
    (by rw [← hM]; push_cast; omega)
    (by
      intro i hi
      obtain ⟨e, h1, h2⟩ := hf (1 + i) (by omega) (by omega)
      refine ⟨e, h1, ?_⟩
      have : 1 + i - 1 = i := by omega
      rw [this] at h2
      exact h2)
  refine ⟨l', ?_⟩
  rw [hN]
  have h1 : ((1 : Nat) : Int) = 1 := rfl
  rw [h1] at h
  rw [h]
  have h2 : 1 + n = n + 1 := by omega
  simp [h2]

theorem backoff_eq_delayIter (d : Int) (n : Nat) (h0 : 0 ≤ d) (h : d * 2 ^ (n - 1) < 2 ^ 63) :
    (List.range n).map (fun i => delayIter d i) = backoff d n := by
  unfold backoff
  apply List.map_congr_left
  intro i hi
  have hi' : i < n := List.mem_range.mp hi
  exact delayIter_exact i d h0 (pow_mono_bound d i (n - 1) h0 (by omega) h)

theorem effectiveDelay_nonneg (opts : RetryOptions) : 0 ≤ effectiveDelay opts := by
  unfold effectiveDelay
  omega

/-- C11, counterexample: with `MaxRetry = 3` and the negative `BaseDelay = -1`
the first two attempts fail and the third one answers 200; the call returns
the body after three calls of the doer, but the two sleeps last `0` and `0`,
not `BaseDelay = -1` and `2 * BaseDelay = -2`: a negative `BaseDelay` is
replaced by zero before the loop. -/
theorem SendWithRetry_backoff_counterexample :
    (SendWithRetry flakyNet "http://api" "" [] { MaxRetry := 3, BaseDelay := -1 }).1
      = .ok "done" ∧
    doCalls (SendWithRetry flakyNet "http://api" "" [] { MaxRetry := 3, BaseDelay := -1 }).2
      = 3 ∧
    sleeps (SendWithRetry flakyNet "http://api" "" [] { MaxRetry := 3, BaseDelay := -1 }).2
      = [0, 0] ∧
    backoff (-1) 2 = [-1, -2] ∧
    sleeps (SendWithRetry flakyNet "http://api" "" [] { MaxRetry := 3, BaseDelay := -1 }).2
      ≠ backoff (-1) 2 := by
  refine ⟨rfl, rfl, rfl, rfl, by decide⟩

/-- C11, amended: when the payload encodes and the request can be built, the
attempts `1 .. k-1` fail (transport error, unreadable body or status outside
`200..299`, nothing cancelled, every backoff sleep returning nil) and attempt
`k <= max(1, MaxRetry)` receives a status in `200..299`, then `SendWithRetry`
returns the body of that response with no error, has called the doer exactly
`k` times and has slept exactly `k - 1` times, for `d, 2 d, ..., 2^(k-2) d` in
that order, where `d = max(0, BaseDelay)`, as long as `2^(k-2) d` fits an
`int64`. -/
theorem SendWithRetry_backoff (env : NetEnv) (endpoint token : String)
    (payload : List (String × Value)) (opts : RetryOptions) (data : String) (k : Nat)
    (status : Int) (body : String)
    (hend : endpoint ≠ "") (hmar : env.marshal payload = .ok data)
    (hreq : env.newRequest endpoint = none)
    (hk1 : 1 ≤ k) (hk : (k : Int) ≤ effectiveRetries opts)
    (hfit : effectiveDelay opts * 2 ^ (k - 2) < 2 ^ 63)
    (hf : ∀ j, 1 ≤ j → j < k → ∃ e,
      FailedAttempt env (attemptRequest endpoint token data (effectiveAgent opts)) j e ∧
      env.sleep j (effectiveDelay opts * 2 ^ (j - 1)) = none)
    (hok : env.doer k (attemptRequest endpoint token data (effectiveAgent opts)) =
      .resp status body none)
    (hst : 200 ≤ status ∧ status ≤ 299) :
    (SendWithRetry env endpoint token payload opts).1 = .ok body ∧
    doCalls (SendWithRetry env endpoint token payload opts).2 = k ∧
    sleeps (SendWithRetry env endpoint token payload opts).2 =
      backoff (effectiveDelay opts) (k - 1) := by
  have h0 := effectiveDelay_nonneg opts
  obtain ⟨r, hr⟩ : ∃ r : Nat, ((k - 1 + r + 1 : Nat) : Int) = effectiveRetries opts :=
    ⟨(effectiveRetries opts - k).toNat, by push_cast; omega⟩
  obtain ⟨l', h⟩ := SendWithRetry_prefix env endpoint token payload opts data (k - 1) r
    hend hmar hreq hr (by
      intro j hj1 hj2
      obtain ⟨e, h1, h2⟩ := hf j hj1 (by omega)
      refine ⟨e, h1, ?_⟩
      rw [delayIter_exact (j - 1) _ h0
        (pow_mono_bound _ (j - 1) (k - 2) h0 (by omega) hfit)]
      exact h2)
  have hk' : k - 1 + 1 = k := by omega
  rw [h, hk', sendAttempts_success env endpoint token data (effectiveAgent opts) _ r k _ l' _
    status body hreq hok hst]
  refine ⟨rfl, ?_, ?_⟩
  · simp only [doCalls_append, doCalls_retryTrace, doCalls]
    omega
  · simp only [sleeps_append, sleeps_retryTrace, sleeps, List.append_nil]
    exact backoff_eq_delayIter _ _ h0 (by
      have : k - 1 - 1 = k - 2 := by omega
      rw [this]; exact hfit)

/-- C11, witness: `MaxRetry = 3`, `BaseDelay = 10`, two transport errors and
then a 200. -/
theorem SendWithRetry_backoff_witness :
    (SendWithRetry flakyNet "http://api" "" [] { MaxRetry := 3, BaseDelay := 10 }).1
      = .ok "done" ∧
    doCalls (SendWithRetry flakyNet "http://api" "" [] { MaxRetry := 3, BaseDelay := 10 }).2
      = 3 ∧
    sleeps (SendWithRetry flakyNet "http://api" "" [] { MaxRetry := 3, BaseDelay := 10 }).2
      = backoff (effectiveDelay { MaxRetry := 3, BaseDelay := 10 }) (3 - 1) :=
  SendWithRetry_backoff flakyNet "http://api" "" [] { MaxRetry := 3, BaseDelay := 10 }
    "\x7b\x7d" 3 200 "done" (by decide) rfl rfl (by decide) (by decide) (by decide)
    (by
      intro j h1 h2
      refine ⟨.other "transient", ⟨?_, fun _ _ => rfl⟩, rfl⟩
      have hj : j < 3 := h2
      simp only [flakyNet, hj, if_true, DoResult.failure])
    rfl (by decide)

/-- C12: when the payload encodes and the request can be built, the attempts
before attempt `j` fail and are followed by sleeps that return nil, and
either attempt `j` fails, is not the last one and the sleep after it returns
the error `c`, or the doer returns an error on attempt `j` while the context
reports the error `c`, then `SendWithRetry` returns `c` (not the error of the
attempt) and the doer has been called exactly `j` times, whatever `MaxRetry`
allows beyond `j`. -/
theorem SendWithRetry_cancellation (env : NetEnv) (endpoint token : String)
    (payload : List (String × Value)) (opts : RetryOptions) (data : String) (j : Nat)
    (c : GoError)
    (hend : endpoint ≠ "") (hmar : env.marshal payload = .ok data)
    (hreq : env.newRequest endpoint = none)
    (hj1 : 1 ≤ j) (hj : (j : Int) ≤ effectiveRetries opts)
    (hf : ∀ i, 1 ≤ i → i < j → ∃ e,
      FailedAttempt env (attemptRequest endpoint token data (effectiveAgent opts)) i e ∧
      env.sleep i (delayIter (effectiveDelay opts) (i - 1)) = none)
    (hc : ((∃ e, FailedAttempt env
              (attemptRequest endpoint token data (effectiveAgent opts)) j e) ∧
            (j : Int) < effectiveRetries opts ∧
            env.sleep j (delayIter (effectiveDelay opts) (j - 1)) = some c) ∨
          ((∃ e, env.doer j (attemptRequest endpoint token data (effectiveAgent opts)) =
              .err e) ∧ env.ctxErr j = some c)) :
    (SendWithRetry env endpoint token payload opts).1 = .error c ∧
    doCalls (SendWithRetry env endpoint token payload opts).2 = j := by
  obtain ⟨r, hr⟩ : ∃ r : Nat, ((j - 1 + r + 1 : Nat) : Int) = effectiveRetries opts :=
    ⟨(effectiveRetries opts - j).toNat, by push_cast; omega⟩
  obtain ⟨l', h⟩ := SendWithRetry_prefix env endpoint token payload opts data (j - 1) r
    hend hmar hreq hr (fun i h1 h2 => hf i h1 (by omega))
  have hj' : j - 1 + 1 = j := by omega
  rw [h, hj']
  rcases hc with ⟨⟨e, hfa⟩, hlt, hsl⟩ | ⟨⟨e, herr⟩, hctx⟩
  · rw [sendAttempts_failed env endpoint token data (effectiveAgent opts) _ r j _ l' _ e
      hreq hfa]
    have hne : ¬ ((j : Int) = effectiveRetries opts) := by omega
    rw [if_neg hne, if_neg (by rw [hsl]; exact Option.some_ne_none c), hsl]
    refine ⟨rfl, ?_⟩
    simp only [doCalls_append, doCalls_retryTrace, doCalls]
    omega
  · rw [sendAttempts_cancelled env endpoint token data (effectiveAgent opts) _ r j _ l' _ e c
      hreq herr hctx]
    refine ⟨rfl, ?_⟩
    simp only [doCalls_append, doCalls_retryTrace, doCalls]
    omega

/-- C12, witness: the cancellation test, every call fails and the first sleep
returns `context.Canceled`. -/
theorem SendWithRetry_cancellation_witness :
    (SendWithRetry cancelInSleepNet "http://api" "" [] { MaxRetry := 3, BaseDelay := 5 }).1
      = .error .canceled ∧
    doCalls (SendWithRetry cancelInSleepNet "http://api" "" []
      { MaxRetry := 3, BaseDelay := 5 }).2 = 1 :=
  SendWithRetry_cancellation cancelInSleepNet "http://api" "" []
    { MaxRetry := 3, BaseDelay := 5 } "\x7b\x7d" 1 .canceled (by decide) rfl rfl (by decide)
    (by decide) (fun i h1 h2 => absurd h1 (by omega))
    (Or.inl ⟨⟨.other "always fail", rfl, fun _ _ => rfl⟩, by decide, rfl⟩)

/-- C13, counterexample: the endpoint `:` is not empty, but no request can be
built for it; with `MaxRetry = 3` the call returns the error of
`http.NewRequestWithContext` in its first round, the doer is never called and
nothing sleeps. -/
theorem SendWithRetry_exhaust_counterexample :
    (":" : String) ≠ "" ∧
    doCalls (SendWithRetry badUrlNet ":" "" [] { MaxRetry := 3, BaseDelay := 1 }).2 = 0 ∧
    sleeps (SendWithRetry badUrlNet ":" "" [] { MaxRetry := 3, BaseDelay := 1 }).2 = [] ∧
    (SendWithRetry badUrlNet ":" "" [] { MaxRetry := 3, BaseDelay := 1 }).1 =
      .error (.other "missing protocol scheme") := by
  refine ⟨by decide, rfl, rfl, rfl⟩

/-- C13, amended: for every `MaxRetry` (zero and negative values included)
and a non-empty endpoint for which the payload encodes and the request can be
built, when every attempt fails and nothing is cancelled, `SendWithRetry`
calls the doer exactly `max(1, MaxRetry)` times, sleeps exactly
`max(1, MaxRetry) - 1` times (not after the final attempt) and returns the
error of the last attempt. -/
theorem SendWithRetry_exhaust (env : NetEnv) (endpoint token : String)
    (payload : List (String × Value)) (opts : RetryOptions) (data : String) (last : GoError)
    (hend : endpoint ≠ "") (hmar : env.marshal payload = .ok data)
    (hreq : env.newRequest endpoint = none)
    (hf : ∀ j : Nat, 1 ≤ j → (j : Int) < effectiveRetries opts → ∃ e,
      FailedAttempt env (attemptRequest endpoint token data (effectiveAgent opts)) j e ∧
      env.sleep j (delayIter (effectiveDelay opts) (j - 1)) = none)
    (hlast : FailedAttempt env (attemptRequest endpoint token data (effectiveAgent opts))
      (effectiveRetries opts).toNat last) :
    (SendWithRetry env endpoint token payload opts).1 = .error last ∧
    doCalls (SendWithRetry env endpoint token payload opts).2 = (effectiveRetries opts).toNat ∧
    (sleeps (SendWithRetry env endpoint token payload opts).2).length =
      (effectiveRetries opts).toNat - 1 := by
  have hpos : 1 ≤ effectiveRetries opts := by unfold effectiveRetries; omega
  obtain ⟨N, hN⟩ : ∃ N : Nat, effectiveRetries opts = ((N + 1 : Nat) : Int) :=
    ⟨(effectiveRetries opts - 1).toNat, by push_cast; omega⟩
  have hT : (effectiveRetries opts).toNat = N + 1 := by rw [hN]; rfl
  rw [hT] at hlast ⊢
  obtain ⟨l', h⟩ := SendWithRetry_prefix env endpoint token payload opts data N 0
    hend hmar hreq (by rw [hN]) (fun j h1 h2 => hf j h1 (by rw [hN]; push_cast; omega))
  rw [h, sendAttempts_failed env endpoint token data (effectiveAgent opts) _ 0 (N + 1) _ l' _
    last hreq hlast]
  have he : ((N + 1 : Nat) : Int) = effectiveRetries opts := hN.symm
  simp only [he, if_true, afterAttempts]
  refine ⟨by first | rfl | trivial, ?_, ?_⟩
  · simp only [doCalls_append, doCalls_retryTrace, doCalls]
  · simp only [sleeps_append, sleeps_retryTrace, sleeps, List.append_nil, List.length_map,
      List.length_range]
    omega

/-- C13, witness: `MaxRetry = -2` gives one attempt and no sleep. -/
theorem SendWithRetry_exhaust_witness :
    (SendWithRetry alwaysFailNet "http://api" "" [] { MaxRetry := -2, BaseDelay := 7 }).1
      = .error (.other "fail 1") ∧
    doCalls (SendWithRetry alwaysFailNet "http://api" "" []
      { MaxRetry := -2, BaseDelay := 7 }).2 = 1 ∧
    (sleeps (SendWithRetry alwaysFailNet "http://api" "" []
      { MaxRetry := -2, BaseDelay := 7 }).2).length = 0 :=
  SendWithRetry_exhaust alwaysFailNet "http://api" "" [] { MaxRetry := -2, BaseDelay := 7 }
    "\x7b\x7d" (.other "fail 1") (by decide) rfl rfl
    (fun j h1 h2 => absurd h2 (by
      have : effectiveRetries { MaxRetry := -2, BaseDelay := 7 } = 1 := by decide
      rw [this]; omega))
    ⟨rfl, fun _ _ => rfl⟩

theorem split_no_sep (c : Char) (t : List Char) (h : c ∉ t) : splitOnChar c t = [t] := by
  induction t with
  | nil => rfl
  | cons x r ih =>
    simp only [List.mem_cons, not_or] at h
    have hc : ¬ x = c := fun e => h.1 e.symm
    simp [splitOnChar, hc, ih h.2]

theorem split_sep_append (c : Char) (t rest : List Char) (h : c ∉ t) :
    splitOnChar c (t ++ c :: rest) = t :: splitOnChar c rest := by
  induction t with
  | nil => simp [splitOnChar]
  | cons x r ih =>
    simp only [List.mem_cons, not_or] at h
    have hc : ¬ x = c := fun e => h.1 e.symm
    simp [splitOnChar, hc, ih h.2]

theorem split_joinPlus (ts : List (List Char)) (hne : ts ≠ []) (h : ∀ t ∈ ts, '+' ∉ t) :
    splitOnChar '+' (joinPlus ts) = ts := by
  induction ts with
  | nil => exact absurd rfl hne
  | cons t rest ih =>
    cases rest with
    | nil => simpa [joinPlus] using split_no_sep '+' t (h t (by simp))
    | cons t2 rest2 =>
      have h1 : '+' ∉ t := h t (by simp)
      have h2 : ∀ x ∈ t2 :: rest2, '+' ∉ x := fun x hx => h x (List.mem_cons_of_mem _ hx)
      simp only [joinPlus]
      rw [split_sep_append _ _ _ h1, ih (by simp) h2]

theorem toLowerChar_of_caseMatch (uni : Char → Char) (c n : Char)
    (hn : isLowerAlnum n = true) (h : caseMatch c n = true) :
    toLowerChar uni c = n ∧ c ≠ '+' := by
  simp only [isLowerAlnum, Bool.or_eq_true, Bool.and_eq_true, decide_eq_true_eq] at hn
  simp only [caseMatch, Bool.or_eq_true, Bool.and_eq_true, decide_eq_true_eq] at h
  have hplus : ('+' : Char).toNat = 43 := rfl
  rcases h with h | ⟨⟨h1, h2⟩, h3⟩
  · subst h
    refine ⟨?_, fun e => ?_⟩
    · unfold toLowerChar
      have h1 : c.toNat < 128 := by omega
      have h2 : ¬ (65 ≤ c.toNat ∧ c.toNat ≤ 90) := by omega
      simp only [h1, h2, if_true, if_false]
    · rw [e] at hn; omega
  · refine ⟨?_, fun e => ?_⟩
    · unfold toLowerChar
      have h4 : c.toNat < 128 := by omega
      have h5 : 65 ≤ c.toNat ∧ c.toNat ≤ 90 := by omega
      simp only [h4, h5, and_self, if_true, h3]
      exact Char.ofNat_toNat n
    · rw [e] at h3; omega

theorem spells_lower (uni : Char → Char) (v n : List Char)
    (hn : n.all isLowerAlnum = true) (h : spells v n = true) :
    v.map (toLowerChar uni) = n ∧ '+' ∉ v := by
  induction v generalizing n with
  | nil =>
    cases n with
    | nil => simp
    | cons x r => simp [spells] at h
  | cons c cs ih =>
    cases n with
    | nil => simp [spells] at h
    | cons x r =>
      simp only [spells, Bool.and_eq_true] at h
      simp only [List.all_cons, Bool.and_eq_true] at hn
      obtain ⟨e1, e2⟩ := toLowerChar_of_caseMatch uni c x hn.1 h.1
      obtain ⟨e3, e4⟩ := ih r hn.2 h.2
      refine ⟨by simp [e1, e3], ?_⟩
      simp only [List.mem_cons, not_or]
      exact ⟨fun e => e2 e.symm, e4⟩

theorem dropWhile_prefix (p : Char → Bool) (pre l : List Char)
    (hpre : ∀ c ∈ pre, p c = true) (hl : ∀ c ∈ l, p c = false) :
    (pre ++ l).dropWhile p = l := by
  induction pre with
  | nil =>
    cases l with
    | nil => rfl
    | cons x r => simp [List.dropWhile, hl x (by simp)]
  | cons x r ih =>
    have hx : p x = true := hpre x (by simp)
    simp only [List.cons_append, List.dropWhile, hx]
    exact ih (fun c hc => hpre c (List.mem_cons_of_mem _ hc))

theorem isSpace_of_alnum (c : Char) (h : isLowerAlnum c = true) : isSpace c = false := by
  simp only [isLowerAlnum, Bool.or_eq_true, Bool.and_eq_true, decide_eq_true_eq] at h
  unfold isSpace
  simp only [Bool.or_eq_false_iff, Bool.and_eq_false_iff, decide_eq_false_iff_not]
  omega

theorem trimChars_padded (l r : Nat) (n : List Char) (hn : n.all isLowerAlnum = true) :
    trimChars (List.replicate l ' ' ++ n ++ List.replicate r ' ') = n := by
  have hsp : ∀ k, ∀ c ∈ List.replicate k ' ', isSpace c = true := by
    intro k c hc
    rw [List.eq_of_mem_replicate hc]
    rfl
  have hnn : ∀ c ∈ n, isSpace c = false := fun c hc =>
    isSpace_of_alnum c (List.all_eq_true.mp hn c hc)
  unfold trimChars
  rw [List.append_assoc]
  cases n with
  | nil =>
    have h1 : (List.replicate l ' ' ++ ([] ++ List.replicate r ' ')).dropWhile isSpace = [] := by
      have := dropWhile_prefix isSpace (List.replicate l ' ' ++ List.replicate r ' ') []
        (by
          intro c hc
          rcases List.mem_append.mp hc with h | h
          · exact hsp l c h
          · exact hsp r c h)
        (by simp)
      simpa using this
    rw [h1]
    rfl
  | cons x rest =>
    have hx : isSpace x = false := hnn x (by simp)
    have h1 : (List.replicate l ' ' ++ (x :: rest ++ List.replicate r ' ')).dropWhile isSpace
        = x :: rest ++ List.replicate r ' ' := by
      have h2 : ∀ pre : List Char, (∀ c ∈ pre, isSpace c = true) →
          (pre ++ (x :: rest ++ List.replicate r ' ')).dropWhile isSpace
            = x :: rest ++ List.replicate r ' ' := by
        intro pre hpre
        induction pre with
        | nil => simp [List.dropWhile, hx]
        | cons y ys ih =>
          have hy : isSpace y = true := hpre y (by simp)
          simp only [List.cons_append, List.dropWhile, hy]
          exact ih (fun c hc => hpre c (List.mem_cons_of_mem _ hc))
      exact h2 _ (hsp l)
    rw [h1, List.reverse_append, List.reverse_replicate,
      dropWhile_prefix isSpace (List.replicate r ' ') (x :: rest).reverse (hsp r)
        (fun c hc => hnn c (List.mem_reverse.mp hc)),
      List.reverse_reverse]

theorem normalise_written (uni : Char → Char) (w : Written) (name : String)
    (hn : name.data.all isLowerAlnum = true) (h : spells w.text.data name.data = true) :
    TrimSpace (ToLower uni ⟨w.raw⟩) = name ∧ '+' ∉ w.raw := by
  obtain ⟨h1, h2⟩ := spells_lower uni _ _ hn h
  have hsp : ∀ k, (List.replicate k ' ').map (toLowerChar uni) = List.replicate k ' ' := by
    intro k
    rw [List.map_replicate]
    rfl
  have hpl : ∀ k, '+' ∉ List.replicate k ' ' := by
    intro k hc
    have := List.eq_of_mem_replicate hc
    exact absurd this (by decide)
  constructor
  · unfold TrimSpace ToLower Written.raw
    simp only [List.map_append, hsp, h1]
    rw [trimChars_padded _ _ _ hn]
  · unfold Written.raw
    simp only [List.mem_append, not_or]
    exact ⟨⟨hpl _, h2⟩, hpl _⟩

theorem modifierStep_lor (m : Nat) (p : String) :
    modifierStep m p = m ||| modifierStep 0 p := by
  unfold modifierStep
  split_ifs <;> simp

theorem modifierBits_step : ∀ p ∈ modifierBits, modifierStep 0 p.1 = p.2 := by
  decide

theorem modifierStep_bit (m : Nat) (name : String) (b : Nat)
    (h : (name, b) ∈ modifierBits) : modifierStep m name = m ||| b := by
  rw [modifierStep_lor, modifierBits_step (name, b) h]

theorem foldl_modifierStep (ms : List (String × Nat)) (m : Nat)
    (h : ∀ p ∈ ms, p ∈ modifierBits) :
    (ms.map (·.1)).foldl modifierStep m = m ||| orBits (ms.map (·.2)) := by
  induction ms generalizing m with
  | nil => simp [orBits]
  | cons p rest ih =>
    simp only [List.map_cons, List.foldl_cons]
    rw [modifierStep_bit m p.1 p.2 (h p (by simp)), ih _ (fun q hq => h q (List.mem_cons_of_mem _ hq))]
    simp only [orBits, List.foldr_cons, List.map_cons]
    exact Nat.lor_assoc _ _ _

theorem orBits_maskOf (bits : List Nat) (h : ∀ b ∈ bits, b = 1 ∨ b = 2 ∨ b = 4 ∨ b = 8) :
    orBits bits = maskOf bits := by
  induction bits with
  | nil => rfl
  | cons b rest ih =>
    have ihr := ih (fun x hx => h x (List.mem_cons_of_mem _ hx))
    have key : ∀ x1 x2 x4 x8 : Bool, ∀ y ∈ [1, 2, 4, 8],
        y ||| ((if x1 then 1 else 0) + (if x2 then 2 else 0) + (if x4 then 4 else 0)
            + (if x8 then 8 else 0)) =
        (if (x1 || y == 1) then 1 else 0) + (if (x2 || y == 2) then 2 else 0)
          + (if (x4 || y == 4) then 4 else 0) + (if (x8 || y == 8) then 8 else 0) := by
      decide
    have hm : orBits (b :: rest) = b ||| orBits rest := rfl
    rw [hm, ihr]
    unfold maskOf
    rcases h b (by simp) with rfl | rfl | rfl | rfl
    · have := key (decide (1 ∈ rest)) (decide (2 ∈ rest)) (decide (4 ∈ rest))
        (decide (8 ∈ rest)) 1 (by decide)
      simpa using this
    · have := key (decide (1 ∈ rest)) (decide (2 ∈ rest)) (decide (4 ∈ rest))
        (decide (8 ∈ rest)) 2 (by decide)
      simpa using this
    · have := key (decide (1 ∈ rest)) (decide (2 ∈ rest)) (decide (4 ∈ rest))
        (decide (8 ∈ rest)) 4 (by decide)
      simpa using this
    · have := key (decide (1 ∈ rest)) (decide (2 ∈ rest)) (decide (4 ∈ rest))
        (decide (8 ∈ rest)) 8 (by decide)
      simpa using this

set_option maxRecDepth 100000 in
theorem recognizedKeys_facts : ∀ p ∈ recognizedKeys,
    keyCode p.1 = some p.2 ∧ p.1.data.all isLowerAlnum = true ∧ p.1 ≠ "" := by
  decide

theorem modifierBits_facts : ∀ p ∈ modifierBits,
    p.1.data.all isLowerAlnum = true ∧ (p.2 = 1 ∨ p.2 = 2 ∨ p.2 = 4 ∨ p.2 = 8) := by
  decide

theorem getLast_snoc (l : List String) (x : String) : (l ++ [x]).getLast? = some x := by
  simp

/-- The result of `ParseHotkey` on a hotkey written from modifier names and a
main-key token of small letters and digits: the modifiers give the mask, the
token is read by `keyCode`. -/
theorem ParseHotkey_tokens (uni : Char → Char) (mods : List (Written × String × Nat))
    (key : Written) (name : String)
    (hm : ∀ m ∈ mods, m.2 ∈ modifierBits ∧ spells m.1.text.data m.2.1.data = true)
    (hal : name.data.all isLowerAlnum = true) (hne : name ≠ "")
    (hs : spells key.text.data name.data = true) :
    ParseHotkey uni (hotkeyText (mods.map (·.1)) key) =
      (keyCode name).map (fun c => (orBits (mods.map (·.2.2)), c)) := by
  obtain ⟨hkn, hkp⟩ := normalise_written uni key name hal hs
  have hmn : ∀ m ∈ mods, TrimSpace (ToLower uni ⟨m.1.raw⟩) = m.2.1 ∧ '+' ∉ m.1.raw :=
    fun m hmm => normalise_written uni m.1 m.2.1 (modifierBits_facts m.2 (hm m hmm).1).1
      (hm m hmm).2
  have hsplit : splitOnChar '+' (hotkeyText (mods.map (·.1)) key).data =
      (mods.map (·.1) ++ [key]).map Written.raw := by
    unfold hotkeyText
    apply split_joinPlus
    · simp
    · intro t ht
      simp only [List.map_append, List.map_map, List.map_cons, List.map_nil, List.mem_append,
        List.mem_map, List.mem_singleton] at ht
      rcases ht with ⟨m, hmm, rfl⟩ | rfl
      · exact (hmn m hmm).2
      · exact hkp
  have hparts : ((mods.map (·.1) ++ [key]).map Written.raw).map
      (fun p => TrimSpace (ToLower uni ⟨p⟩)) = (mods.map (·.2)).map (·.1) ++ [name] := by
    simp only [List.map_append, List.map_map, List.map_cons, List.map_nil, hkn]
    congr 1
    apply List.map_congr_left
    intro m hmm
    exact (hmn m hmm).1
  have hnonempty : hotkeyText (mods.map (·.1)) key ≠ "" := by
    intro e
    have h1 : splitOnChar '+' (hotkeyText (mods.map (·.1)) key).data = [[]] := by rw [e]; rfl
    rw [hsplit] at h1
    have h2 := congrArg (List.map (fun p => TrimSpace (ToLower uni ⟨p⟩))) h1
    rw [hparts] at h2
    have h3 := congrArg List.getLast? h2
    rw [getLast_snoc] at h3
    simp only [List.map_cons, List.map_nil, List.getLast?_singleton, Option.some.injEq] at h3
    exact hne (by rw [h3]; rfl)
  unfold ParseHotkey
  simp only [hnonempty, if_false, hsplit, hparts, getLast_snoc, Option.getD_some,
    List.dropLast_concat]
  rw [foldl_modifierStep (mods.map (·.2)) 0 (by
    intro p hp
    obtain ⟨m, hmm, rfl⟩ := List.mem_map.mp hp
    exact (hm m hmm).1)]
  simp only [List.map_map, Nat.zero_or]
  cases keyCode name <;> rfl

/-- The result of `ParseHotkey` on a hotkey written from modifier names and a
main key of the grammar. -/
theorem ParseHotkey_written (uni : Char → Char) (mods : List (Written × String × Nat))
    (key : Written) (name : String) (code : Nat)
    (hm : ∀ m ∈ mods, m.2 ∈ modifierBits ∧ spells m.1.text.data m.2.1.data = true)
    (hk : (name, code) ∈ recognizedKeys)
    (hs : spells key.text.data name.data = true) :
    ParseHotkey uni (hotkeyText (mods.map (·.1)) key) =
      some (orBits (mods.map (·.2.2)), code) := by
  obtain ⟨hcode, hal, hne⟩ := recognizedKeys_facts (name, code) hk
  rw [ParseHotkey_tokens uni mods key name hm hal hne hs]
  have hcode : keyCode name = some code := hcode
  rw [hcode]
  rfl

theorem spells_self (l : List Char) : spells l l = true := by
  induction l with
  | nil => rfl
  | cons c r ih => simp [spells, caseMatch, ih]

/-- A main key with a stated code, written alone and as it is named. -/
theorem ParseHotkey_plain (uni : Char → Char) (name : String) (code : Nat)
    (hk : (name, code) ∈ recognizedKeys) : ParseHotkey uni name = some (0, code) := by
  have h := ParseHotkey_written uni [] ⟨0, name, 0⟩ name code (by simp) hk (spells_self _)
  have e : hotkeyText [] ⟨0, name, 0⟩ = name := by
    simp [hotkeyText, Written.raw, joinPlus]
  simp only [List.map_nil, e] at h
  exact h

set_option maxRecDepth 100000 in
theorem numpad_in_table : ∀ n, n < 10 → ∀ p ∈ ["numpad", "num", "kp"],
    (String.mk (p.data ++ numeral n), 0x60 + n) ∈ recognizedKeys ∧
    (String.mk (numeral n), 48 + n) ∈ recognizedKeys := by
  decide

/-- A token of small letters and digits, written alone, is read as a main
key. -/
theorem ParseHotkey_single (uni : Char → Char) (name : String)
    (hal : name.data.all isLowerAlnum = true) (hne : name ≠ "") :
    ParseHotkey uni name = (keyCode name).map (fun c => (0, c)) := by
  obtain ⟨h1, h2⟩ := normalise_written uni ⟨0, name, 0⟩ name hal (spells_self _)
  have hraw : (Written.mk 0 name 0).raw = name.data := by simp [Written.raw]
  rw [hraw] at h1 h2
  unfold ParseHotkey
  simp only [hne, if_false, split_no_sep '+' name.data h2, List.map_cons, List.map_nil, h1,
    List.getLast?_singleton, Option.getD_some, List.dropLast_single, List.foldl_nil]
  cases keyCode name <;> rfl

set_option maxRecDepth 100000 in
theorem ParseHotkey_f0_f25 (uni : Char → Char) :
    ParseHotkey uni "f0" = none ∧ ParseHotkey uni "f25" = none := by
  have h0 : keyCode "f0" = none := by decide
  have h25 : keyCode "f25" = none := by decide
  constructor
  · rw [ParseHotkey_single uni "f0" (by decide) (by decide), h0]
    rfl
  · rw [ParseHotkey_single uni "f25" (by decide) (by decide), h25]
    rfl

/-- C14, the code at the failing input: the hotkey `ctlr+a`, whose modifier
token is a misspelt `ctrl`, is not rejected; `ParseHotkey` returns the key
`A` with an empty modifier mask, the result of the plain hotkey `a`, while
the same unknown token in the main-key position is an error and the right
spelling gives the mask 2. -/
theorem ParseHotkey_unknown_modifier (uni : Char → Char) :
    ParseHotkey uni "ctlr+a" = some (0, 65) ∧
    ParseHotkey uni "a" = some (0, 65) ∧
    ParseHotkey uni "a+ctlr" = none ∧
    ParseHotkey uni "ctrl+a" = some (2, 65) :=
  ⟨rfl, rfl, rfl, rfl⟩

/-- C15: a hotkey is written as modifier tokens and one main-key token joined
by `+`, each token being a name in any mix of upper and lower case with any
number of spaces on both sides. When every modifier token spells one of the
names `alt`/`menu` (bit 1), `ctrl`/`control` (2), `shift` (4),
`win`/`meta`/`super` (8) and the main-key token spells a main key of the
grammar (a letter, a digit, `fN` with `1 <= N <= 24`, `numpadN`, `numN`,
`kpN` with `N <= 9`, a named key such as `esc` or `pagedown`, a numeric-pad
operator such as `add`), then `ParseHotkey` returns the bitwise OR of the
modifiers' bits, which holds each bit exactly when one of the modifiers
carries it (so neither order nor repetition matters), together with the code
of the key: the upper-case ASCII code of a letter, the ASCII code of a digit,
`0x70 + N - 1` for `fN`, `0x60 + N` for the three spellings of the
numeric-pad digit `N`, which differs from the code `48 + N` of the top-row
digit, and the virtual-key code of a named key. A main-key token that spells
`f0` or `f25` is an error, alone and after any such modifiers. -/
theorem ParseHotkey_recognized (uni : Char → Char) (mods : List (Written × String × Nat))
    (key : Written) (name : String) (code : Nat)
    (hm : ∀ m ∈ mods, m.2 ∈ modifierBits ∧ spells m.1.text.data m.2.1.data = true)
    (hk : (name, code) ∈ recognizedKeys)
    (hs : spells key.text.data name.data = true) :
    ParseHotkey uni (hotkeyText (mods.map (·.1)) key) =
      some (orBits (mods.map (·.2.2)), code) ∧
    orBits (mods.map (·.2.2)) = maskOf (mods.map (·.2.2)) ∧
    ParseHotkey uni "f0" = none ∧ ParseHotkey uni "f25" = none ∧
    (∀ bad : Written,
      spells bad.text.data ['f', '0'] = true ∨ spells bad.text.data ['f', '2', '5'] = true →
      ParseHotkey uni (hotkeyText (mods.map (·.1)) bad) = none) ∧
    (∀ n, n ≤ 9 → ∀ p ∈ ["numpad", "num", "kp"],
      ParseHotkey uni ⟨p.data ++ numeral n⟩ = some (0, 0x60 + n) ∧
      ParseHotkey uni ⟨numeral n⟩ = some (0, 48 + n)) := by
  refine ⟨ParseHotkey_written uni mods key name code hm hk hs, ?_,
    (ParseHotkey_f0_f25 uni).1, (ParseHotkey_f0_f25 uni).2, ?_, ?_⟩
  · apply orBits_maskOf
    intro b hb
    obtain ⟨m, hmm, rfl⟩ := List.mem_map.mp hb
    exact (modifierBits_facts m.2 (hm m hmm).1).2
  · intro bad hbad
    have h0 : keyCode "f0" = none := by decide
    have h25 : keyCode "f25" = none := by decide
    rcases hbad with h | h
    · rw [ParseHotkey_tokens uni mods bad "f0" hm (by decide) (by decide) h, h0]
      rfl
    · rw [ParseHotkey_tokens uni mods bad "f25" hm (by decide) (by decide) h, h25]
      rfl
  · intro n hn p hp
    obtain ⟨h1, h2⟩ := numpad_in_table n (by omega) p hp
    exact ⟨ParseHotkey_plain uni _ _ h1, ParseHotkey_plain uni _ _ h2⟩

set_option maxRecDepth 100000 in
/-- C15, witness: the hotkey ` Ctrl+SHIFT + ctrl+F5 `, with mixed case,
spaces and a repeated modifier, gives the mask 6 and the code `0x74`; with
the main key ` Esc` the same modifiers give the mask 6 and the code `0x1B`,
and with the main key `F25 ` an error. -/
theorem ParseHotkey_recognized_witness :
    hotkeyText (sampleMods.map (·.1)) sampleKey = " Ctrl+SHIFT + ctrl+F5 " ∧
    orBits (sampleMods.map (·.2.2)) = 6 ∧
    ParseHotkey id (hotkeyText (sampleMods.map (·.1)) sampleKey) =
      some (orBits (sampleMods.map (·.2.2)), 0x74) ∧
    hotkeyText (sampleMods.map (·.1)) escKey = " Ctrl+SHIFT + ctrl+ Esc" ∧
    ParseHotkey id (hotkeyText (sampleMods.map (·.1)) escKey) =
      some (orBits (sampleMods.map (·.2.2)), 0x1B) ∧
    ParseHotkey id (hotkeyText (sampleMods.map (·.1)) f25Key) = none :=
  ⟨rfl, rfl,
   (ParseHotkey_recognized id sampleMods sampleKey "f5" 0x74
    (by decide) (by decide) (by decide)).1,
   rfl,
   (ParseHotkey_recognized id sampleMods escKey "esc" 0x1B
    (by decide) (by decide) (by decide)).1,
   (ParseHotkey_recognized id sampleMods escKey "esc" 0x1B
    (by decide) (by decide) (by decide)).2.2.2.2.1 f25Key (Or.inr (by decide))⟩

theorem and_pow_ne_zero (n i : Nat) : n &&& 2 ^ i ≠ 0 ↔ n.testBit i = true := by
  rw [Nat.and_two_pow]
  cases n.testBit i <;> simp

theorem modsMatch_bools : ∀ b0 b1 b2 b3 h0 h1 h2 h3 h4 : Bool,
    (if b0 = true ∧ h0 = false then false
      else if b1 = true ∧ h1 = false then false
      else if b2 = true ∧ h2 = false then false
      else if b3 = true ∧ (h3 || h4) = false then false
      else true) =
    ((!b0 || h0) && (!b1 || h1) && (!b2 || h2) && (!b3 || h3 || h4)) := by
  decide

theorem modsMatch_eq (held : Nat → Bool) (m : Nat) :
    modsMatch held m = requiredHeld held m := by
  have e0 : m &&& 0x0001 ≠ 0 ↔ m.testBit 0 = true := and_pow_ne_zero m 0
  have e1 : m &&& 0x0002 ≠ 0 ↔ m.testBit 1 = true := and_pow_ne_zero m 1
  have e2 : m &&& 0x0004 ≠ 0 ↔ m.testBit 2 = true := and_pow_ne_zero m 2
  have e3 : m &&& 0x0008 ≠ 0 ↔ m.testBit 3 = true := and_pow_ne_zero m 3
  unfold modsMatch requiredHeld
  simp only [e0, e1, e2, e3]
  exact modsMatch_bools _ _ _ _ _ _ _ _ _

theorem hotkeyMapGet_set (m : List (Nat × List taskSpec)) (k vk : Nat) (es : List taskSpec) :
    hotkeyMapGet (hotkeyMapSet m k es) vk = if k = vk then es else hotkeyMapGet m vk := by
  induction m with
  | nil => simp [hotkeyMapSet, hotkeyMapGet]
  | cons p rest ih =>
    obtain ⟨k', old⟩ := p
    by_cases h1 : k' = k
    · subst h1
      by_cases h2 : k' = vk <;> simp [hotkeyMapSet, hotkeyMapGet, h2]
    · by_cases h2 : k' = vk
      · subst h2
        have h3 : ¬ k = k' := fun e => h1 e.symm
        simp [hotkeyMapSet, hotkeyMapGet, h1, h3]
      · simp [hotkeyMapSet, hotkeyMapGet, h1, h2, ih]

theorem hotkeyMapGet_foldl (entries : List taskSpec) (m : List (Nat × List taskSpec))
    (vk : Nat) :
    hotkeyMapGet (entries.foldl
      (fun m e => hotkeyMapSet m e.vk (hotkeyMapGet m e.vk ++ [e])) m) vk =
    hotkeyMapGet m vk ++ entries.filter (fun e => e.vk == vk) := by
  induction entries generalizing m with
  | nil => simp
  | cons e rest ih =>
    simp only [List.foldl_cons]
    rw [ih, hotkeyMapGet_set]
    by_cases h : e.vk = vk
    · simp [h, List.filter_cons]
    · simp [h, List.filter_cons]

/-- The bindings stored under a main key are the bindings with that main key,
in the order of the entries. -/
theorem hotkeyMapGet_build (entries : List taskSpec) (vk : Nat) :
    hotkeyMapGet (buildHotkeyMap entries) vk = entries.filter (fun e => e.vk == vk) := by
  unfold buildHotkeyMap
  rw [hotkeyMapGet_foldl]
  rfl

/-- The binding found by the loop of the hook procedure is the first entry
with the main key whose modifiers are held. -/
theorem find_binding (entries : List taskSpec) (k : KeyEvent) :
    (hotkeyMapGet (buildHotkeyMap entries) k.VkCode).find? (fun e => modsMatch k.held e.mod) =
      entries.find? (fun b => b.vk == k.VkCode && requiredHeld k.held b.mod) := by
  rw [hotkeyMapGet_build, List.find?_filter]
  congr 1
  funext b
  rw [modsMatch_eq]
  cases (b.vk == k.VkCode) <;> cases requiredHeld k.held b.mod <;> rfl

theorem genuine_iff (k : KeyEvent) :
    k.genuine = true ↔ ¬ k.nCode < 0 ∧ ¬ (k.Flags &&& llkhfInjected ≠ 0) := by
  have e : k.Flags &&& llkhfInjected ≠ 0 ↔ k.Flags.testBit 4 = true := and_pow_ne_zero _ 4
  rw [e]
  unfold KeyEvent.genuine
  cases k.Flags.testBit 4 <;> simp

theorem isDown_iff (k : KeyEvent) :
    k.isDown = true ↔ (k.wParam % 2 ^ 32 = wmKeyDown ∨ k.wParam % 2 ^ 32 = wmSysKeyDown) := by
  simp [KeyEvent.isDown, wmKeyDown, wmSysKeyDown]

theorem isUp_iff (k : KeyEvent) :
    k.isUp = true ↔ (k.wParam % 2 ^ 32 = wmKeyUp ∨ k.wParam % 2 ^ 32 = wmSysKeyUp) := by
  simp [KeyEvent.isUp, wmKeyUp, wmSysKeyUp]

theorem isDown_not_up (k : KeyEvent) (h : k.isDown = true) : k.isUp = false := by
  unfold KeyEvent.isDown at h
  unfold KeyEvent.isUp
  generalize k.wParam % 2 ^ 32 = w at h ⊢
  simp only [Bool.or_eq_true, beq_iff_eq] at h
  simp only [Bool.or_eq_false_iff, beq_eq_false_iff_ne, ne_eq]
  omega

/-- The hook procedure on a genuine key-down for which the loop finds a
binding. -/
theorem proc_keyDown_some (s : platformService) (k : KeyEvent) (e : taskSpec)
    (hg : k.genuine = true) (hd : k.isDown = true)
    (hf : (hotkeyMapGet s.llHotkeyMap k.VkCode).find? (fun e => modsMatch k.held e.mod)
      = some e) :
    lowLevelKeyboardProc s k =
      { swallowed := true
        service := emitByID
          { s with llBlocked :=
              if k.VkCode ∈ s.llBlocked then s.llBlocked else k.VkCode :: s.llBlocked } e.id
        emitted := [e.id] } := by
  obtain ⟨h1, h2⟩ := (genuine_iff k).mp hg
  have h3 := (isDown_iff k).mp hd
  unfold lowLevelKeyboardProc
  simp only [h1, h2, if_false, h3, if_true, hf]

/-- The hook procedure on a genuine key-down for which the loop finds no
binding. -/
theorem proc_keyDown_none (s : platformService) (k : KeyEvent)
    (hg : k.genuine = true) (hd : k.isDown = true)
    (hf : (hotkeyMapGet s.llHotkeyMap k.VkCode).find? (fun e => modsMatch k.held e.mod)
      = none) :
    lowLevelKeyboardProc s k = { swallowed := false, service := s, emitted := [] } := by
  obtain ⟨h1, h2⟩ := (genuine_iff k).mp hg
  have h3 := (isDown_iff k).mp hd
  unfold lowLevelKeyboardProc
  simp only [h1, h2, if_false, h3, if_true, hf]

/-- The hook procedure on a genuine key-up. -/
theorem proc_keyUp (s : platformService) (k : KeyEvent)
    (hg : k.genuine = true) (hu : k.isUp = true) :
    lowLevelKeyboardProc s k =
      if k.VkCode ∈ s.llBlocked then
        { swallowed := true
          service := { s with llBlocked := s.llBlocked.filter (fun v => v ≠ k.VkCode) }
          emitted := [] }
      else { swallowed := false, service := s, emitted := [] } := by
  obtain ⟨h1, h2⟩ := (genuine_iff k).mp hg
  have h3 := (isUp_iff k).mp hu
  have h4 : ¬ (k.wParam % 2 ^ 32 = wmKeyDown ∨ k.wParam % 2 ^ 32 = wmSysKeyDown) := by
    intro h
    have := isDown_not_up k ((isDown_iff k).mpr h)
    rw [hu] at this
    exact absurd this (by decide)
  unfold lowLevelKeyboardProc
  simp only [h1, h2, if_false, h3, h4, if_true]

/-- The hook procedure on a call that is not genuine, or on a message that is
neither a key-down nor a key-up. -/
theorem proc_other (s : platformService) (k : KeyEvent)
    (h : k.genuine = false ∨ (k.isDown = false ∧ k.isUp = false)) :
    lowLevelKeyboardProc s k = { swallowed := false, service := s, emitted := [] } := by
  unfold lowLevelKeyboardProc
  by_cases h1 : k.nCode < 0
  · simp only [h1, if_true]
  · by_cases h2 : k.Flags &&& llkhfInjected ≠ 0
    · rw [if_neg h1, if_pos h2]
    · have hg : k.genuine = true := (genuine_iff k).mpr ⟨h1, h2⟩
      rcases h with h | ⟨h3, h4⟩
      · rw [hg] at h
        exact absurd h (by decide)
      · have h5 : ¬ (k.wParam % 2 ^ 32 = wmKeyDown ∨ k.wParam % 2 ^ 32 = wmSysKeyDown) :=
          fun e => by rw [(isDown_iff k).mpr e] at h3; exact absurd h3 (by decide)
        have h6 : ¬ (k.wParam % 2 ^ 32 = wmKeyUp ∨ k.wParam % 2 ^ 32 = wmSysKeyUp) :=
          fun e => by rw [(isUp_iff k).mpr e] at h4; exact absurd h4 (by decide)
        simp only [h1, h2, if_false, h5, h6]

theorem emitByID_fields (s : platformService) (id : Int) :
    (emitByID s id).llBlocked = s.llBlocked ∧ (emitByID s id).llHotkeyMap = s.llHotkeyMap ∧
    (emitByID s id).stopCh = s.stopCh ∧
    (emitByID s id).events =
      if s.events.length < 32 then
        s.events ++ [if id = stopHotkeyID then Event.stop else Event.task id]
      else s.events := by
  unfold emitByID
  by_cases h : s.events.length < 32 <;> simp [h]

theorem bindingMatches_iff (entries : List taskSpec) (k : KeyEvent) :
    bindingMatches entries k = true ↔
      ∃ b ∈ entries, b.vk = k.VkCode ∧ requiredHeld k.held b.mod = true := by
  simp [bindingMatches, List.any_eq_true]

theorem find_none_iff (entries : List taskSpec) (k : KeyEvent) :
    entries.find? (fun b => b.vk == k.VkCode && requiredHeld k.held b.mod) = none ↔
      bindingMatches entries k = false := by
  rw [List.find?_eq_none, ← Bool.not_eq_true, bindingMatches_iff]
  constructor
  · rintro h ⟨b, hb, h1, h2⟩
    exact h b hb (by simp [h1, h2])
  · intro h b hb hp
    simp only [Bool.and_eq_true, beq_iff_eq] at hp
    exact h ⟨b, hb, hp.1, hp.2⟩

/-- Whether a call of the hook procedure swallows the event. -/
theorem proc_swallowed (entries : List taskSpec) (s : platformService) (k : KeyEvent)
    (hmap : s.llHotkeyMap = buildHotkeyMap entries) :
    (lowLevelKeyboardProc s k).swallowed =
      (k.genuine && ((k.isDown && bindingMatches entries k) ||
        (k.isUp && decide (k.VkCode ∈ s.llBlocked)))) := by
  cases hg : k.genuine with
  | false => rw [proc_other s k (Or.inl hg)]; rfl
  | true =>
    cases hd : k.isDown with
    | true =>
      have hu := isDown_not_up k hd
      cases hf : entries.find? (fun b => b.vk == k.VkCode && requiredHeld k.held b.mod) with
      | none =>
        rw [proc_keyDown_none s k hg hd (by rw [hmap, find_binding, hf]),
          (find_none_iff entries k).mp hf, hu]
        rfl
      | some b =>
        have hm : bindingMatches entries k = true := by
          cases h : bindingMatches entries k with
          | true => rfl
          | false => rw [(find_none_iff entries k).mpr h] at hf; exact absurd hf (by simp)
        rw [proc_keyDown_some s k b hg hd (by rw [hmap, find_binding, hf]), hm]
        rfl
    | false =>
      cases hu : k.isUp with
      | false => rw [proc_other s k (Or.inr ⟨hd, hu⟩)]; rfl
      | true =>
        rw [proc_keyUp s k hg hu]
        by_cases hb : k.VkCode ∈ s.llBlocked <;> simp [hb]

/-- The suppressed keys after a call of the hook procedure. -/
theorem proc_blocked (entries : List taskSpec) (s : platformService) (k : KeyEvent)
    (hmap : s.llHotkeyMap = buildHotkeyMap entries) (v : Nat) :
    v ∈ (lowLevelKeyboardProc s k).service.llBlocked ↔
      if (k.genuine && k.isDown && bindingMatches entries k) = true then
        v = k.VkCode ∨ v ∈ s.llBlocked
      else if (k.genuine && k.isUp) = true then v ≠ k.VkCode ∧ v ∈ s.llBlocked
      else v ∈ s.llBlocked := by
  cases hg : k.genuine with
  | false => rw [proc_other s k (Or.inl hg)]; simp
  | true =>
    cases hd : k.isDown with
    | true =>
      have hu := isDown_not_up k hd
      cases hf : entries.find? (fun b => b.vk == k.VkCode && requiredHeld k.held b.mod) with
      | none =>
        rw [proc_keyDown_none s k hg hd (by rw [hmap, find_binding, hf]),
          (find_none_iff entries k).mp hf, hu]
        simp
      | some b =>
        have hm : bindingMatches entries k = true := by
          cases h : bindingMatches entries k with
          | true => rfl
          | false => rw [(find_none_iff entries k).mpr h] at hf; exact absurd hf (by simp)
        rw [proc_keyDown_some s k b hg hd (by rw [hmap, find_binding, hf]), hm,
          (emitByID_fields _ _).1]
        by_cases hb : k.VkCode ∈ s.llBlocked
        · simp only [hb, if_true, Bool.and_self]
          constructor
          · exact fun h => Or.inr h
          · rintro (h | h)
            · rw [h]; exact hb
            · exact h
        · simp [hb]
    | false =>
      cases hu : k.isUp with
      | false => rw [proc_other s k (Or.inr ⟨hd, hu⟩)]; simp
      | true =>
        rw [proc_keyUp s k hg hu]
        by_cases hb : k.VkCode ∈ s.llBlocked
        · simp [hb, List.mem_filter, and_comm]
        · simp only [hb, if_false, Bool.and_false, Bool.and_self, Bool.false_eq_true, if_true]
          constructor
          · exact fun h => ⟨fun e => hb (e ▸ h), h⟩
          · exact fun h => h.2

/-- The map of the bindings does not change after the hook is installed. -/
theorem proc_map (s : platformService) (k : KeyEvent) :
    (lowLevelKeyboardProc s k).service.llHotkeyMap = s.llHotkeyMap := by
  unfold lowLevelKeyboardProc
  split
  · rfl
  · split
    · rfl
    · simp only []
      split
      · split
        · exact (emitByID_fields _ _).2.1
        · rfl
      · split
        · split <;> rfl
        · rfl

theorem hookRun_map (acts : List HookAction) (s : platformService) :
    (hookRun s acts).llHotkeyMap = s.llHotkeyMap := by
  induction acts generalizing s with
  | nil => rfl
  | cons a rest ih =>
    simp only [hookRun, List.foldl_cons] at ih ⊢
    rw [ih]
    cases a with
    | key k => exact proc_map s k
    | dispatch => rfl

theorem hookStep_blocked (entries : List taskSpec) (s : platformService) (a : HookAction)
    (hmap : s.llHotkeyMap = buildHotkeyMap entries) (v : Nat) :
    (a.keepsDown v = true → v ∈ s.llBlocked → v ∈ (hookStep s a).llBlocked) ∧
    (a.leavesAlone entries v = true → v ∉ s.llBlocked → v ∉ (hookStep s a).llBlocked) := by
  cases a with
  | dispatch => exact ⟨fun _ h => h, fun _ h => h⟩
  | key k =>
    simp only [hookStep, HookAction.keepsDown, HookAction.leavesAlone]
    rw [proc_blocked entries s k hmap v]
    refine ⟨?_, ?_⟩
    · intro h hv
      split
      · exact Or.inr hv
      · split
        · rename_i h2
          simp only [Bool.and_eq_true] at h2
          refine ⟨fun e => ?_, hv⟩
          simp [h2.1, h2.2, e] at h
        · exact hv
    · intro h hv
      split
      · rename_i h1
        simp only [Bool.and_eq_true] at h1
        rintro (e | e)
        · simp [h1.1.1, h1.1.2, h1.2, e] at h
        · exact hv e
      · split
        · exact fun e => hv e.2
        · exact hv

theorem hookRun_keepsDown (entries : List taskSpec) (v : Nat) (acts : List HookAction)
    (s : platformService) (hmap : s.llHotkeyMap = buildHotkeyMap entries)
    (ha : ∀ a ∈ acts, a.keepsDown v = true) (hv : v ∈ s.llBlocked) :
    v ∈ (hookRun s acts).llBlocked := by
  induction acts generalizing s with
  | nil => exact hv
  | cons a rest ih =>
    simp only [hookRun, List.foldl_cons]
    have hm : (hookStep s a).llHotkeyMap = buildHotkeyMap entries := by
      rw [← hmap]
      exact hookRun_map [a] s
    exact ih (hookStep s a) hm (fun x hx => ha x (List.mem_cons_of_mem _ hx))
      ((hookStep_blocked entries s a hmap v).1 (ha a (by simp)) hv)

theorem hookRun_leavesAlone (entries : List taskSpec) (v : Nat) (acts : List HookAction)
    (s : platformService) (hmap : s.llHotkeyMap = buildHotkeyMap entries)
    (ha : ∀ a ∈ acts, a.leavesAlone entries v = true) (hv : v ∉ s.llBlocked) :
    v ∉ (hookRun s acts).llBlocked := by
  induction acts generalizing s with
  | nil => exact hv
  | cons a rest ih =>
    simp only [hookRun, List.foldl_cons]
    have hm : (hookStep s a).llHotkeyMap = buildHotkeyMap entries := by
      rw [← hmap]
      exact hookRun_map [a] s
    exact ih (hookStep s a) hm (fun x hx => ha x (List.mem_cons_of_mem _ hx))
      ((hookStep_blocked entries s a hmap v).2 (ha a (by simp)) hv)

/-- Every suppressed key of a state reached from the installation of the hook
is the main key of a binding. -/
theorem hookRun_bound (entries : List taskSpec) (acts : List HookAction)
    (s : platformService) (hmap : s.llHotkeyMap = buildHotkeyMap entries)
    (hs : ∀ w ∈ s.llBlocked, ∃ b ∈ entries, b.vk = w) :
    ∀ w ∈ (hookRun s acts).llBlocked, ∃ b ∈ entries, b.vk = w := by
  induction acts generalizing s with
  | nil => exact hs
  | cons a rest ih =>
    simp only [hookRun, List.foldl_cons]
    have hm : (hookStep s a).llHotkeyMap = buildHotkeyMap entries := by
      rw [← hmap]
      exact hookRun_map [a] s
    apply ih (hookStep s a) hm
    intro w hw
    cases a with
    | dispatch => exact hs w hw
    | key k =>
      simp only [hookStep] at hw
      rw [proc_blocked entries s k hmap w] at hw
      split at hw
      · rename_i h1
        simp only [Bool.and_eq_true] at h1
        rcases hw with e | e
        · obtain ⟨b, hb, h2, -⟩ := (bindingMatches_iff entries k).mp h1.2
          exact ⟨b, hb, by rw [h2, e]⟩
        · exact hs w e
      · split at hw
        · exact hs w hw.2
        · exact hs w hw

/-- C22, the code at the failing input: whatever the state of the service,
two calls of `platformService.Close` in a row end in the run-time panic
`close of closed channel`: the first call closes `stopCh` (or panics when it
is closed already), the second closes it again. For the fresh service the
first call succeeds and the second one panics. `App.Close`, which guards the
same `close` with its `closed` flag, is idempotent. -/
theorem platformService_Close_twice (s : platformService) :
    s.Close.bind platformService.Close = .error .closeOfClosedChannel ∧
    newPlatformService.Close = .ok { newPlatformService with stopCh := true } ∧
    platformService.Close { newPlatformService with stopCh := true } =
      .error .closeOfClosedChannel ∧
    (∀ a : App, Close (Close a) = Close a) := by
  refine ⟨?_, rfl, rfl, ?_⟩
  · cases h : s.stopCh with
    | true => simp [platformService.Close, h, Except.bind]
    | false => simp [platformService.Close, h, Except.bind]
  · intro a
    cases hc : a.closed with
    | true => simp [Close, hc]
    | false =>
      cases hcc : a.currentCancel <;> simp [Close, hc, hcc]

/-- C23: in interception mode, with the bindings `entries` installed, take a
call of the hook procedure that is to be processed (`nCode >= 0`), is not
injected and is a key-down of the key `v`. It is swallowed if and only if
some binding with the main key `v` has every modifier it requires held (Alt,
Ctrl, Shift, either Win key; modifiers it does not require are not looked
at). In that case `v` is suppressed afterwards and the suppression of the
other keys is unchanged, and `emitByID` is called exactly once, with the id of
the first such binding in the order of the entries, which sends the stop event
for the stop binding and the task event of the id otherwise when fewer than 32
events are pending and sends nothing when 32 are. Otherwise the event is
passed on and the state of the service is unchanged. -/
theorem keyDown_interception (entries : List taskSpec) (s : platformService) (k : KeyEvent)
    (hmap : s.llHotkeyMap = buildHotkeyMap entries)
    (hg : k.genuine = true) (hd : k.isDown = true) :
    ((lowLevelKeyboardProc s k).swallowed = true ↔
      ∃ b ∈ entries, b.vk = k.VkCode ∧ requiredHeld k.held b.mod = true) ∧
    (∀ b, entries.find? (fun b => b.vk == k.VkCode && requiredHeld k.held b.mod) = some b →
      (lowLevelKeyboardProc s k).swallowed = true ∧
      (lowLevelKeyboardProc s k).emitted = [b.id] ∧
      (lowLevelKeyboardProc s k).service.events =
        (if s.events.length < 32 then s.events ++ [eventOf b] else s.events) ∧
      (∀ v, v ∈ (lowLevelKeyboardProc s k).service.llBlocked ↔
        v = k.VkCode ∨ v ∈ s.llBlocked)) ∧
    ((lowLevelKeyboardProc s k).swallowed = false →
      (lowLevelKeyboardProc s k).service = s ∧ (lowLevelKeyboardProc s k).emitted = []) := by
  have hu := isDown_not_up k hd
  have hsw := proc_swallowed entries s k hmap
  simp only [hg, hd, hu, Bool.true_and, Bool.false_and, Bool.or_false] at hsw
  refine ⟨?_, ?_, ?_⟩
  · rw [hsw, bindingMatches_iff]
  · intro b hb
    have hm : bindingMatches entries k = true := by
      cases h : bindingMatches entries k with
      | true => rfl
      | false => rw [(find_none_iff entries k).mpr h] at hb; exact absurd hb (by simp)
    have hp := proc_keyDown_some s k b hg hd (by rw [hmap, find_binding, hb])
    refine ⟨by rw [hsw, hm], by rw [hp], ?_, ?_⟩
    · rw [hp]
      exact (emitByID_fields _ _).2.2.2
    · intro v
      rw [proc_blocked entries s k hmap v]
      simp [hg, hd, hm]
  · intro h
    rw [hsw] at h
    rw [proc_keyDown_none s k hg hd
      (by rw [hmap, find_binding]; exact (find_none_iff entries k).mpr h)]
    exact ⟨rfl, rfl⟩

/-- C23, witness: with the sample bindings, a key-down of F1 with Ctrl and
Shift held is swallowed for the first binding of F1 (task 1 on Ctrl+F1). -/
theorem keyDown_interception_witness :
    (lowLevelKeyboardProc sampleService ctrlShiftF1Down).swallowed = true ∧
    (lowLevelKeyboardProc sampleService ctrlShiftF1Down).emitted = [1] ∧
    (lowLevelKeyboardProc sampleService ctrlShiftF1Down).service.events = [Event.task 1] ∧
    (lowLevelKeyboardProc sampleService ctrlADown).swallowed = false :=
  have h := keyDown_interception sampleEntries sampleService ctrlShiftF1Down rfl
    (by decide) (by decide)
  have h1 := h.2.1 { id := 1, mod := 2, vk := 0x70 } (by decide)
  ⟨h1.1, h1.2.1, h1.2.2.1, by decide⟩

/-- C24: in interception mode, a call of the hook procedure that is to be
processed, is not injected and is a key-up of the key `v` is swallowed if and
only if `v` is suppressed; after it `v` is not suppressed, the suppression of
the other keys and the pending events are unchanged and nothing is emitted.
Hence, after a swallowed key-down of `v`, the first key-up of `v` that follows
is swallowed, and the next key-up of `v` is passed on when no key-down of `v`
that matches a binding comes between the two. -/
theorem keyUp_interception (entries : List taskSpec) (s : platformService) (v : Nat)
    (kd ku1 ku2 : KeyEvent) (mid1 mid2 : List HookAction)
    (hmap : s.llHotkeyMap = buildHotkeyMap entries)
    (hkd : kd.genuine = true ∧ kd.isDown = true ∧ kd.VkCode = v)
    (hsw : (lowLevelKeyboardProc s kd).swallowed = true)
    (hm1 : ∀ a ∈ mid1, a.keepsDown v = true)
    (hu1 : ku1.genuine = true ∧ ku1.isUp = true ∧ ku1.VkCode = v)
    (hm2 : ∀ a ∈ mid2, a.leavesAlone entries v = true)
    (hu2 : ku2.genuine = true ∧ ku2.isUp = true ∧ ku2.VkCode = v) :
    (∀ (t : platformService) (k : KeyEvent), k.genuine = true → k.isUp = true →
      ((lowLevelKeyboardProc t k).swallowed = true ↔ k.VkCode ∈ t.llBlocked) ∧
      k.VkCode ∉ (lowLevelKeyboardProc t k).service.llBlocked ∧
      (∀ w, w ≠ k.VkCode →
        (w ∈ (lowLevelKeyboardProc t k).service.llBlocked ↔ w ∈ t.llBlocked)) ∧
      (lowLevelKeyboardProc t k).service.events = t.events ∧
      (lowLevelKeyboardProc t k).emitted = []) ∧
    (lowLevelKeyboardProc (hookRun s (.key kd :: mid1)) ku1).swallowed = true ∧
    (lowLevelKeyboardProc
      (hookRun s (.key kd :: mid1 ++ .key ku1 :: mid2)) ku2).swallowed = false := by
  have hstep : ∀ (t : platformService) (k : KeyEvent), k.genuine = true → k.isUp = true →
      ((lowLevelKeyboardProc t k).swallowed = true ↔ k.VkCode ∈ t.llBlocked) ∧
      k.VkCode ∉ (lowLevelKeyboardProc t k).service.llBlocked ∧
      (∀ w, w ≠ k.VkCode →
        (w ∈ (lowLevelKeyboardProc t k).service.llBlocked ↔ w ∈ t.llBlocked)) ∧
      (lowLevelKeyboardProc t k).service.events = t.events ∧
      (lowLevelKeyboardProc t k).emitted = [] := by
    intro t k hg hu
    rw [proc_keyUp t k hg hu]
    by_cases hb : k.VkCode ∈ t.llBlocked
    · rw [if_pos hb]
      exact ⟨by simp [hb], by simp [List.mem_filter],
        fun w hw => by simp [List.mem_filter, hw], rfl, rfl⟩
    · rw [if_neg hb]
      exact ⟨by simp [hb], hb, fun _ _ => Iff.rfl, rfl, rfl⟩
  have map1 : (hookRun s (.key kd :: mid1)).llHotkeyMap = buildHotkeyMap entries := by
    rw [hookRun_map, hmap]
  have in1 : v ∈ (hookRun s (.key kd :: mid1)).llBlocked := by
    have e : hookRun s (.key kd :: mid1) = hookRun (hookStep s (.key kd)) mid1 := rfl
    rw [e]
    apply hookRun_keepsDown entries v mid1 _
      (by show (lowLevelKeyboardProc s kd).service.llHotkeyMap = _; rw [proc_map, hmap]) hm1
    have hup := isDown_not_up kd hkd.2.1
    have hs := proc_swallowed entries s kd hmap
    rw [hsw] at hs
    simp only [hkd.1, hkd.2.1, hup, Bool.true_and, Bool.false_and, Bool.or_false] at hs
    simp only [hookStep]
    rw [proc_blocked entries s kd hmap v]
    simp [hkd.1, hkd.2.1, ← hs, hkd.2.2]
  have sw1 : (lowLevelKeyboardProc (hookRun s (.key kd :: mid1)) ku1).swallowed = true := by
    rw [(hstep _ ku1 hu1.1 hu1.2.1).1, hu1.2.2]
    exact in1
  refine ⟨hstep, sw1, ?_⟩
  have e2 : hookRun s (.key kd :: mid1 ++ .key ku1 :: mid2) =
      hookRun (hookStep (hookRun s (.key kd :: mid1)) (.key ku1)) mid2 := by
    simp [hookRun, List.foldl_append]
  have out2 : v ∉ (hookRun s (.key kd :: mid1 ++ .key ku1 :: mid2)).llBlocked := by
    rw [e2]
    apply hookRun_leavesAlone entries v mid2 _
      (by show (lowLevelKeyboardProc _ ku1).service.llHotkeyMap = _; rw [proc_map, map1]) hm2
    have := (hstep (hookRun s (.key kd :: mid1)) ku1 hu1.1 hu1.2.1).2.1
    rw [hu1.2.2] at this
    exact this
  cases h : (lowLevelKeyboardProc
      (hookRun s (.key kd :: mid1 ++ .key ku1 :: mid2)) ku2).swallowed with
  | false => rfl
  | true =>
    have := (hstep _ ku2 hu2.1 hu2.2.1).1.mp h
    rw [hu2.2.2] at this
    exact absurd this out2

/-- C24, witness: F1 is pressed with Ctrl and Shift held, an event is
dispatched, the letter A is pressed, F1 is released (swallowed), an injected
key-down of F1 arrives, F1 is released again (passed on). -/
theorem keyUp_interception_witness :
    (lowLevelKeyboardProc
      (hookRun sampleService [.key ctrlShiftF1Down, .dispatch, .key ctrlADown]) f1Up).swallowed
      = true ∧
    (lowLevelKeyboardProc
      (hookRun sampleService
        (.key ctrlShiftF1Down :: [.dispatch, .key ctrlADown] ++
          .key f1Up :: [.key injectedF1Down])) f1Up).swallowed = false :=
  (keyUp_interception sampleEntries sampleService 0x70 ctrlShiftF1Down f1Up f1Up
    [.dispatch, .key ctrlADown] [.key injectedF1Down] rfl (by decide) (by decide)
    (by decide) (by decide) (by decide) (by decide)).2

/-- C25: a call of the hook procedure whose event carries the injected flag
(bit 4 of `Flags`), whatever the message, the key, the keys held, the bindings
and the suppressed keys, is passed on, emits nothing and leaves the state of
the service, with its suppressed keys and its pending events, as it was. -/
theorem injected_ignored (s : platformService) (k : KeyEvent)
    (hinj : k.Flags.testBit 4 = true) :
    (lowLevelKeyboardProc s k).swallowed = false ∧
    (lowLevelKeyboardProc s k).emitted = [] ∧
    (lowLevelKeyboardProc s k).service = s := by
  have hg : k.genuine = false := by simp [KeyEvent.genuine, hinj]
  rw [proc_other s k (Or.inl hg)]
  exact ⟨rfl, rfl, rfl⟩

/-- C25, witness: while F1 is suppressed, an injected key-down of F1 with Ctrl
held, which matches the binding of task 1, is passed on. -/
theorem injected_ignored_witness :
    (0x70 : Nat) ∈ (hookRun sampleService [.key ctrlShiftF1Down]).llBlocked ∧
    (lowLevelKeyboardProc (hookRun sampleService [.key ctrlShiftF1Down])
      injectedF1Down).swallowed = false ∧
    (lowLevelKeyboardProc (hookRun sampleService [.key ctrlShiftF1Down])
      injectedF1Down).emitted = [] ∧
    (lowLevelKeyboardProc (hookRun sampleService [.key ctrlShiftF1Down])
      injectedF1Down).service = hookRun sampleService [.key ctrlShiftF1Down] :=
  ⟨by decide, injected_ignored _ injectedF1Down (by decide)⟩

/-- C26: in every state reached from the installation of the hook with the
bindings `entries` by any sequence of calls of the hook procedure and receives
of the dispatcher, every suppressed key is the main key of some binding; and
a call of the hook procedure for a key that is not the main key of any
binding, key-down or key-up or any other message, is passed on, emits nothing
and leaves the state unchanged. -/
theorem typing_preserved (entries : List taskSpec) (acts : List HookAction) (k : KeyEvent) :
    (∀ v ∈ (hookRun (startLowLevelHook newPlatformService entries) acts).llBlocked,
      ∃ b ∈ entries, b.vk = v) ∧
    ((∀ b ∈ entries, b.vk ≠ k.VkCode) →
      (lowLevelKeyboardProc
        (hookRun (startLowLevelHook newPlatformService entries) acts) k).swallowed = false ∧
      (lowLevelKeyboardProc
        (hookRun (startLowLevelHook newPlatformService entries) acts) k).emitted = [] ∧
      (lowLevelKeyboardProc
        (hookRun (startLowLevelHook newPlatformService entries) acts) k).service =
        hookRun (startLowLevelHook newPlatformService entries) acts) := by
  have hinv := hookRun_bound entries acts (startLowLevelHook newPlatformService entries) rfl
    (by intro w hw; simp [startLowLevelHook, newPlatformService] at hw)
  have hmap : (hookRun (startLowLevelHook newPlatformService entries) acts).llHotkeyMap =
      buildHotkeyMap entries := by rw [hookRun_map]; rfl
  refine ⟨hinv, fun hk => ?_⟩
  have hnb : k.VkCode ∉
      (hookRun (startLowLevelHook newPlatformService entries) acts).llBlocked := by
    intro h
    obtain ⟨b, hb, e⟩ := hinv _ h
    exact hk b hb e
  have hnm : bindingMatches entries k = false := by
    cases h : bindingMatches entries k with
    | false => rfl
    | true =>
      obtain ⟨b, hb, e, -⟩ := (bindingMatches_iff entries k).mp h
      exact absurd e (hk b hb)
  cases hg : k.genuine with
  | false => rw [proc_other _ k (Or.inl hg)]; exact ⟨rfl, rfl, rfl⟩
  | true =>
    cases hd : k.isDown with
    | true =>
      rw [proc_keyDown_none _ k hg hd
        (by rw [hmap, find_binding]; exact (find_none_iff entries k).mpr hnm)]
      exact ⟨rfl, rfl, rfl⟩
    | false =>
      cases hu : k.isUp with
      | false => rw [proc_other _ k (Or.inr ⟨hd, hu⟩)]; exact ⟨rfl, rfl, rfl⟩
      | true =>
        rw [proc_keyUp _ k hg hu, if_neg hnb]
        exact ⟨rfl, rfl, rfl⟩

/-- C26, witness: after F1 was pressed with Ctrl and Shift held, the letter
A, which no sample binding has as its main key, is passed on with Ctrl
held. -/
theorem typing_preserved_witness :
    (lowLevelKeyboardProc
      (hookRun (startLowLevelHook newPlatformService sampleEntries) [.key ctrlShiftF1Down])
      ctrlADown).swallowed = false :=
  ((typing_preserved sampleEntries [.key ctrlShiftF1Down] ctrlADown).2 (by decide)).1

theorem Config_mk_ite (b : Prop) [Decidable b]
    (x1 y1 x2 y2 x3 y3 : String) (x4 y4 : F64) (x5 y5 : Int) (x6 y6 x7 y7 : String)
    (x8 y8 x9 y9 : Int) (x10 y10 : F64) (x11 y11 x12 y12 : Bool) (x13 y13 : Int)
    (x14 y14 : Bool) (x15 y15 : String) (x16 y16 : List HotKeyEntry) (x17 y17 x18 y18 : Bool) :
    (if b then Config.mk x1 x2 x3 x4 x5 x6 x7 x8 x9 x10 x11 x12 x13 x14 x15 x16 x17 x18
      else Config.mk y1 y2 y3 y4 y5 y6 y7 y8 y9 y10 y11 y12 y13 y14 y15 y16 y17 y18) =
    Config.mk (if b then x1 else y1) (if b then x2 else y2) (if b then x3 else y3)
      (if b then x4 else y4) (if b then x5 else y5) (if b then x6 else y6)
      (if b then x7 else y7) (if b then x8 else y8) (if b then x9 else y9)
      (if b then x10 else y10) (if b then x11 else y11) (if b then x12 else y12)
      (if b then x13 else y13) (if b then x14 else y14) (if b then x15 else y15)
      (if b then x16 else y16) (if b then x17 else y17) (if b then x18 else y18) := by
  split <;> rfl

/-- The sequence of assignments of `ApplyCLI` gives the configuration described
field by field. -/
theorem ApplyCLI_eq (c : Config) (o : CLIOptions) : ApplyCLI c o = overridden c o := by
  cases c
  simp only [ApplyCLI, overridden, Config_mk_ite, ite_self]

/-- C28: `ApplyCLI` returns the configuration in which every field whose flag
was given on the command line holds the value of the flag, whatever that value
is (false, zero and empty included), and every other field, the task list
`HotKeyConfig` among them, holds the loaded value; flags that name no field
(`config`, `h`) change nothing. For the flags `-verify-ssl=false -max-retry=0
-model=` the three fields become false, zero and empty. -/
theorem ApplyCLI_overrides (c : Config) (o : CLIOptions) :
    ApplyCLI c o = overridden c o ∧
    (ApplyCLI c o).HotKeyConfig = c.HotKeyConfig ∧
    ApplyCLI c { o with set := [] } = c ∧
    ApplyCLI loadedConfig zeroFlags =
      { loadedConfig with VerifySSL := false, MaxRetry := 0, Model := "" } := by
  refine ⟨ApplyCLI_eq c o, ?_, ?_, by decide⟩
  · rw [ApplyCLI_eq]
    rfl
  · rw [ApplyCLI_eq]
    rfl

theorem step_queue_bound (s : App) (act : Action) (h : s.eventCh.length ≤ 64) :
    (step s act).eventCh.length ≤ 64 := by
  cases act with
  | enqueue id =>
    simp only [step, EnqueueTask]
    split
    · exact h
    · split
      · simp only [List.length_append, List.length_singleton]
        omega
      · exact h
  | stopCancel =>
    simp only [step, stopCancel]
    split <;> exact h
  | stopDrain =>
    simp only [step, stopDrain, List.length_tail]
    omega
  | close =>
    simp only [step, Close]
    split
    · exact h
    · split <;> exact h
  | receive =>
    simp only [step, workerMove]
    split
    · rename_i h1 h2
      rw [h2] at h
      simp only [List.length_cons] at h ⊢
      omega
    · exact h
  | register =>
    simp only [step, workerMove]
    split <;> exact h
  | finish env =>
    simp only [step, workerMove]
    split <;> exact h
  | exit =>
    simp only [step, workerMove]
    split
    · split <;> exact h
    · exact h

theorem run_queue_bound (acts : List Action) (s : App) (h : s.eventCh.length ≤ 64) :
    (run s acts).eventCh.length ≤ 64 := by
  induction acts generalizing s with
  | nil => exact h
  | cons act rest ih =>
    simp only [run, List.foldl_cons]
    exact ih (step s act) (step_queue_bound s act h)

/-- C29: `EnqueueTask` appends the id at the tail of the pending queue, and
changes nothing else, when `Close` has not been called and fewer than 64 ids
are pending; it leaves the state unchanged when 64 ids are pending and when
`Close` has been called. So in every run from the start the pending queue
never holds more than 64 ids, the worker receives the oldest pending id, and
the ids the worker has taken followed by the pending ones are, in that order,
ids of the `EnqueueTask` calls in the order of the calls. -/
theorem EnqueueTask_bounded_fifo (a : App) (id : Int) (cfg : Config)
    (ge : List (String × Value)) (acts : List Action) :
    (a.closed = false → a.eventCh.length < 64 →
      EnqueueTask a id = { a with eventCh := a.eventCh ++ [id] }) ∧
    (a.eventCh.length = 64 → EnqueueTask a id = a) ∧
    (a.closed = true → EnqueueTask a id = a) ∧
    (run (App.start cfg ge) acts).eventCh.length ≤ 64 ∧
    (∀ first rest, a.worker = .idle → a.eventCh = first :: rest →
      (step a .receive).eventCh = rest ∧
      startedIds (step a .receive).log = startedIds a.log ++ [first]) ∧
    (startedIds (run (App.start cfg ge) acts).log ++
      (run (App.start cfg ge) acts).eventCh).Sublist (enqueuedIds acts) := by
  refine ⟨?_, ?_, ?_, ?_, ?_, ?_⟩
  · intro h1 h2
    simp [EnqueueTask, h1, h2]
  · intro h
    have h2 : ¬ a.eventCh.length < 64 := by omega
    simp [EnqueueTask, h2]
  · intro h
    simp [EnqueueTask, h]
  · exact run_queue_bound acts _ (by simp [App.start])
  · intro first rest hw hq
    simp [step, workerMove, hw, hq, startedIds_append, startedIds]
  · obtain ⟨l, h1, h2⟩ := run_started acts (App.start cfg ge)
    rw [h1]
    simpa [App.start, startedIds] using h2

/-- C29, witness: a closed orchestrator drops the id, an open one with an
empty queue keeps it, and the idle worker receives it. -/
theorem EnqueueTask_bounded_fifo_witness :
    EnqueueTask (App.start notifyConfig []) 7 =
      { App.start notifyConfig [] with eventCh := [7] } ∧
    EnqueueTask (Close (App.start notifyConfig [])) 7 = Close (App.start notifyConfig []) ∧
    (step (EnqueueTask (App.start notifyConfig []) 7) .receive).eventCh = [] :=
  have h := EnqueueTask_bounded_fifo (App.start notifyConfig []) 7 notifyConfig [] []
  have h2 := EnqueueTask_bounded_fifo (Close (App.start notifyConfig [])) 7 notifyConfig [] []
  have h3 := EnqueueTask_bounded_fifo (EnqueueTask (App.start notifyConfig []) 7) 7
    notifyConfig [] []
  ⟨h.1 rfl (by decide), h2.2.2.1 rfl, (h3.2.2.2.2.1 7 [] rfl rfl).1⟩

theorem blankExtraAt_length (n : Nat) (l : List HotKeyEntry) :
    (blankExtraAt n l).length = l.length := by
  induction l generalizing n with
  | nil => cases n <;> rfl
  | cons e rest ih =>
    cases n with
    | zero => rfl
    | succ n => simp [blankExtraAt, ih]

theorem blankExtraAt_get (n : Nat) (l : List HotKeyEntry) (e : HotKeyEntry)
    (h : l.get? n = some e) :
    (blankExtraAt n l).get? n = some { e with ExtraConfig := "" } := by
  induction l generalizing n with
  | nil => simp at h
  | cons x rest ih =>
    cases n with
    | zero =>
      simp only [List.get?_cons_zero, Option.some.injEq] at h
      simp [blankExtraAt, h]
    | succ n =>
      simp only [List.get?_cons_succ] at h
      simp only [blankExtraAt, List.get?_cons_succ]
      exact ih n h

theorem ParseExtraConfig_empty (unmarshal : String → Option Value) :
    ParseExtraConfig unmarshal "" = some [] := by
  simp [ParseExtraConfig, TrimSpace_empty]

/-- The part of a job before the dispatch, for a task whose extra-field string
does not parse, is the one of the same task with no extra-field string. -/
theorem prepareJob_malformed (cfg : Config) (ge : List (String × Value)) (env : JobEnv)
    (id : Int) (entry : HotKeyEntry)
    (he : cfg.HotKeyConfig.get? (id - 1).toNat = some entry)
    (hbad : ParseExtraConfig env.unmarshal entry.ExtraConfig = none) :
    prepareJob cfg ge env id = prepareJob (withoutExtra cfg id) ge env id := by
  have hlen : (withoutExtra cfg id).HotKeyConfig.length = cfg.HotKeyConfig.length :=
    blankExtraAt_length _ _
  have hget : (withoutExtra cfg id).HotKeyConfig.get? (id - 1).toNat =
      some { entry with ExtraConfig := "" } := blankExtraAt_get _ _ _ he
  unfold prepareJob
  rw [hlen, he, hget]
  simp only [hbad, ParseExtraConfig_empty]
  rfl

/-- C21, counterexample: the one task has the extra-field string `{`, which
the decoder rejects, so `ParseExtraConfig` fails; the job nevertheless sends
its request (one call of the doer) and pastes the extracted text `ok`. -/
theorem handleTask_malformed_extra_counterexample :
    ParseExtraConfig strictEnv.unmarshal "\x7b" = none ∧
    doCalls (handleTask malformedExtraConfig [] strictEnv 1) = 1 ∧
    pastes (handleTask malformedExtraConfig [] strictEnv 1) = ["ok"] := by
  refine ⟨by rfl, by rfl, by rfl⟩

/-- C21, amended: when the extra-field string of the task's entry does not
parse as a JSON object, the job does not end there: it goes on with no
per-task extra fields and makes exactly the calls (copy, requests, sleeps,
paste) of the same job whose entry has an empty extra-field string. -/
theorem handleTask_malformed_extra (cfg : Config) (ge : List (String × Value)) (env : JobEnv)
    (id : Int) (entry : HotKeyEntry)
    (he : cfg.HotKeyConfig.get? (id - 1).toNat = some entry)
    (hbad : ParseExtraConfig env.unmarshal entry.ExtraConfig = none) :
    handleTask cfg ge env id = handleTask (withoutExtra cfg id) ge env id := by
  unfold handleTask
  rw [prepareJob_malformed cfg ge env id entry he hbad]
  rfl

/-- C21, witness: the job of the counterexample makes the calls of the job
with an empty extra-field string, a copy, one request and the paste of
`ok`. -/
theorem handleTask_malformed_extra_witness :
    handleTask malformedExtraConfig [] strictEnv 1 =
      handleTask (withoutExtra malformedExtraConfig 1) [] strictEnv 1 ∧
    (withoutExtra malformedExtraConfig 1).HotKeyConfig =
      [{ Prompt := "translate", HotKey := "ctrl+f1", ExtraConfig := "" }] ∧
    pastes (handleTask (withoutExtra malformedExtraConfig 1) [] strictEnv 1) = ["ok"] :=
  ⟨handleTask_malformed_extra malformedExtraConfig [] strictEnv 1
    { Prompt := "translate", HotKey := "ctrl+f1", ExtraConfig := "\x7b" } rfl (by rfl),
   rfl, by rfl⟩

/-- C30: when copying the selection fails or yields only white space, the job
calls the doer zero times and `PasteText` zero times, whatever the
notification setting; when the task id is outside `1..len(HotKeyConfig)` or
the prompt of the entry is blank, the job makes no call at all; and whenever
the id passes the range check, the index expression `HotKeyConfig[id-1]` is in
range and yields the entry the job works with. -/
theorem handleTask_stops_early (cfg : Config) (ge : List (String × Value)) (env : JobEnv)
    (id : Int) :
    (copyBlank env = true →
      doCalls (handleTask cfg ge env id) = 0 ∧ pastes (handleTask cfg ge env id) = [] ∧
      (handleTask cfg ge env id = [] ∨ handleTask cfg ge env id = [Effect.copySelected])) ∧
    (id < 1 ∨ id > cfg.HotKeyConfig.length → handleTask cfg ge env id = []) ∧
    (∀ entry, cfg.HotKeyConfig.get? (id - 1).toNat = some entry →
      TrimSpace entry.Prompt = "" → handleTask cfg ge env id = []) ∧
    (¬ (id < 1 ∨ id > cfg.HotKeyConfig.length) →
      ∃ entry, taskEntry cfg id = .ok entry ∧
        cfg.HotKeyConfig.get? (id - 1).toNat = some entry) := by
  refine ⟨?_, ?_, ?_, ?_⟩
  · intro hc
    have key : handleTask cfg ge env id = [] ∨
        handleTask cfg ge env id = [Effect.copySelected] := by
      unfold handleTask prepareJob
      by_cases h1 : id < 1 ∨ id > cfg.HotKeyConfig.length
      · simp [h1]
      · simp only [h1, if_false]
        cases h2 : cfg.HotKeyConfig.get? (id - 1).toNat with
        | none => simp
        | some entry =>
          simp only []
          by_cases h3 : TrimSpace entry.Prompt = ""
          · simp [h3]
          · simp only [h3, if_false]
            unfold copyBlank at hc
            cases h4 : env.copy with
            | error e => simp
            | ok t =>
              rw [h4] at hc
              simp only [decide_eq_true_eq] at hc
              simp [hc]
    rcases key with h | h <;> rw [h] <;> exact ⟨rfl, rfl, by simp⟩
  · intro h
    simp [handleTask, prepareJob, h]
  · intro entry he hp
    unfold handleTask prepareJob
    by_cases h1 : id < 1 ∨ id > cfg.HotKeyConfig.length
    · simp [h1]
    · simp only [h1, if_false, he, hp, if_true]
  · intro h
    have h1 : 1 ≤ id := by omega
    have h2 : (id - 1).toNat < cfg.HotKeyConfig.length := by omega
    cases hg : cfg.HotKeyConfig.get? (id - 1).toNat with
    | none =>
      rw [List.get?_eq_none] at hg
      omega
    | some entry =>
      refine ⟨entry, ?_, rfl⟩
      have h3 : ¬ (id - 1 < 0) := by omega
      simp only [taskEntry, h3, if_false, hg]

/-- C30, witness: with failure notification enabled, a selection of white
space and a failed copy both end the job after the copy, and the task id 2 of
a list of one task does nothing. -/
theorem handleTask_stops_early_witness :
    notifyConfig.RequestFailedNotification = true ∧
    handleTask notifyConfig [] blankCopyEnv 1 = [Effect.copySelected] ∧
    pastes (handleTask notifyConfig [] failedCopyEnv 1) = [] ∧
    doCalls (handleTask notifyConfig [] failedCopyEnv 1) = 0 ∧
    handleTask notifyConfig [] okEnv 2 = [] :=
  ⟨rfl, by rfl,
   ((handleTask_stops_early notifyConfig [] failedCopyEnv 1).1 (by rfl)).2.1,
   ((handleTask_stops_early notifyConfig [] failedCopyEnv 1).1 (by rfl)).1,
   (handleTask_stops_early notifyConfig [] okEnv 2).2.1 (by decide)⟩

theorem walkIndexes_append (c : Value) (a b : List Int) :
    walkIndexes c (a ++ b) = (walkIndexes c a).bind (fun c' => walkIndexes c' b) := by
  induction a generalizing c with
  | nil => rfl
  | cons i rest ih =>
    cases c with
    | arr xs =>
      simp only [List.cons_append, walkIndexes]
      split
      · rfl
      · cases xs.get? i.toNat with
        | none => rfl
        | some next => exact ih next
    | nil => rfl
    | bool _ => rfl
    | int _ => rfl
    | msgs _ => rfl
    | float _ => rfl
    | str _ => rfl
    | obj _ => rfl

theorem walkParts_cons (cur : Value) (part key : String) (idxs : List Int) (rest : List String)
    (hparse : parseKeyAndIndexes part = some (key, idxs)) :
    walkParts cur (part :: rest) =
      (keyStep cur key).bind (fun c =>
        (walkIndexes c idxs).bind (fun c' => walkParts c' rest)) := by
  simp only [walkParts, hparse, keyStep]
  by_cases hk : key = ""
  · simp only [hk, ne_eq, not_true_eq_false, if_false, if_true, Option.bind]
    cases walkIndexes cur idxs <;> rfl
  · simp only [hk, ne_eq, not_false_eq_true, if_true, if_false]
    cases cur with
    | obj m =>
      simp only []
      cases mapGet m key with
      | none => rfl
      | some c =>
        simp only [Option.bind]
        cases walkIndexes c idxs <;> rfl
    | nil => rfl
    | bool _ => rfl
    | int _ => rfl
    | msgs _ => rfl
    | float _ => rfl
    | str _ => rfl
    | arr _ => rfl

theorem walkParts_append (c : Value) (a b : List String) :
    walkParts c (a ++ b) = (walkParts c a).bind (fun c' => walkParts c' b) := by
  induction a generalizing c with
  | nil => rfl
  | cons p rest ih =>
    cases hp : parseKeyAndIndexes p with
    | none => simp [walkParts, hp]
    | some r =>
      obtain ⟨key, idxs⟩ := r
      rw [List.cons_append, walkParts_cons c p key idxs _ hp, walkParts_cons c p key idxs _ hp]
      cases keyStep c key with
      | none => rfl
      | some c1 =>
        simp only [Option.bind]
        cases walkIndexes c1 idxs with
        | none => rfl
        | some c2 => exact ih c2

theorem walkIndexes_stuck (w : Value) (i : Int) (rest : List Int)
    (h : w.isArr = false ∨ i < 0 ∨ i ≥ w.arrLength) : walkIndexes w (i :: rest) = none := by
  cases w with
  | arr xs =>
    have h2 : i < 0 ∨ i ≥ xs.length := by
      rcases h with h | h | h
      · simp [Value.isArr] at h
      · exact Or.inl h
      · exact Or.inr h
    simp [walkIndexes, h2]
  | nil => rfl
  | bool _ => rfl
  | int _ => rfl
  | msgs _ => rfl
  | float _ => rfl
  | str _ => rfl
  | obj _ => rfl

/-- The index expression of the loop over the indices is never out of range:
the loop evaluated as Go does gives the result of `walkIndexes` and no
panic. -/
theorem walkIndexesGo_safe (c : Value) (idxs : List Int) :
    walkIndexesGo c idxs = .ok (walkIndexes c idxs) := by
  induction idxs generalizing c with
  | nil => rfl
  | cons i rest ih =>
    cases c with
    | arr xs =>
      simp only [walkIndexesGo, walkIndexes]
      by_cases h : i < 0 ∨ i ≥ xs.length
      · simp only [h, if_true]
      · simp only [h, if_false]
        have h1 : ¬ i < 0 := fun e => h (Or.inl e)
        have h2 : i.toNat < xs.length := by omega
        cases hg : xs.get? i.toNat with
        | none =>
          rw [List.get?_eq_none] at hg
          omega
        | some next =>
          simp only [indexValue, h1, if_false, hg]
          exact ih next
    | nil => rfl
    | bool _ => rfl
    | int _ => rfl
    | msgs _ => rfl
    | float _ => rfl
    | str _ => rfl
    | obj _ => rfl

/-- A path one of whose segments cannot be applied has no result. -/
theorem extractByPath_stuck (root : Value) (path : String) (pre post : List String)
    (part key : String) (idxs : List Int) (cur : Value)
    (hparts : (splitOnChar '.' path.data).map String.mk = pre ++ part :: post)
    (hpre : walkParts root pre = some cur)
    (hparse : parseKeyAndIndexes part = some (key, idxs))
    (hstuck : (keyStep cur key).bind (fun c => walkIndexes c idxs) = none) :
    extractByPath root path = none := by
  unfold extractByPath
  split
  · rfl
  · simp only [hparts]
    rw [walkParts_append, hpre]
    simp only [Option.bind]
    rw [walkParts_cons cur part key idxs post hparse]
    cases hk : keyStep cur key with
    | none => rfl
    | some c =>
      rw [hk] at hstuck
      simp only [Option.bind] at hstuck ⊢
      rw [hstuck]

theorem renderTerminal_container (v : Value) (h : v.isContainerOrNull = true) :
    renderTerminal v = none := by
  cases v <;> first | rfl | simp [Value.isContainerOrNull] at h

/-- C27: take any root and any path, and in the path a segment `part`, between
the segments `pre` and `post`, that reads as the key `key` and the indices
`idxs`, the walk of `pre` having reached the value `cur`. `extractByPath`
reports failure when the key is applied to a value that is not a mapping,
when the key is missing from the mapping, when an index is applied to a value
that is not a sequence, and when an index is negative or not less than the
length of the sequence; it also reports failure when the value reached at the
end of the path is an object, an array or null. The index expression of the
loop over the indices is never evaluated out of range: run as Go runs it, the
loop ends without a panic. -/
theorem extractByPath_failures (root : Value) (path : String) (pre post : List String)
    (part key : String) (idxs : List Int) (cur : Value)
    (hparts : (splitOnChar '.' path.data).map String.mk = pre ++ part :: post)
    (hpre : walkParts root pre = some cur)
    (hparse : parseKeyAndIndexes part = some (key, idxs)) :
    (key ≠ "" → cur.isObj = false → extractByPath root path = none) ∧
    (∀ m, key ≠ "" → cur = .obj m → mapGet m key = none → extractByPath root path = none) ∧
    (∀ (after : Value) (ipre : List Int) (i : Int) (ipost : List Int) (w : Value),
      keyStep cur key = some after → idxs = ipre ++ i :: ipost →
      walkIndexes after ipre = some w →
      (w.isArr = false ∨ i < 0 ∨ i ≥ (w.arrLength : Int)) →
      extractByPath root path = none) ∧
    (∀ v, walkParts root ((splitOnChar '.' path.data).map String.mk) = some v →
      v.isContainerOrNull = true → extractByPath root path = none) ∧
    (∀ c is, walkIndexesGo c is = .ok (walkIndexes c is)) := by
  refine ⟨?_, ?_, ?_, ?_, walkIndexesGo_safe⟩
  · intro hk hc
    apply extractByPath_stuck root path pre post part key idxs cur hparts hpre hparse
    have : keyStep cur key = none := by
      cases cur <;> first | (simp [Value.isObj] at hc; done) | simp [keyStep, hk]
    rw [this]
    rfl
  · intro m hk hc hm
    apply extractByPath_stuck root path pre post part key idxs cur hparts hpre hparse
    have : keyStep cur key = none := by
      rw [hc]
      simp [keyStep, hk, hm]
    rw [this]
    rfl
  · intro after ipre i ipost w hafter hidx hw hbad
    apply extractByPath_stuck root path pre post part key idxs cur hparts hpre hparse
    rw [hafter, hidx]
    simp only [Option.bind]
    rw [walkIndexes_append, hw]
    simp only [Option.bind]
    exact walkIndexes_stuck w i ipost hbad
  · intro v hv hc
    unfold extractByPath
    split
    · rfl
    · simp only [hv]
      exact renderTerminal_container v hc

/-- C27, witness: in the response `{"choices":[{"message":{"content":"hello"}}]}`
the path `choices[5].message` fails at the index 5 of a sequence of one item,
the path `choices[-1]` at the negative index, the path `choices.message` at a
key applied to a sequence, and the path `choices[0].message` ends at an
object. -/
theorem extractByPath_failures_witness :
    extractByPath (choicesResponse "hello") "choices[5].message" = none ∧
    extractByPath (choicesResponse "hello") "choices[-1]" = none ∧
    extractByPath (choicesResponse "hello") "choices.message" = none ∧
    extractByPath (choicesResponse "hello") "choices[0].message" = none :=
  ⟨(extractByPath_failures (choicesResponse "hello") "choices[5].message" [] ["message"]
      "choices[5]" "choices" [5] (choicesResponse "hello") (by rfl) (by rfl) (by rfl)).2.2.1
      (.arr [.obj [("message", .obj [("content", .str "hello")])]]) [] 5 []
      (.arr [.obj [("message", .obj [("content", .str "hello")])]]) (by rfl) (by rfl) (by rfl)
      (Or.inr (Or.inr (by decide))),
   (extractByPath_failures (choicesResponse "hello") "choices[-1]" [] []
      "choices[-1]" "choices" [-1] (choicesResponse "hello") (by rfl) (by rfl) (by rfl)).2.2.1
      (.arr [.obj [("message", .obj [("content", .str "hello")])]]) [] (-1) []
      (.arr [.obj [("message", .obj [("content", .str "hello")])]]) (by rfl) (by rfl) (by rfl)
      (Or.inr (Or.inl (by decide))),
   (extractByPath_failures (choicesResponse "hello") "choices.message" ["choices"] []
      "message" "message" [] (.arr [.obj [("message", .obj [("content", .str "hello")])]])
      (by rfl) (by rfl) (by rfl)).1 (by decide) (by rfl),
   (extractByPath_failures (choicesResponse "hello") "choices[0].message" [] ["message"]
      "choices[0]" "choices" [0] (choicesResponse "hello") (by rfl) (by rfl) (by rfl)).2.2.2.1
      (.obj [("content", .str "hello")]) (by rfl) (by rfl)⟩

theorem run_stopDrains (l : List Int) (s : App) :
    run s (l.map (fun _ => Action.stopDrain)) = { s with eventCh := s.eventCh.drop l.length } := by
  induction l generalizing s with
  | nil => rfl
  | cons x rest ih =>
    simp only [List.map_cons, run, List.foldl_cons] at ih ⊢
    rw [ih]
    simp [step, stopDrain, List.drop_tail]

/-- The steps of a call of `StopAll` that nothing interrupts give the state
`StopAll` returns. -/
theorem run_stopAllSteps (a : App) : run a (stopAllSteps a) = StopAll a := by
  have h : (stopCancel a).eventCh = a.eventCh := by
    unfold stopCancel
    split <;> rfl
  have e : run a (stopAllSteps a) =
      run (stopCancel a) (a.eventCh.map (fun _ => Action.stopDrain)) := rfl
  rw [e, run_stopDrains, h]
  simp [StopAll, drain_eq_nil]

/-- C2, the code at the failing schedule: in the situation of
`TestStopAllCancelsCurrentAndClearsQueue` one id is pending when `StopAll` is
called. A call of `StopAll` that nothing interrupts leaves the queue empty and
the pending id is never started: one job, one call of `CopySelected`. But the
mutex is released before the drain loop; when the cancelled job returns and
the worker receives the pending id before the loop looks at the channel, the
loop finds it empty and the pending id is run: two jobs started, two calls of
`CopySelected`, where the test expects one. -/
theorem StopAll_race :
    stopTestApp.worker = .running 1 true ∧ stopTestApp.eventCh = [1] ∧
    (∀ a : App, run a (stopAllSteps a) = StopAll a ∧ (StopAll a).eventCh = [] ∧
      (StopAll a).closed = a.closed) ∧
    startedIds (run stopTestApp (stopAllSteps stopTestApp ++ [.finish cancelledEnv])).log
      = [1] ∧
    copyCalls (run stopTestApp (stopAllSteps stopTestApp ++ [.finish cancelledEnv])).log
      = 1 ∧
    startedIds (run stopTestApp stopRace).log = [1, 1] ∧
    copyCalls (run stopTestApp stopRace).log = 2 ∧
    finishedIds (run stopTestApp stopRace).log = [1, 1] ∧
    (run stopTestApp stopRace).eventCh = [] ∧
    (run stopTestApp stopRace).closed = false := by
  refine ⟨by rfl, by rfl, ?_, by rfl, by rfl, by rfl, by rfl, by rfl, by rfl, by rfl⟩
  intro a
  refine ⟨run_stopAllSteps a, by simp [StopAll, drain_eq_nil], ?_⟩
  simp only [StopAll, stopCancel]
  split <;> rfl

end STP
